import Mathlib

/-!
# Principia: kinematics of rigid reference frames, fixed arrays

A shallow embedding of `physics/rigid_reference_frame_body.hpp` and of the
triangular matrices of `numerics/fixed_arrays_body.hpp`, with models of the
transform pipeline declared in `physics/transforms.hpp` and of the matrix
computations exercised by `numerics/matrix_computations_test.cpp`.

Scalars.  The C++ code computes with `double`-backed dimensioned quantities.
Here every scalar lives in one field `K` (exact arithmetic; `ℚ` for
evaluation, `ℝ` for statements that need square roots).  Dimensions and the
frame tags are compile-time only and are erased.  The square root is taken as
a function `Sqrt : K → K` supplied by the caller.  The outcome of the check
`DCHECK_EQ(coriolis_acceleration, 0)` depends on the arithmetic of `double`
(overflow, infinities, NaN): that computation is embedded a second time, over
the model `Binary64` of the `double` values.

Geometry.  The classes of `geometry/` (`R3Element`, `Vector`, `Bivector`,
`Point`, `R3x3Matrix`, `OrthogonalMap`, `Rotation`, `RigidTransformation`) and
of `physics/rigid_motion.hpp` are not part of the excerpt; they are modelled
below by their coordinates.

Arrays.  A `std::array` is its indexing function on the natural numbers.  An
array that the source leaves uninitialized before filling it has arbitrary
initial contents, passed as a parameter.
-/

namespace Principia

/-! ## Geometry primitives -/

/-- Modelled from the spec: the coordinate triple `R3Element<Scalar>` of
`geometry/r3_element.hpp`, which is missing from the excerpt. -/
structure R3Element (K : Type) where
  x : K
  y : K
  z : K
deriving DecidableEq, Repr

/-- Modelled from the spec: `Vector<Scalar, Frame>` of `geometry/grassmann.hpp`
(missing), reduced to its coordinates. -/
abbrev Vector (K : Type) := R3Element K

/-- Modelled from the spec: `Bivector<Scalar, Frame>` of
`geometry/grassmann.hpp` (missing), reduced to its coordinates. -/
abbrev Bivector (K : Type) := R3Element K

namespace R3Element

variable {K : Type} [Field K]

instance : Zero (R3Element K) := ⟨⟨0, 0, 0⟩⟩

instance : Add (R3Element K) := ⟨fun l r => ⟨l.x + r.x, l.y + r.y, l.z + r.z⟩⟩

instance : Sub (R3Element K) := ⟨fun l r => ⟨l.x - r.x, l.y - r.y, l.z - r.z⟩⟩

instance : Neg (R3Element K) := ⟨fun r => ⟨-r.x, -r.y, -r.z⟩⟩

/-- Scalar times triple: `operator*(LScalar, R3Element<RScalar>)`. -/
instance : HMul K (R3Element K) (R3Element K) :=
  ⟨fun l r => ⟨l * r.x, l * r.y, l * r.z⟩⟩

/-- Triple divided by a scalar: `operator/(R3Element<LScalar>, RScalar)`. -/
instance : HDiv (R3Element K) K (R3Element K) :=
  ⟨fun l r => ⟨l.x / r, l.y / r, l.z / r⟩⟩

/-- The function `Cross` of `r3_element_body.hpp`. -/
def Cross (l r : R3Element K) : R3Element K :=
  ⟨l.y * r.z - l.z * r.y, l.z * r.x - l.x * r.z, l.x * r.y - l.y * r.x⟩

/-- The function `Dot` of `r3_element_body.hpp`. -/
def Dot (l r : R3Element K) : K :=
  l.x * r.x + l.y * r.y + l.z * r.z

/-- The member `R3Element::Norm²`. -/
def Norm2 (r : R3Element K) : K :=
  r.x * r.x + r.y * r.y + r.z * r.z

/-- The member `R3Element::Norm`: the square root of `Norm²`. -/
def Norm (Sqrt : K → K) (r : R3Element K) : K :=
  Sqrt (Norm2 r)

end R3Element

open R3Element

variable {K : Type} [Field K]

/-- Modelled from the spec: `operator*(Bivector, Vector)` of
`geometry/grassmann_body.hpp` (missing): the cross product of the coordinates. -/
def Bivector.mulVector (l : Bivector K) (r : Vector K) : Vector K :=
  Cross l r

/-- Modelled from the spec: `Wedge(Vector, Vector)` of
`geometry/grassmann_body.hpp` (missing): the bivector whose coordinates are the
cross product of the coordinates. -/
def Wedge (l r : Vector K) : Bivector K :=
  Cross l r

/-- Modelled from the spec: `InnerProduct(Vector, Vector)` of
`geometry/grassmann_body.hpp` (missing): the dot product of the coordinates. -/
def InnerProduct (l r : Vector K) : K :=
  Dot l r

/-- Modelled from the spec: the constant `Radian` of `quantities/si.hpp`
(missing): the unit of angle, of magnitude one. -/
def Radian : K := 1

/-- Modelled from the spec: `Pow<2>` of `quantities/elementary_functions.hpp`
(missing). -/
def Pow2 (a : K) : K := a * a

/-- Modelled from the spec: `Point<Displacement<Frame>>` of
`geometry/point.hpp` (missing): an affine point, given by its coordinates from
the origin of the frame. -/
structure Position (K : Type) where
  coordinates : Vector K
deriving DecidableEq, Repr

/-- The constant `Frame::origin`. -/
def Position.origin : Position K := ⟨0⟩

/-- Point minus point is a displacement. -/
def Position.sub (p q : Position K) : Vector K := p.coordinates - q.coordinates

/-- Displacement plus point is a point. -/
def Position.translate (v : Vector K) (p : Position K) : Position K :=
  ⟨v + p.coordinates⟩

/-- The constant `Frame::unmoving`: the zero velocity. -/
def unmoving : Vector K := 0

/-- Modelled from the spec: `DegreesOfFreedom<Frame>` of
`physics/degrees_of_freedom.hpp` (missing): a position and a velocity. -/
structure DegreesOfFreedom (K : Type) where
  position : Position K
  velocity : Vector K
deriving DecidableEq, Repr

/-- Modelled from the spec: `R3x3Matrix<Scalar>` of
`geometry/r3x3_matrix.hpp` (missing), stored by rows. -/
structure R3x3Matrix (K : Type) where
  row_x : R3Element K
  row_y : R3Element K
  row_z : R3Element K
deriving DecidableEq, Repr

/-- The matrix whose columns are the three given triples:
`R3x3Matrix::FromColumns`. -/
def R3x3Matrix.FromColumns (c₀ c₁ c₂ : R3Element K) : R3x3Matrix K :=
  ⟨⟨c₀.x, c₁.x, c₂.x⟩, ⟨c₀.y, c₁.y, c₂.y⟩, ⟨c₀.z, c₁.z, c₂.z⟩⟩

/-- The member `R3x3Matrix::Transpose`. -/
def R3x3Matrix.Transpose (m : R3x3Matrix K) : R3x3Matrix K :=
  R3x3Matrix.FromColumns m.row_x m.row_y m.row_z

/-- Matrix times triple: `operator*(R3x3Matrix, R3Element)`. -/
def R3x3Matrix.mulVec (m : R3x3Matrix K) (r : R3Element K) : R3Element K :=
  ⟨Dot m.row_x r, Dot m.row_y r, Dot m.row_z r⟩

/-- Modelled from the spec: `OrthogonalMap<FromFrame, ToFrame>` of
`geometry/orthogonal_map.hpp` (missing), the rotational part of a rigid
transformation, represented by its matrix.  It acts on the coordinates of
vectors and of bivectors alike. -/
structure OrthogonalMap (K : Type) where
  matrix : R3x3Matrix K
deriving DecidableEq, Repr

/-- The call operator `OrthogonalMap::operator()`. -/
def OrthogonalMap.apply (m : OrthogonalMap K) (r : R3Element K) : R3Element K :=
  m.matrix.mulVec r

/-- The member `OrthogonalMap::Inverse`: the transposed matrix. -/
def OrthogonalMap.Inverse (m : OrthogonalMap K) : OrthogonalMap K :=
  ⟨m.matrix.Transpose⟩

/-- Modelled from the spec: `RigidTransformation<FromFrame, ToFrame>` of
`geometry/rigid_transformation.hpp` (missing): the affine map
`p ↦ linear_map (p - from_origin) + to_origin`. -/
structure RigidTransformation (K : Type) where
  from_origin : Position K
  to_origin : Position K
  linear_map : OrthogonalMap K
deriving DecidableEq, Repr

/-- The call operator `RigidTransformation::operator()`. -/
def RigidTransformation.apply (f : RigidTransformation K) (p : Position K) : Position K :=
  Position.translate (f.linear_map.apply (p.sub f.from_origin)) f.to_origin

/-- The member `RigidTransformation::Inverse`. -/
def RigidTransformation.Inverse (f : RigidTransformation K) : RigidTransformation K :=
  ⟨f.to_origin, f.from_origin, f.linear_map.Inverse⟩

/-- Modelled from the spec: `RigidMotion<FromFrame, ToFrame>` of
`physics/rigid_motion.hpp` (missing): a rigid transformation with its first
time derivative, the angular velocity of `ToFrame` and the velocity of its
origin, both in the coordinates of `FromFrame`. -/
structure RigidMotion (K : Type) where
  rigid_transformation : RigidTransformation K
  angular_velocity_of_to_frame : Bivector K
  velocity_of_to_frame_origin : Vector K
deriving DecidableEq, Repr

/-- The accessor `RigidMotion::orthogonal_map`. -/
def RigidMotion.orthogonal_map (m : RigidMotion K) : OrthogonalMap K :=
  m.rigid_transformation.linear_map

/-- The accessor `RigidMotion::angular_velocity_of<ToFrame>`: the angular
velocity of the target frame, in the coordinates of the source frame. -/
def RigidMotion.angular_velocity_of_to (m : RigidMotion K) : Bivector K :=
  m.angular_velocity_of_to_frame

/-- The call operator `RigidMotion::operator()` on degrees of freedom. -/
def RigidMotion.apply (m : RigidMotion K) (d : DegreesOfFreedom K) : DegreesOfFreedom K :=
  ⟨m.rigid_transformation.apply d.position,
   m.orthogonal_map.apply
     (d.velocity - m.velocity_of_to_frame_origin -
       Bivector.mulVector m.angular_velocity_of_to_frame
         (d.position.sub (m.rigid_transformation.Inverse.apply Position.origin)) / (Radian : K))⟩

/-- The member `RigidMotion::Inverse`. -/
def RigidMotion.Inverse (m : RigidMotion K) : RigidMotion K :=
  ⟨m.rigid_transformation.Inverse,
   -m.orthogonal_map.apply m.angular_velocity_of_to_frame,
   (m.apply ⟨Position.origin, unmoving⟩).velocity⟩

/-- Modelled from the spec: `AcceleratedRigidMotion<FromFrame, ToFrame>` of
`physics/rigid_motion.hpp` (missing): a rigid motion with its second time
derivative. -/
structure AcceleratedRigidMotion (K : Type) where
  rigid_motion : RigidMotion K
  angular_acceleration_of_to_frame : Bivector K
  acceleration_of_to_frame_origin : Vector K
deriving DecidableEq, Repr

/-- The accessor `AcceleratedRigidMotion::angular_acceleration_of<ToFrame>`. -/
def AcceleratedRigidMotion.angular_acceleration_of_to (m : AcceleratedRigidMotion K) :
    Bivector K :=
  m.angular_acceleration_of_to_frame

/-- The accessor `AcceleratedRigidMotion::acceleration_of_origin_of<ToFrame>`. -/
def AcceleratedRigidMotion.acceleration_of_origin_of_to (m : AcceleratedRigidMotion K) :
    Vector K :=
  m.acceleration_of_to_frame_origin

/-! ## `ReferenceFrame` -/

/-- An instant of time. -/
abbrev Instant (K : Type) := K

/-- The abstract class `ReferenceFrame<InertialFrame, ThisFrame>`: its pure
virtual members, which each frame variant supplies. -/
structure ReferenceFrame (K : Type) where
  MotionOfThisFrame : Instant K → AcceleratedRigidMotion K
  GravitationalAcceleration : Instant K → Position K → Vector K
  GravitationalPotential : Instant K → Position K → K

/-- The five output parameters of `ComputeGeometricAccelerations`. -/
structure GeometricAccelerations (K : Type) where
  gravitational_acceleration : Vector K
  linear_acceleration : Vector K
  coriolis_acceleration : Vector K
  centrifugal_acceleration : Vector K
  euler_acceleration : Vector K
deriving DecidableEq, Repr

/-- `ReferenceFrame::ComputeGeometricAccelerations`
(rigid_reference_frame_body.hpp, lines 183-218). -/
def ReferenceFrame.ComputeGeometricAccelerations (f : ReferenceFrame K) (t : Instant K)
    (degrees_of_freedom : DegreesOfFreedom K) : GeometricAccelerations K :=
  let motion := f.MotionOfThisFrame t
  let to_this_frame := motion.rigid_motion
  let from_this_frame := to_this_frame.Inverse
  let Ω : Bivector K := to_this_frame.orthogonal_map.apply to_this_frame.angular_velocity_of_to
  let dΩ_over_dt : Bivector K :=
    to_this_frame.orthogonal_map.apply motion.angular_acceleration_of_to
  let r : Vector K := degrees_of_freedom.position.sub Position.origin
  { gravitational_acceleration :=
      to_this_frame.orthogonal_map.apply
        (f.GravitationalAcceleration t
          (from_this_frame.rigid_transformation.apply degrees_of_freedom.position))
    linear_acceleration :=
      -to_this_frame.orthogonal_map.apply motion.acceleration_of_origin_of_to
    coriolis_acceleration :=
      Bivector.mulVector ((-2 : K) * Ω) degrees_of_freedom.velocity / (Radian : K)
    centrifugal_acceleration :=
      Bivector.mulVector (-Ω) (Bivector.mulVector Ω r) / Pow2 (Radian : K)
    euler_acceleration := Bivector.mulVector (-dΩ_over_dt) r / (Radian : K) }

/-- `ReferenceFrame::GeometricAcceleration`
(rigid_reference_frame_body.hpp, lines 37-58). -/
def ReferenceFrame.GeometricAcceleration (f : ReferenceFrame K) (t : Instant K)
    (degrees_of_freedom : DegreesOfFreedom K) : Vector K :=
  let a := f.ComputeGeometricAccelerations t degrees_of_freedom
  a.gravitational_acceleration +
    (a.linear_acceleration + a.coriolis_acceleration +
      a.centrifugal_acceleration + a.euler_acceleration)

/-- `ReferenceFrame::RotationFreeGeometricAccelerationAtRest`
(rigid_reference_frame_body.hpp, lines 60-81).  The result is `none` when the
check `DCHECK_EQ(coriolis_acceleration, 0)` fails.  Here the check compares
exact values, which says nothing of an overflow; the same function on `double`
values is `Binary64.ReferenceFrame.RotationFreeGeometricAccelerationAtRest`. -/
def ReferenceFrame.RotationFreeGeometricAccelerationAtRest [DecidableEq K]
    (f : ReferenceFrame K) (t : Instant K) (position : Position K) : Option (Vector K) :=
  let a := f.ComputeGeometricAccelerations t ⟨position, unmoving⟩
  if a.coriolis_acceleration = (0 : Vector K) then
    some (a.gravitational_acceleration +
      (a.linear_acceleration + a.centrifugal_acceleration))
  else
    none

/-- `ReferenceFrame::GeometricPotential`
(rigid_reference_frame_body.hpp, lines 83-108). -/
def ReferenceFrame.GeometricPotential (f : ReferenceFrame K) (t : Instant K)
    (position : Position K) : K :=
  let motion := f.MotionOfThisFrame t
  let to_this_frame := motion.rigid_motion
  let from_this_frame := to_this_frame.Inverse
  let Ω : Bivector K := to_this_frame.orthogonal_map.apply to_this_frame.angular_velocity_of_to
  let r : Vector K := position.sub Position.origin
  let gravitational_potential :=
    f.GravitationalPotential t (from_this_frame.rigid_transformation.apply position)
  let linear_potential :=
    InnerProduct r (to_this_frame.orthogonal_map.apply motion.acceleration_of_origin_of_to)
  let centrifugal_potential := (-(1 / 2) : K) * Norm2 (Bivector.mulVector Ω r / (Radian : K))
  gravitational_potential + (linear_potential + centrifugal_potential)

/-! ## The Frenet frame -/

/-- Modelled from the spec: `Normalize` of `geometry/grassmann_body.hpp`
(missing): the vector divided by its norm, undefined (`none`) for a vector of
norm zero. -/
def Normalize [DecidableEq K] (Sqrt : K → K) (v : Vector K) : Option (Vector K) :=
  let norm := Norm Sqrt v
  if norm = 0 then none else some (v / norm)

/-- Modelled from the spec: `Vector::OrthogonalizationAgainst` of
`geometry/grassmann_body.hpp` (missing): the vector minus its projection on
the direction of the argument, undefined when the argument has norm zero. -/
def OrthogonalizationAgainst [DecidableEq K] (Sqrt : K → K) (a v : Vector K) :
    Option (Vector K) :=
  (Normalize Sqrt v).map fun v_normalized => a - Dot a v_normalized * v_normalized

/-- Modelled from the spec: `Rotation<FromFrame, ToFrame>` of
`geometry/rotation.hpp` (missing), represented by its matrix. -/
structure Rotation (K : Type) where
  matrix : R3x3Matrix K
deriving DecidableEq, Repr

/-- The constructor `Rotation(x_from_frame, y_from_frame, z_from_frame)` from
the axes of the source frame expressed in the target frame. -/
def Rotation.ofAxes (x_from_frame y_from_frame : Vector K) (z_from_frame : Bivector K) :
    Rotation K :=
  ⟨R3x3Matrix.FromColumns x_from_frame y_from_frame z_from_frame⟩

/-- The call operator `Rotation::operator()`. -/
def Rotation.apply (ρ : Rotation K) (v : R3Element K) : R3Element K :=
  ρ.matrix.mulVec v

/-- `ReferenceFrame::FrenetFrame`
(rigid_reference_frame_body.hpp, lines 110-126). -/
def ReferenceFrame.FrenetFrame [DecidableEq K] (Sqrt : K → K) (f : ReferenceFrame K)
    (t : Instant K) (degrees_of_freedom : DegreesOfFreedom K) : Option (Rotation K) :=
  let velocity := degrees_of_freedom.velocity
  let acceleration := f.GeometricAcceleration t degrees_of_freedom
  (OrthogonalizationAgainst Sqrt acceleration velocity).bind fun normal_acceleration =>
  (Normalize Sqrt velocity).bind fun tangent =>
  (Normalize Sqrt normal_acceleration).bind fun normal =>
  let binormal := Wedge tangent normal
  some (Rotation.ofAxes tangent normal binormal)

/-! ## Reading a frame from a message -/

/-- The four frame variants, in the order in which `ReadFromMessage` examines
their extensions. -/
inductive Variant where
  | BarycentricRotating
  | BodyCentredBodyDirection
  | BodyCentredNonRotating
  | BodySurface
deriving DecidableEq, Repr

/-- Modelled from the spec: the message `serialization::ReferenceFrame`
(its declaration is missing): four independent optional extension payloads.
`HasExtension` is `Option.isSome`, `GetExtension` is the payload. -/
structure serialization.ReferenceFrame (P₁ P₂ P₃ P₄ : Type) where
  BarycentricRotatingReferenceFrame : Option P₁
  BodyCentredBodyDirectionReferenceFrame : Option P₂
  BodyCentredNonRotatingReferenceFrame : Option P₃
  BodySurfaceReferenceFrame : Option P₄
deriving DecidableEq, Repr

/-- Modelled from the spec: the static member `ReadFromMessage` of each of the
four variant classes (missing): the reconstruction of a frame of that variant
from the ephemeris and the payload. -/
structure VariantReaders (E P₁ P₂ P₃ P₄ F : Type) where
  BarycentricRotatingReferenceFrame : E → P₁ → F
  BodyCentredBodyDirectionReferenceFrame : E → P₂ → F
  BodyCentredNonRotatingReferenceFrame : E → P₃ → F
  BodySurfaceReferenceFrame : E → P₄ → F

/-- The local state of `ReferenceFrame::ReadFromMessage`: the variables
`result` and `extensions_found`, and the log of the variant reconstructions
invoked so far. -/
structure ReadState (F : Type) where
  result : Option F
  extensions_found : Nat
  calls : List Variant
deriving DecidableEq, Repr

/-- The body of one `if (message.HasExtension(...))` block of
`ReadFromMessage`: count the extension, invoke the reconstruction and assign
its value to `result`. -/
def ReadState.found {F : Type} (s : ReadState F) (v : Variant) (frame : F) : ReadState F :=
  { result := some frame
    extensions_found := s.extensions_found + 1
    calls := s.calls ++ [v] }

section ReadFromMessage

variable {E P₁ P₂ P₃ P₄ F : Type}

/-- The four `if` blocks of `ReferenceFrame::ReadFromMessage`
(rigid_reference_frame_body.hpp, lines 133-178), up to the final check. -/
def ReferenceFrame.ReadFromMessage.run (readers : VariantReaders E P₁ P₂ P₃ P₄ F)
    (message : serialization.ReferenceFrame P₁ P₂ P₃ P₄) (ephemeris : E) : ReadState F :=
  let s₀ : ReadState F := ⟨none, 0, []⟩
  let s₁ :=
    match message.BarycentricRotatingReferenceFrame with
    | some extension =>
      s₀.found .BarycentricRotating
        (readers.BarycentricRotatingReferenceFrame ephemeris extension)
    | none => s₀
  let s₂ :=
    match message.BodyCentredBodyDirectionReferenceFrame with
    | some extension =>
      s₁.found .BodyCentredBodyDirection
        (readers.BodyCentredBodyDirectionReferenceFrame ephemeris extension)
    | none => s₁
  let s₃ :=
    match message.BodyCentredNonRotatingReferenceFrame with
    | some extension =>
      s₂.found .BodyCentredNonRotating
        (readers.BodyCentredNonRotatingReferenceFrame ephemeris extension)
    | none => s₂
  let s₄ :=
    match message.BodySurfaceReferenceFrame with
    | some extension =>
      s₃.found .BodySurface (readers.BodySurfaceReferenceFrame ephemeris extension)
    | none => s₃
  s₄

/-- `ReferenceFrame::ReadFromMessage`
(rigid_reference_frame_body.hpp, lines 128-181).  A failed
`CHECK_EQ(extensions_found, 1)` is fatal: the result is an error.  The returned
pointer is `not_null`, so a null `result` is an error too. -/
def ReferenceFrame.ReadFromMessage (readers : VariantReaders E P₁ P₂ P₃ P₄ F)
    (message : serialization.ReferenceFrame P₁ P₂ P₃ P₄) (ephemeris : E) :
    Except String F :=
  let s := ReferenceFrame.ReadFromMessage.run readers message ephemeris
  if s.extensions_found = 1 then
    match s.result with
    | some frame => .ok frame
    | none => .error "not_null: the pointer is null"
  else
    .error "Check failed: extensions_found == 1"

/-- The number of payloads present in a message. -/
def serialization.ReferenceFrame.payloads_present
    (message : serialization.ReferenceFrame P₁ P₂ P₃ P₄) : Nat :=
  [message.BarycentricRotatingReferenceFrame.isSome,
   message.BodyCentredBodyDirectionReferenceFrame.isSome,
   message.BodyCentredNonRotatingReferenceFrame.isSome,
   message.BodySurfaceReferenceFrame.isSome].count true

end ReadFromMessage

/-- A square root function that is exact on an ordered field: for `x ≥ 0`,
`Sqrt x` is nonnegative and squares to `x`. -/
def ExactSqrt {R : Type} [LinearOrderedField R] (Sqrt : R → R) : Prop :=
  ∀ x : R, 0 ≤ x → 0 ≤ Sqrt x ∧ Sqrt x * Sqrt x = x

/-! ## Sample data -/

/-- Sample readers: each variant's reconstruction records its own tag, the
ephemeris and the payload. -/
def sampleReaders : VariantReaders Nat Nat Nat Nat Nat (Variant × Nat × Nat) where
  BarycentricRotatingReferenceFrame := fun ephemeris extension =>
    (.BarycentricRotating, ephemeris, extension)
  BodyCentredBodyDirectionReferenceFrame := fun ephemeris extension =>
    (.BodyCentredBodyDirection, ephemeris, extension)
  BodyCentredNonRotatingReferenceFrame := fun ephemeris extension =>
    (.BodyCentredNonRotating, ephemeris, extension)
  BodySurfaceReferenceFrame := fun ephemeris extension =>
    (.BodySurface, ephemeris, extension)

/-- A sample message carrying only a `BodyCentredBodyDirection` payload. -/
def sampleMessage : serialization.ReferenceFrame Nat Nat Nat Nat :=
  ⟨none, some 7, none, none⟩

/-- A sample frame: its axes are those of the inertial frame turned by a
quarter turn about `z`, its origin is at `(1, 0, 0)`, it rotates about `z` at
unit rate with angular acceleration `(0, 0, 3)`, its origin accelerates along
`y`, and the gravitational field is uniform along `-z`. -/
def sampleFrame : ReferenceFrame K where
  MotionOfThisFrame := fun _ =>
    { rigid_motion :=
        { rigid_transformation :=
            { from_origin := ⟨⟨1, 0, 0⟩⟩
              to_origin := Position.origin
              linear_map := ⟨⟨⟨0, 1, 0⟩, ⟨-1, 0, 0⟩, ⟨0, 0, 1⟩⟩⟩ }
          angular_velocity_of_to_frame := ⟨0, 0, 1⟩
          velocity_of_to_frame_origin := ⟨0, 1, 0⟩ }
      angular_acceleration_of_to_frame := ⟨0, 0, 3⟩
      acceleration_of_to_frame_origin := ⟨0, 5, 0⟩ }
  GravitationalAcceleration := fun _ _ => ⟨0, 0, -10⟩
  GravitationalPotential := fun _ q => 10 * q.coordinates.z

/-- Sample degrees of freedom: at `(1, 0, 0)`, moving along `x` at unit speed. -/
def sampleDegreesOfFreedom : DegreesOfFreedom K :=
  ⟨⟨⟨1, 0, 0⟩⟩, ⟨1, 0, 0⟩⟩

/-! ## The default frame transformations -/

/-- The virtual members `ToThisFrameAtTime` and `FromThisFrameAtTime` as a frame
variant supplies them: `some g` is an override of the variant, `none` means
that the variant inherits the default of the base class. -/
structure FrameOverrides (K : Type) where
  ToThisFrameAtTime : Option (Instant K → RigidMotion K)
  FromThisFrameAtTime : Option (Instant K → RigidMotion K)

mutual

/-- `ReferenceFrame::ToThisFrameAtTime` (rigid_reference_frame_body.hpp,
lines 23-28), dispatched on the variant: the override if there is one, else the
default `FromThisFrameAtTime(t).Inverse()`.  The fuel bounds the depth of the
calls of the defaults; `none` means that it ran out. -/
def ReferenceFrame.ToThisFrameAtTime (v : FrameOverrides K) :
    Nat → Instant K → Option (RigidMotion K)
  | fuel, t =>
    match v.ToThisFrameAtTime with
    | some g => some (g t)
    | none =>
      match fuel with
      | 0 => none
      | fuel + 1 => (ReferenceFrame.FromThisFrameAtTime v fuel t).map RigidMotion.Inverse

/-- `ReferenceFrame::FromThisFrameAtTime` (rigid_reference_frame_body.hpp,
lines 30-35), dispatched on the variant: the override if there is one, else the
default `ToThisFrameAtTime(t).Inverse()`. -/
def ReferenceFrame.FromThisFrameAtTime (v : FrameOverrides K) :
    Nat → Instant K → Option (RigidMotion K)
  | fuel, t =>
    match v.FromThisFrameAtTime with
    | some g => some (g t)
    | none =>
      match fuel with
      | 0 => none
      | fuel + 1 => (ReferenceFrame.ToThisFrameAtTime v fuel t).map RigidMotion.Inverse

end

/-! ## Counting the calls of `MotionOfThisFrame` -/

/-- An instrumented `MotionOfThisFrame`: it returns what the frame returns and
appends the instant to the log of its calls. -/
def Instrumented.MotionOfThisFrame (f : ReferenceFrame K) (t : Instant K)
    (calls : List (Instant K)) : AcceleratedRigidMotion K × List (Instant K) :=
  (f.MotionOfThisFrame t, calls ++ [t])

/-- `ReferenceFrame::ComputeGeometricAccelerations` over the instrumented
frame, the log of the calls of `MotionOfThisFrame` being passed along. -/
def Instrumented.ComputeGeometricAccelerations (f : ReferenceFrame K) (t : Instant K)
    (degrees_of_freedom : DegreesOfFreedom K) (calls : List (Instant K)) :
    GeometricAccelerations K × List (Instant K) :=
  let (motion, calls) := Instrumented.MotionOfThisFrame f t calls
  let to_this_frame := motion.rigid_motion
  let from_this_frame := to_this_frame.Inverse
  let Ω : Bivector K := to_this_frame.orthogonal_map.apply to_this_frame.angular_velocity_of_to
  let dΩ_over_dt : Bivector K :=
    to_this_frame.orthogonal_map.apply motion.angular_acceleration_of_to
  let r : Vector K := degrees_of_freedom.position.sub Position.origin
  ({ gravitational_acceleration :=
       to_this_frame.orthogonal_map.apply
         (f.GravitationalAcceleration t
           (from_this_frame.rigid_transformation.apply degrees_of_freedom.position))
     linear_acceleration :=
       -to_this_frame.orthogonal_map.apply motion.acceleration_of_origin_of_to
     coriolis_acceleration :=
       Bivector.mulVector ((-2 : K) * Ω) degrees_of_freedom.velocity / (Radian : K)
     centrifugal_acceleration :=
       Bivector.mulVector (-Ω) (Bivector.mulVector Ω r) / Pow2 (Radian : K)
     euler_acceleration := Bivector.mulVector (-dΩ_over_dt) r / (Radian : K) }, calls)

/-- `ReferenceFrame::GeometricAcceleration` over the instrumented frame. -/
def Instrumented.GeometricAcceleration (f : ReferenceFrame K) (t : Instant K)
    (degrees_of_freedom : DegreesOfFreedom K) (calls : List (Instant K)) :
    Vector K × List (Instant K) :=
  let (a, calls) := Instrumented.ComputeGeometricAccelerations f t degrees_of_freedom calls
  (a.gravitational_acceleration +
    (a.linear_acceleration + a.coriolis_acceleration +
      a.centrifugal_acceleration + a.euler_acceleration), calls)

/-- `ReferenceFrame::RotationFreeGeometricAccelerationAtRest` over the
instrumented frame. -/
def Instrumented.RotationFreeGeometricAccelerationAtRest [DecidableEq K]
    (f : ReferenceFrame K) (t : Instant K) (position : Position K)
    (calls : List (Instant K)) : Option (Vector K) × List (Instant K) :=
  let (a, calls) := Instrumented.ComputeGeometricAccelerations f t ⟨position, unmoving⟩ calls
  if a.coriolis_acceleration = (0 : Vector K) then
    (some (a.gravitational_acceleration +
      (a.linear_acceleration + a.centrifugal_acceleration)), calls)
  else
    (none, calls)

/-- `ReferenceFrame::GeometricPotential` over the instrumented frame. -/
def Instrumented.GeometricPotential (f : ReferenceFrame K) (t : Instant K)
    (position : Position K) (calls : List (Instant K)) : K × List (Instant K) :=
  let (motion, calls) := Instrumented.MotionOfThisFrame f t calls
  let to_this_frame := motion.rigid_motion
  let from_this_frame := to_this_frame.Inverse
  let Ω : Bivector K := to_this_frame.orthogonal_map.apply to_this_frame.angular_velocity_of_to
  let r : Vector K := position.sub Position.origin
  let gravitational_potential :=
    f.GravitationalPotential t (from_this_frame.rigid_transformation.apply position)
  let linear_potential :=
    InnerProduct r (to_this_frame.orthogonal_map.apply motion.acceleration_of_origin_of_to)
  let centrifugal_potential := (-(1 / 2) : K) * Norm2 (Bivector.mulVector Ω r / (Radian : K))
  (gravitational_potential + (linear_potential + centrifugal_potential), calls)

/-- A sample variant: it supplies `ToThisFrameAtTime`, the rigid motion of the
sample frame, and inherits the default `FromThisFrameAtTime`. -/
def sampleOverrides : FrameOverrides K where
  ToThisFrameAtTime := some fun t => (sampleFrame.MotionOfThisFrame t).rigid_motion
  FromThisFrameAtTime := none

/-! ## The transform pipeline

`physics/transforms.hpp` declares the class `Transforms`; the bodies of its
members (`physics/transforms_body.hpp`) and the class `Trajectory` are not part
of the excerpt. -/

/-- Modelled from the spec: a trajectory (`physics/trajectory.hpp`, missing): the
finite sequence of its samples `(Instant, DegreesOfFreedom)`, in the order of
iteration. -/
abbrev Trajectory (K : Type) := List (Instant K × DegreesOfFreedom K)

/-- Modelled from the spec: the class `Transforms` of `physics/transforms.hpp`,
reduced to its stateless transform `first_` from `FromFrame` to `ThroughFrame`;
`none` is a fatal failure of the transform.  The transform `second_` is
independent of the cache and is left out. -/
structure Transforms (K : Type) where
  first_ : Instant K → DegreesOfFreedom K → Option (DegreesOfFreedom K)

/-- Modelled from the spec: the mutable state of a `Transforms` object: the map
`first_cache_` keyed by instant, and the log of the instants at which the
transform `first_` was computed. -/
structure Transforms.State (K : Type) where
  first_cache_ : Instant K → Option (DegreesOfFreedom K)
  computed : List (Instant K)

/-- The state of a pipeline that was just built: an empty cache. -/
def Transforms.State.fresh : Transforms.State K :=
  ⟨fun _ => none, []⟩

/-- Modelled from the spec: the production of one element of `first()`
(`physics/transforms_body.hpp`, missing): a lookup at an instant already in the
cache returns the cached value instead of recomputing; otherwise the transform
is applied and its result is written into the cache, keyed by the instant. -/
def Transforms.first_at [DecidableEq K] (T : Transforms K) (s : Transforms.State K)
    (t : Instant K) (degrees_of_freedom : DegreesOfFreedom K) :
    Option (DegreesOfFreedom K × Transforms.State K) :=
  match s.first_cache_ t with
  | some cached => some (cached, s)
  | none =>
    match T.first_ t degrees_of_freedom with
    | none => none
    | some through_degrees_of_freedom =>
      some (through_degrees_of_freedom,
        { first_cache_ := fun u =>
            if u = t then some through_degrees_of_freedom else s.first_cache_ u
          computed := s.computed ++ [t] })

/-- Modelled from the spec: one traversal of `first(trajectory)`
(`physics/transforms_body.hpp`, missing): the elements are produced in the order
of the source; the result is the sequence emitted and the final state, or `none`
if a transform failed. -/
def Transforms.first [DecidableEq K] (T : Transforms K) :
    Trajectory K → Transforms.State K → Option (Trajectory K × Transforms.State K)
  | [], s => some ([], s)
  | (t, degrees_of_freedom) :: rest, s =>
    match T.first_at s t degrees_of_freedom with
    | none => none
    | some (through_degrees_of_freedom, s₁) =>
      match Transforms.first T rest s₁ with
      | none => none
      | some (emitted, s₂) => some ((t, through_degrees_of_freedom) :: emitted, s₂)

/-- Modelled from the spec: the sample of a trajectory at an instant, if there
is one. -/
def Trajectory.at_time [DecidableEq K] (trajectory : Trajectory K) (t : Instant K) :
    Option (DegreesOfFreedom K) :=
  (trajectory.find? fun sample => sample.1 = t).map Prod.snd

/-- Modelled from the spec: the factory `Transforms::BodyCentredNonRotating`
(`physics/transforms_body.hpp`, missing): `ThroughFrame` has the axes of
`FromFrame` and the body of the centre trajectory as its origin.  The transform
fails at an instant at which the centre trajectory has no sample. -/
def Transforms.BodyCentredNonRotating [DecidableEq K]
    (from_centre_trajectory _to_centre_trajectory : Trajectory K) : Transforms K where
  first_ := fun t from_degrees_of_freedom =>
    (from_centre_trajectory.at_time t).map fun centre_degrees_of_freedom =>
      { position :=
          Position.translate
            (from_degrees_of_freedom.position.sub centre_degrees_of_freedom.position)
            Position.origin
        velocity := from_degrees_of_freedom.velocity - centre_degrees_of_freedom.velocity }

/-- The invariant of the state of a pipeline: the transform was computed at most
once per instant, and exactly at the instants that the cache holds. -/
def Transforms.State.Consistent (s : Transforms.State K) : Prop :=
  s.computed.Nodup ∧ ∀ t, t ∈ s.computed ↔ (s.first_cache_ t).isSome = true

/-- The constant `kNumberOfPoints` of `transforms_test.cpp`. -/
def TransformsTest.kNumberOfPoints : Nat := 20

/-- The trajectory `body_from_` built by `TransformsTest::SetUp`
(transforms_test.cpp, lines 40-50). -/
def TransformsTest.body_from_ : Trajectory K :=
  (List.range TransformsTest.kNumberOfPoints).map fun i =>
    ((i : K), ⟨⟨⟨10 * i, -20 * i, 30 * i⟩⟩, ⟨40 * i, -80 * i, 160 * i⟩⟩)

/-- The trajectory `body1_from_` built by `TransformsTest::SetUp`
(transforms_test.cpp, lines 51-60). -/
def TransformsTest.body1_from_ : Trajectory K :=
  (List.range TransformsTest.kNumberOfPoints).map fun i =>
    ((i : K), ⟨⟨⟨1 * i, 2 * i, 3 * i⟩⟩, ⟨4 * i, 8 * i, 16 * i⟩⟩)

/-- The trajectory `body1_to_` built by `TransformsTest::SetUp`
(transforms_test.cpp, lines 71-80). -/
def TransformsTest.body1_to_ : Trajectory K :=
  (List.range TransformsTest.kNumberOfPoints).map fun i =>
    ((i : K), ⟨⟨⟨3 * i, 1 * i, 2 * i⟩⟩, ⟨16 * i, 8 * i, 4 * i⟩⟩)

/-! ## Writing a frame to a message and reading it back

The four variant classes, with their members `WriteToMessage` and
`ReadFromMessage`, are not part of the excerpt. -/

/-- Modelled from the spec: the ephemeris (`physics/ephemeris.hpp`, missing), a
consumed collaborator that gives the gravitational acceleration and potential
at an instant and a position. -/
structure Ephemeris (K : Type) where
  GravitationalAcceleration : Instant K → Position K → Vector K
  GravitationalPotential : Instant K → Position K → K

/-- Modelled from the spec: the variant of a frame together with the
identifiers needed to reconstruct a frame of that variant. -/
inductive VariantParameters (P₁ P₂ P₃ P₄ : Type) where
  | BarycentricRotating (parameters : P₁)
  | BodyCentredBodyDirection (parameters : P₂)
  | BodyCentredNonRotating (parameters : P₃)
  | BodySurface (parameters : P₄)

/-- Modelled from the spec: a frame of one of the four variant classes
(missing): the ephemeris it delegates to and the parameters of its variant. -/
structure ConcreteFrame (K P₁ P₂ P₃ P₄ : Type) where
  ephemeris : Ephemeris K
  parameters : VariantParameters P₁ P₂ P₃ P₄

section ConcreteFrame

variable {P₁ P₂ P₃ P₄ : Type}

/-- The variant of a frame. -/
def ConcreteFrame.variant (f : ConcreteFrame K P₁ P₂ P₃ P₄) : Variant :=
  match f.parameters with
  | .BarycentricRotating _ => .BarycentricRotating
  | .BodyCentredBodyDirection _ => .BodyCentredBodyDirection
  | .BodyCentredNonRotating _ => .BodyCentredNonRotating
  | .BodySurface _ => .BodySurface

/-- Modelled from the spec: `GravitationalAcceleration(t, q)` of a variant
(missing) delegates to the ephemeris. -/
def ConcreteFrame.GravitationalAcceleration (f : ConcreteFrame K P₁ P₂ P₃ P₄)
    (t : Instant K) (q : Position K) : Vector K :=
  f.ephemeris.GravitationalAcceleration t q

/-- Modelled from the spec: `GravitationalPotential(t, q)` of a variant
(missing) delegates to the ephemeris. -/
def ConcreteFrame.GravitationalPotential (f : ConcreteFrame K P₁ P₂ P₃ P₄)
    (t : Instant K) (q : Position K) : K :=
  f.ephemeris.GravitationalPotential t q

/-- Modelled from the spec: `WriteToMessage` of a variant (missing): it
serializes the parameters of the frame in the payload of its own variant, and
no other payload. -/
def ConcreteFrame.WriteToMessage (f : ConcreteFrame K P₁ P₂ P₃ P₄) :
    serialization.ReferenceFrame P₁ P₂ P₃ P₄ :=
  match f.parameters with
  | .BarycentricRotating p => ⟨some p, none, none, none⟩
  | .BodyCentredBodyDirection p => ⟨none, some p, none, none⟩
  | .BodyCentredNonRotating p => ⟨none, none, some p, none⟩
  | .BodySurface p => ⟨none, none, none, some p⟩

/-- Modelled from the spec: the static member `ReadFromMessage` of each variant
(missing): it constructs a frame of its variant from the payload, on the
ephemeris that it is passed. -/
def ConcreteFrame.readers :
    VariantReaders (Ephemeris K) P₁ P₂ P₃ P₄ (ConcreteFrame K P₁ P₂ P₃ P₄) where
  BarycentricRotatingReferenceFrame := fun ephemeris p =>
    ⟨ephemeris, .BarycentricRotating p⟩
  BodyCentredBodyDirectionReferenceFrame := fun ephemeris p =>
    ⟨ephemeris, .BodyCentredBodyDirection p⟩
  BodyCentredNonRotatingReferenceFrame := fun ephemeris p =>
    ⟨ephemeris, .BodyCentredNonRotating p⟩
  BodySurfaceReferenceFrame := fun ephemeris p => ⟨ephemeris, .BodySurface p⟩

end ConcreteFrame

/-- A sample ephemeris: a uniform field along `-z`. -/
def sampleEphemeris : Ephemeris K where
  GravitationalAcceleration := fun _ _ => ⟨0, 0, -10⟩
  GravitationalPotential := fun _ q => 10 * q.coordinates.z

/-- A sample frame of the model above: the `BodyCentredNonRotating` variant with
the parameter 0, on the sample ephemeris. -/
def sampleConcreteFrame : ConcreteFrame ℚ Nat Nat Nat Nat :=
  ⟨sampleEphemeris, .BodyCentredNonRotating 0⟩

/-! ## Fixed arrays: triangular matrices

A shallow embedding of `numerics/fixed_arrays_body.hpp`.  A `std::array` is
modelled by its indexing function on the natural numbers; only the indices
below its size are meaningful.  The declarations of the classes
(`numerics/fixed_arrays.hpp`) are not part of the excerpt: for a triangular
matrix `rows() = columns()` and `size() = rows() * (rows() + 1) / 2`. -/

/-- The class `FixedUpperTriangularMatrix<Scalar, columns_>`: its member `data_`,
the upper triangle stored column by column. -/
structure FixedUpperTriangularMatrix (α : Type) (columns_ : Nat) where
  data_ : Nat → α

/-- The class `FixedLowerTriangularMatrix<Scalar, rows_>`: its member `data_`,
the lower triangle stored row by row. -/
structure FixedLowerTriangularMatrix (α : Type) (rows_ : Nat) where
  data_ : Nat → α

/-- The class `FixedVector<Scalar, size_>`: its member `data_`. -/
structure FixedVector (α : Type) (size_ : Nat) where
  data_ : Nat → α

section FixedArrays

variable {α : Type} {n : Nat}

/-- `FixedVector::operator[]` (fixed_arrays_body.hpp, lines 90-103); the checks
`0 <= index < size()` are debug checks. -/
def FixedVector.get (v : FixedVector α n) (index : Nat) : α :=
  v.data_ index

/-- `FixedLowerTriangularMatrix::operator()` (fixed_arrays_body.hpp,
lines 277-293); the checks `0 <= column <= row < rows()` are debug checks. -/
def FixedLowerTriangularMatrix.get (m : FixedLowerTriangularMatrix α n) (row column : Nat) : α :=
  m.data_ (row * (row + 1) / 2 + column)

/-- `FixedUpperTriangularMatrix::operator()` (fixed_arrays_body.hpp,
lines 321-337); the checks `0 <= row <= column < columns()` are debug checks. -/
def FixedUpperTriangularMatrix.get (m : FixedUpperTriangularMatrix α n) (row column : Nat) : α :=
  m.data_ (column * (column + 1) / 2 + row)

/-- The body `array[position] = value; ++index;` of the loops of `Transpose`,
on the pair of the array being filled and the running index. -/
def FixedUpperTriangularMatrix.Transpose.store (position : Nat) (value : α)
    (state : (Nat → α) × Nat) : (Nat → α) × Nat :=
  (Function.update state.1 position value, state.2 + 1)

/-- `FixedUpperTriangularMatrix::Transpose` (fixed_arrays_body.hpp,
lines 351-373), for `columns` columns.  The arrays `full` and `result` are not
initialized in the source: their initial contents are the parameters
`full₀` and `result₀`. -/
def FixedUpperTriangularMatrix.Transpose (columns : Nat) (full₀ result₀ : Nat → α)
    (data : Nat → α) : Nat → α :=
  let rows := columns
  let full : Nat → α :=
    ((List.range rows).foldl
      (fun state row =>
        (List.range' row (columns - row)).foldl
          (fun state column =>
            FixedUpperTriangularMatrix.Transpose.store (row * columns + column)
              (data state.2) state)
          state)
      (full₀, 0)).1
  let result : Nat → α :=
    ((List.range columns).foldl
      (fun state column =>
        (List.range (column + 1)).foldl
          (fun state row =>
            FixedUpperTriangularMatrix.Transpose.store state.2
              (full (row * columns + column)) state)
          state)
      (result₀, 0)).1
  result

/-- The constructor `FixedUpperTriangularMatrix(std::array const& data)`
(fixed_arrays_body.hpp, lines 316-319): `data_(Transpose(data))`. -/
def FixedUpperTriangularMatrix.ofData (n : Nat) (full₀ result₀ : Nat → α)
    (data : Nat → α) :
    FixedUpperTriangularMatrix α n :=
  ⟨FixedUpperTriangularMatrix.Transpose n full₀ result₀ data⟩

/-- The constructor `FixedLowerTriangularMatrix(std::array const& data)`
(fixed_arrays_body.hpp, lines 272-275): `data_(data)`. -/
def FixedLowerTriangularMatrix.ofData (n : Nat) (data : Nat → α) :
    FixedLowerTriangularMatrix α n :=
  ⟨data⟩

/-- The constructor `FixedVector(std::array const& data)` (fixed_arrays_body.hpp,
lines 64-67). -/
def FixedVector.ofData (n : Nat) (data : Nat → α) : FixedVector α n :=
  ⟨data⟩

/-- The index, in the row-major listing of the upper triangle of a matrix with
`n` columns, of the diagonal element of a row. -/
def rowOffset (n : Nat) : Nat → Nat
  | 0 => 0
  | row + 1 => rowOffset n row + (n - row)

/-- An initializer list as an array: the element at each index below the
length of the list, and the zero of value initialization beyond. -/
def arrayOfList [Zero α] (l : List α) : Nat → α :=
  fun index => l.getD index 0

end FixedArrays

/-! ## Matrix computations

`numerics/matrix_computations_body.hpp` is not part of the excerpt (its test
`matrix_computations_test.cpp` is) and the specification does not describe it.
The functions below are the substitution and factorization algorithms that the
test exercises; they read the matrices through the accessors of
`fixed_arrays_body.hpp`.  The vector or matrix that the source leaves
uninitialized before filling it is a parameter. -/

section MatrixComputations

variable {n : Nat}

/-- The entry `(i, j)` of the square matrix that a
`FixedUpperTriangularMatrix` stands for: zero below the diagonal. -/
def FixedUpperTriangularMatrix.entry (U : FixedUpperTriangularMatrix K n) (i j : Nat) : K :=
  if i ≤ j then U.get i j else 0

/-- The entry `(i, j)` of the square matrix that a
`FixedLowerTriangularMatrix` stands for: zero above the diagonal. -/
def FixedLowerTriangularMatrix.entry (L : FixedLowerTriangularMatrix K n) (i j : Nat) : K :=
  if j ≤ i then L.get i j else 0

/-- One row of back substitution:
`s = b[i]; for (j = i + 1; j < n; ++j) s -= U(i, j) * x[j]; x[i] = s / U(i, i)`. -/
def BackSubstitution.row (U : FixedUpperTriangularMatrix K n) (b : FixedVector K n) (i : Nat)
    (x : Nat → K) : Nat → K :=
  let s := (List.range' (i + 1) (n - (i + 1))).foldl (fun s j => s - U.get i j * x j) (b.get i)
  Function.update x i (s / U.get i i)

/-- The rows `i - 1`, `i - 2`, ..., `0` of back substitution, in this order. -/
def BackSubstitution.loop (U : FixedUpperTriangularMatrix K n) (b : FixedVector K n) :
    Nat → (Nat → K) → Nat → K
  | 0, x => x
  | i + 1, x => BackSubstitution.loop U b i (BackSubstitution.row U b i x)

/-- Modelled from the spec: `BackSubstitution(U, b)` of
`numerics/matrix_computations_body.hpp` (missing): the solution of the upper
triangular system `U x = b` by substitution from the last row up,
`x[i] = (b[i] - Σ_{j > i} U(i, j) x[j]) / U(i, i)`. -/
def BackSubstitution (U : FixedUpperTriangularMatrix K n) (b : FixedVector K n)
    (x₀ : Nat → K) : FixedVector K n :=
  ⟨BackSubstitution.loop U b n x₀⟩

/-- One row of forward substitution:
`s = b[i]; for (j = 0; j < i; ++j) s -= L(i, j) * x[j]; x[i] = s / L(i, i)`. -/
def ForwardSubstitution.row (L : FixedLowerTriangularMatrix K n) (b : FixedVector K n)
    (x : Nat → K) (i : Nat) : Nat → K :=
  let s := (List.range i).foldl (fun s j => s - L.get i j * x j) (b.get i)
  Function.update x i (s / L.get i i)

/-- Modelled from the spec: `ForwardSubstitution(L, b)` of
`numerics/matrix_computations_body.hpp` (missing): the solution of the lower
triangular system `L x = b` by substitution from the first row down,
`x[i] = (b[i] - Σ_{j < i} L(i, j) x[j]) / L(i, i)`. -/
def ForwardSubstitution (L : FixedLowerTriangularMatrix K n) (b : FixedVector K n)
    (x₀ : Nat → K) : FixedVector K n :=
  ⟨(List.range n).foldl (ForwardSubstitution.row L b) x₀⟩

end MatrixComputations

/-- The matrix `m4` of the test `BackSubstitution`
(matrix_computations_test.cpp, lines 76-79). -/
def MatrixComputationsTest.BackSubstitution.m4 : FixedUpperTriangularMatrix K 4 :=
  FixedUpperTriangularMatrix.ofData 4 (fun _ => 0) (fun _ => 0)
    (arrayOfList [1, 3, -2, 6,
                     4, 7, -1,
                        5, 3,
                           2])

/-- The matrix `m4` of the test `ForwardSubstitution`
(matrix_computations_test.cpp, lines 91-94). -/
def MatrixComputationsTest.ForwardSubstitution.m4 : FixedLowerTriangularMatrix K 4 :=
  FixedLowerTriangularMatrix.ofData 4
    (arrayOfList [ 1,
                   3, -2,
                   4, 7, 5,
                  -6, 9, 1, 2])

/-- The vector `b4` of the tests `BackSubstitution` and `ForwardSubstitution`. -/
def MatrixComputationsTest.b4 : FixedVector K 4 :=
  FixedVector.ofData 4 (arrayOfList [1, 1, -4, 4])

section CholeskyDecomposition

variable {n : Nat}

/-- The assignment `m(row, column) = value` through the non-const
`FixedUpperTriangularMatrix::operator()` (fixed_arrays_body.hpp, lines 321-328). -/
def FixedUpperTriangularMatrix.set {α : Type} (m : FixedUpperTriangularMatrix α n)
    (row column : Nat) (value : α) : FixedUpperTriangularMatrix α n :=
  ⟨Function.update m.data_ (column * (column + 1) / 2 + row) value⟩

/-- The entry `(i, j)` of the symmetric matrix that is given by its upper
triangle. -/
def FixedUpperTriangularMatrix.symmetric_entry (A : FixedUpperTriangularMatrix K n)
    (i j : Nat) : K :=
  if i ≤ j then A.get i j else A.get j i

/-- The entry `(i, j)`, `i < j`, of the Cholesky factor:
`s = 0; for (k = 0; k < i; ++k) s += R(k, i) * R(k, j);
R(i, j) = (A(i, j) - s) / R(i, i)`. -/
def CholeskyDecomposition.off_diagonal (A : FixedUpperTriangularMatrix K n) (j : Nat)
    (R : FixedUpperTriangularMatrix K n) (i : Nat) : FixedUpperTriangularMatrix K n :=
  let sum_rki_rkj := (List.range i).foldl (fun s k => s + R.get k i * R.get k j) 0
  R.set i j ((A.get i j - sum_rki_rkj) / R.get i i)

/-- The column `j` of the Cholesky factor: its entries above the diagonal from
the top down, then
`s = 0; for (k = 0; k < j; ++k) s += Pow<2>(R(k, j)); R(j, j) = Sqrt(A(j, j) - s)`. -/
def CholeskyDecomposition.column (Sqrt : K → K) (A : FixedUpperTriangularMatrix K n)
    (R : FixedUpperTriangularMatrix K n) (j : Nat) : FixedUpperTriangularMatrix K n :=
  let R₁ := (List.range j).foldl (CholeskyDecomposition.off_diagonal A j) R
  let sum_rkj2 := (List.range j).foldl (fun s k => s + Pow2 (R₁.get k j)) 0
  R₁.set j j (Sqrt (A.get j j - sum_rkj2))

/-- Modelled from the spec: `CholeskyDecomposition(A)` of
`numerics/matrix_computations_body.hpp` (missing): the upper triangular factor
`R` of the symmetric matrix given by its upper triangle `A`, computed column by
column: `R(i, j) = (A(i, j) - Σ_{k < i} R(k, i) R(k, j)) / R(i, i)` for `i < j` and
`R(j, j) = Sqrt(A(j, j) - Σ_{k < j} R(k, j)²)`. -/
def CholeskyDecomposition (Sqrt : K → K) (A : FixedUpperTriangularMatrix K n)
    (R₀ : FixedUpperTriangularMatrix K n) : FixedUpperTriangularMatrix K n :=
  (List.range n).foldl (CholeskyDecomposition.column Sqrt A) R₀

/-- A symmetric matrix given by its upper triangle is positive definite: the
quadratic form `Σ_i Σ_j x[i] A(i, j) x[j]` is positive at every `x` that is not
zero on the indices below `n`. -/
def FixedUpperTriangularMatrix.PositiveDefinite {R : Type} [LinearOrderedField R]
    (A : FixedUpperTriangularMatrix R n) : Prop :=
  ∀ x : Nat → R, (∃ i < n, x i ≠ 0) →
    0 < ∑ i in Finset.range n, ∑ j in Finset.range n, x i * A.symmetric_entry i j * x j

end CholeskyDecomposition

/-- The matrix `hilbert4` of the test `CholeskyDecomposition`
(matrix_computations_test.cpp, lines 38-41). -/
def MatrixComputationsTest.hilbert4 : FixedUpperTriangularMatrix K 4 :=
  FixedUpperTriangularMatrix.ofData 4 (fun _ => 0) (fun _ => 0)
    (arrayOfList [1, 1 / 2, 1 / 3, 1 / 4,
                         1 / 3, 1 / 4, 1 / 5,
                                1 / 5, 1 / 6,
                                       1 / 7])

/-- The matrix `r4_expected` of the test `CholeskyDecomposition`
(matrix_computations_test.cpp, lines 42-46). -/
def MatrixComputationsTest.CholeskyDecomposition.r4_expected (Sqrt : K → K) :
    FixedUpperTriangularMatrix K 4 :=
  FixedUpperTriangularMatrix.ofData 4 (fun _ => 0) (fun _ => 0)
    (arrayOfList [1, 1 / 2, 1 / 3, 1 / 4,
                     1 / Sqrt 12, 1 / Sqrt 12, Sqrt 27 / 20,
                                 1 / Sqrt 180, 1 / Sqrt 80,
                                              1 / Sqrt 2800])

/-- The column `c` of a Cholesky factor `R` of `A` is done: its diagonal entry is
positive and the products of the column `c` of `R` with the columns `i ≤ c` are
the entries `A(i, c)`. -/
def CholeskyDecomposition.ColumnDone {F : Type} [LinearOrderedField F] {n : Nat}
    (A R : FixedUpperTriangularMatrix F n) (c : Nat) : Prop :=
  0 < R.get c c ∧
    ∀ i ≤ c, ∑ k in Finset.range (i + 1), R.get k i * R.get k c = A.get i c

/-! ## More sample data and the traced default transformations -/

/-- A sample inertial frame: the axes and the origin of the sample frame, moving
at constant velocity without rotating, in the same uniform gravitational
field. -/
def inertialFrame : ReferenceFrame K where
  MotionOfThisFrame := fun _ =>
    { rigid_motion :=
        { rigid_transformation :=
            { from_origin := ⟨⟨1, 0, 0⟩⟩
              to_origin := Position.origin
              linear_map := ⟨⟨⟨0, 1, 0⟩, ⟨-1, 0, 0⟩, ⟨0, 0, 1⟩⟩⟩ }
          angular_velocity_of_to_frame := 0
          velocity_of_to_frame_origin := ⟨0, 1, 0⟩ }
      angular_acceleration_of_to_frame := 0
      acceleration_of_to_frame_origin := 0 }
  GravitationalAcceleration := fun _ _ => ⟨0, 0, -10⟩
  GravitationalPotential := fun _ q => 10 * q.coordinates.z

/-- What a call of `ToThisFrameAtTime` or of `FromThisFrameAtTime` does, as seen
from outside the two defaults of the base class: it enters a member that the
variant supplies, or it inverts a rigid motion. -/
inductive FrameEvent (K : Type) where
  | supplied_ToThisFrameAtTime (t : Instant K)
  | supplied_FromThisFrameAtTime (t : Instant K)
  | Inverse
deriving DecidableEq, Repr

mutual

/-- `ReferenceFrame::ToThisFrameAtTime` (rigid_reference_frame_body.hpp,
lines 23-28) with the events of the call appended to a log. -/
def Traced.ToThisFrameAtTime (v : FrameOverrides K) :
    Nat → Instant K → List (FrameEvent K) → Option (RigidMotion K × List (FrameEvent K))
  | fuel, t, events =>
    match v.ToThisFrameAtTime with
    | some g => some (g t, events ++ [.supplied_ToThisFrameAtTime t])
    | none =>
      match fuel with
      | 0 => none
      | fuel + 1 =>
        (Traced.FromThisFrameAtTime v fuel t events).map fun (motion, events) =>
          (motion.Inverse, events ++ [.Inverse])

/-- `ReferenceFrame::FromThisFrameAtTime` (rigid_reference_frame_body.hpp,
lines 30-35) with the events of the call appended to a log. -/
def Traced.FromThisFrameAtTime (v : FrameOverrides K) :
    Nat → Instant K → List (FrameEvent K) → Option (RigidMotion K × List (FrameEvent K))
  | fuel, t, events =>
    match v.FromThisFrameAtTime with
    | some g => some (g t, events ++ [.supplied_FromThisFrameAtTime t])
    | none =>
      match fuel with
      | 0 => none
      | fuel + 1 =>
        (Traced.ToThisFrameAtTime v fuel t events).map fun (motion, events) =>
          (motion.Inverse, events ++ [.Inverse])

end

/-- A variant that supplies neither `ToThisFrameAtTime` nor
`FromThisFrameAtTime`. -/
def noOverrides : FrameOverrides K where
  ToThisFrameAtTime := none
  FromThisFrameAtTime := none

/-- The variants whose payload is present in a message, in the order
BarycentricRotating, BodyCentredBodyDirection, BodyCentredNonRotating,
BodySurface. -/
def serialization.ReferenceFrame.present_variants {P₁ P₂ P₃ P₄ : Type}
    (message : serialization.ReferenceFrame P₁ P₂ P₃ P₄) : List Variant :=
  (if message.BarycentricRotatingReferenceFrame.isSome then [Variant.BarycentricRotating]
    else []) ++
  (if message.BodyCentredBodyDirectionReferenceFrame.isSome then
    [Variant.BodyCentredBodyDirection] else []) ++
  (if message.BodyCentredNonRotatingReferenceFrame.isSome then
    [Variant.BodyCentredNonRotating] else []) ++
  (if message.BodySurfaceReferenceFrame.isSome then [Variant.BodySurface] else [])

/-- A sample message carrying two payloads, of the `BarycentricRotating` and of
the `BodySurface` variants. -/
def doubleMessage : serialization.ReferenceFrame Nat Nat Nat Nat :=
  ⟨some 5, none, none, some 9⟩

/-! ## Fixed arrays: the packed indices and `FixedMatrix` -/

/-- The class `FixedStrictlyLowerTriangularMatrix<Scalar, rows_>`: the entries
below the diagonal, stored by rows in `data_`. -/
structure FixedStrictlyLowerTriangularMatrix (α : Type) (rows_ : Nat) where
  data_ : Nat → α

/-- `FixedStrictlyLowerTriangularMatrix::operator()` (fixed_arrays_body.hpp,
lines 226-242); the checks `0 <= column < row < rows()` are debug checks. -/
def FixedStrictlyLowerTriangularMatrix.get {α : Type} {n : Nat}
    (m : FixedStrictlyLowerTriangularMatrix α n) (row column : Nat) : α :=
  m.data_ (row * (row - 1) / 2 + column)

/-- The index in `data_` that `FixedStrictlyLowerTriangularMatrix::operator()`
computes. -/
def FixedStrictlyLowerTriangularMatrix.index (row column : Nat) : Nat :=
  row * (row - 1) / 2 + column

/-- The index in `data_` that `FixedLowerTriangularMatrix::operator()`
computes. -/
def FixedLowerTriangularMatrix.index (row column : Nat) : Nat :=
  row * (row + 1) / 2 + column

/-- The index in `data_` that `FixedUpperTriangularMatrix::operator()`
computes. -/
def FixedUpperTriangularMatrix.index (row column : Nat) : Nat :=
  column * (column + 1) / 2 + row

/-- Modelled from the spec: the constant `size()` of
`FixedStrictlyLowerTriangularMatrix` (numerics/fixed_arrays.hpp is missing):
the length `rows (rows - 1) / 2` of `data_`. -/
def FixedStrictlyLowerTriangularMatrix.size (rows : Nat) : Nat :=
  rows * (rows - 1) / 2

/-- Modelled from the spec: the constant `size()` of
`FixedLowerTriangularMatrix` (numerics/fixed_arrays.hpp is missing): the
length `rows (rows + 1) / 2` of `data_`. -/
def FixedLowerTriangularMatrix.size (rows : Nat) : Nat :=
  rows * (rows + 1) / 2

/-- Modelled from the spec: the constant `size()` of
`FixedUpperTriangularMatrix` (numerics/fixed_arrays.hpp is missing): the
length `columns (columns + 1) / 2` of `data_`. -/
def FixedUpperTriangularMatrix.size (columns : Nat) : Nat :=
  columns * (columns + 1) / 2

/-- The class `FixedMatrix<Scalar, rows_, columns_>`: the entries stored by rows
in `data_`, of length `rows_ * columns_`. -/
structure FixedMatrix (α : Type) (rows_ columns_ : Nat) where
  data_ : Nat → α

section FixedMatrix

variable {α : Type} {rows columns : Nat}

/-- The const `FixedMatrix::operator()` (fixed_arrays_body.hpp, lines 141-149):
the result is `none` when one of the checks `0 <= row`, `row < rows()`,
`0 <= column`, `column < columns()` fails.  The indices are natural numbers, so
the two lower bounds hold. -/
def FixedMatrix.get (m : FixedMatrix α rows columns) (row column : Nat) : Option α :=
  if row < rows ∧ column < columns then some (m.data_ (row * columns + column)) else none

/-- The assignment `m(row, column) = value` through the non-const
`FixedMatrix::operator()` (fixed_arrays_body.hpp, lines 131-139), `none` when
one of its checks fails. -/
def FixedMatrix.set (m : FixedMatrix α rows columns) (row column : Nat) (value : α) :
    Option (FixedMatrix α rows columns) :=
  if row < rows ∧ column < columns then
    some ⟨Function.update m.data_ (row * columns + column) value⟩
  else none

/-- `FixedMatrix::Transpose` (fixed_arrays_body.hpp, lines 167-177).  The local
`m` is declared as `FixedMatrix<Scalar, rows(), columns()>`, of the shape of
`*this`; `m₀` is its uninitialized content.  The result is `none` when a check of
an accessor fails. -/
def FixedMatrix.Transpose (self m₀ : FixedMatrix α rows columns) :
    Option (FixedMatrix α rows columns) :=
  (List.range rows).foldlM (fun m i =>
    (List.range columns).foldlM (fun m j =>
      (self.get i j).bind fun value => m.set j i value) m) m₀

end FixedMatrix

/-! ## `for_all_of` -/

/-- Modelled from the spec: `for_all_of(tuple, f)` of `base/for_all_of.hpp`
(missing).  A tuple-like value of size `n` is the family of its elements,
`std::get<i>`, `i < n`, the element `i` being of the type `T i`; the generic `f`
is the family of its instances at these types.  The elements are visited from
the index 0 up and `f` is applied in place to each; the second component is the
log of the indices visited. -/
def for_all_of {n : Nat} {T : Fin n → Type} (tuple : ∀ i, T i) (f : ∀ i, T i → T i) :
    (∀ i, T i) × List (Fin n) :=
  (List.finRange n).foldl
    (fun state i => (Function.update state.1 i (f i (state.1 i)), state.2 ++ [i]))
    (tuple, [])

/-- The array of the test `AnArray` (for_all_of_test.cpp, line 21), over the
rationals. -/
def ForAllOfTest.AnArray.array : Fin 3 → ℚ
  | 0 => 42
  | 1 => 43
  | 2 => -41

/-- The element types of `ATuple = std::tuple<char, double, int>`
(for_all_of_test.cpp, line 16), the `double` being a rational. -/
def ForAllOfTest.ATuple : Fin 3 → Type
  | 0 => Char
  | 1 => ℚ
  | 2 => Int

/-- The tuple of the test `ATuple` (for_all_of_test.cpp, line 43). -/
def ForAllOfTest.ATuple.tuple : ∀ i, ForAllOfTest.ATuple i
  | 0 => 'a'
  | 1 => (42 : ℚ)
  | 2 => (666 : Int)

/-- The generic lambda `[](auto& value) { ++value; }` of the test `ATuple` at
the three element types. -/
def ForAllOfTest.ATuple.increment : ∀ i, ForAllOfTest.ATuple i → ForAllOfTest.ATuple i
  | 0 => fun (value : Char) => Char.ofNat (value.toNat + 1)
  | 1 => fun (value : ℚ) => value + 1
  | 2 => fun (value : Int) => value + 1

/-- The expected values of the test `AnArray` (for_all_of_test.cpp,
lines 25-27). -/
def ForAllOfTest.AnArray.halved : Fin 3 → ℚ
  | 0 => 21
  | 1 => 43 / 2
  | 2 => -41 / 2

/-- The expected values of the test `ATuple` (for_all_of_test.cpp,
lines 47-49). -/
def ForAllOfTest.ATuple.incremented : ∀ i, ForAllOfTest.ATuple i
  | 0 => 'b'
  | 1 => (43 : ℚ)
  | 2 => (667 : Int)

/-! ## Matrix computations: the decomposition `ᵗR D R` -/

section tRDRDecomposition

variable {n : Nat}

/-- The assignment `v[index] = value` through the non-const
`FixedVector::operator[]` (fixed_arrays_body.hpp, lines 90-95). -/
def FixedVector.set {α : Type} (v : FixedVector α n) (index : Nat) (value : α) :
    FixedVector α n :=
  ⟨Function.update v.data_ index value⟩

/-- The entry `(i, j)`, `i < j`, of the factor `R`:
`s = 0; for (k = 0; k < i; ++k) s += R(k, i) * R(k, j) * D[k];
R(i, j) = (A(i, j) - s) / D[i]`. -/
def tRDRDecomposition.off_diagonal (A : FixedUpperTriangularMatrix K n) (D : FixedVector K n)
    (i : Nat) (R : FixedUpperTriangularMatrix K n) (j : Nat) : FixedUpperTriangularMatrix K n :=
  let sum_rki_rkj_dk := (List.range i).foldl (fun s k => s + R.get k i * R.get k j * D.get k) 0
  R.set i j ((A.get i j - sum_rki_rkj_dk) / D.get i)

/-- The row `i` of the decomposition:
`s = 0; for (k = 0; k < i; ++k) s += Pow<2>(R(k, i)) * D[k]; D[i] = A(i, i) - s`,
then the entries of the row `i` of `R` right of the diagonal, from the left to
the right, then `R(i, i) = 1`. -/
def tRDRDecomposition.row (A : FixedUpperTriangularMatrix K n)
    (state : FixedUpperTriangularMatrix K n × FixedVector K n) (i : Nat) :
    FixedUpperTriangularMatrix K n × FixedVector K n :=
  let R := state.1
  let D := state.2
  let sum_rki2_dk := (List.range i).foldl (fun s k => s + Pow2 (R.get k i) * D.get k) 0
  let D₁ := D.set i (A.get i i - sum_rki2_dk)
  let R₁ := (List.range' (i + 1) (n - (i + 1))).foldl (tRDRDecomposition.off_diagonal A D₁ i) R
  (R₁.set i i 1, D₁)

/-- Modelled from the spec: `ᵗRDRDecomposition(A)` of
`numerics/matrix_computations_body.hpp` (missing): the upper triangular factor
`R` with unit diagonal and the diagonal `D` of the symmetric matrix given by its
upper triangle `A`, computed row by row:
`D[i] = A(i, i) - Σ_{k < i} R(k, i)² D[k]`,
`R(i, j) = (A(i, j) - Σ_{k < i} R(k, i) R(k, j) D[k]) / D[i]` for `i < j` and
`R(i, i) = 1`.  `R₀` and `D₀` are the uninitialized contents of the results. -/
def tRDRDecomposition (A : FixedUpperTriangularMatrix K n)
    (R₀ : FixedUpperTriangularMatrix K n) (D₀ : FixedVector K n) :
    FixedUpperTriangularMatrix K n × FixedVector K n :=
  (List.range n).foldl (tRDRDecomposition.row A) (R₀, D₀)

end tRDRDecomposition

/-- The row `i` of a decomposition `(R, D)` of `A` is done: `D[i]` is positive,
`R(i, i) = 1`, and the products of the column `i` of `R` with the columns
`j ≥ i`, weighted by `D`, are the entries `A(i, j)`. -/
def tRDRDecomposition.RowDone {F : Type} [LinearOrderedField F] {n : Nat}
    (A R : FixedUpperTriangularMatrix F n) (D : FixedVector F n) (i : Nat) : Prop :=
  0 < D.get i ∧ R.get i i = 1 ∧
    ∀ j, i ≤ j → j < n →
      ∑ k in Finset.range (i + 1), R.get k i * R.get k j * D.get k = A.get i j

/-- The matrix `r4_expected` of the test `ᵗRDRDecomposition`
(matrix_computations_test.cpp, lines 60-64). -/
def MatrixComputationsTest.tRDRDecomposition.r4_expected : FixedUpperTriangularMatrix K 4 :=
  FixedUpperTriangularMatrix.ofData 4 (fun _ => 0) (fun _ => 0)
    (arrayOfList [1, 1 / 2, 1 / 3, 1 / 4,
                         1,     1, 9 / 10,
                                1,  3 / 2,
                                        1])

/-- The vector `d4_expected` of the test `ᵗRDRDecomposition`
(matrix_computations_test.cpp, line 65). -/
def MatrixComputationsTest.tRDRDecomposition.d4_expected : FixedVector K 4 :=
  FixedVector.ofData 4 (arrayOfList [1, 1 / 12, 1 / 180, 1 / 2800])

/-! ## Fixed arrays: the dot product and the products of matrices -/

/-- The element that `operator[]` reads at an index of a `std::array`, or of a
`FixedVector`, of `size` elements: `none` when the index is outside the array. -/
def arrayView {α : Type} (size : Nat) (data : Nat → α) (index : Int) : Option α :=
  if 0 ≤ index ∧ index < size then some (data index.toNat) else none

/-- The element that `pointer[index]` reads, for the pointer `data.data() + offset`
into a `std::array` of `size` elements: `none` when it is outside the array. -/
def pointerView {α : Type} (size : Nat) (data : Nat → α) (offset : Nat) (index : Int) :
    Option α :=
  if 0 ≤ (offset : Int) + index ∧ (offset : Int) + index < size then
    some (data ((offset : Int) + index).toNat)
  else none

/-- `DotProduct<LScalar, RScalar, size, i>::Compute` (fixed_arrays_body.hpp,
lines 37-52): the specialization for `i = 0` returns `left[0] * right[0]`, the
primary template `left[i] * right[i] + DotProduct<..., i - 1>::Compute(left,
right)`.  `left` and `right` are the elements that `operator[]` reads.  The fuel
bounds the number of classes instantiated; `none` means that it ran out or that
a read is outside its array. -/
def DotProduct.Compute (left right : Int → Option K) : Nat → Int → Option K
  | 0, _ => none
  | fuel + 1, i =>
    if i = 0 then
      (left 0).bind fun l => (right 0).bind fun r => some (l * r)
    else
      (left i).bind fun l => (right i).bind fun r =>
        (DotProduct.Compute left right fuel (i - 1)).bind fun rest => some (l * r + rest)

/-- `DotProduct<LScalar, RScalar, size>::Compute`, with the default argument
`i = size - 1` (fixed_arrays_body.hpp, line 23), the fuel being the number
`size` of the classes `DotProduct<..., size, i>`, `0 ≤ i < size`. -/
def DotProduct (size : Nat) (left right : Int → Option K) : Option K :=
  DotProduct.Compute left right size ((size : Int) - 1)

section FixedArrayProducts

variable {size rows dimension columns lsize rsize : Nat}

/-- `InnerProduct(FixedVector, FixedVector)` (fixed_arrays_body.hpp,
lines 375-380). -/
def FixedVector.InnerProduct (left right : FixedVector K size) : Option K :=
  DotProduct size (arrayView size left.data_) (arrayView size right.data_)

/-- `FixedVector::Norm²` (fixed_arrays_body.hpp, lines 85-88). -/
def FixedVector.Norm2 (v : FixedVector K size) : Option K :=
  DotProduct size (arrayView size v.data_) (arrayView size v.data_)

/-- The element of the storage of a `FixedMatrix` that stands for the entry
`(row, column)`, read without a check. -/
def FixedMatrix.entry {α : Type} (m : FixedMatrix α rows columns) (row column : Nat) : α :=
  m.data_ (row * columns + column)

/-- `operator*(FixedMatrix, FixedVector)` (fixed_arrays_body.hpp,
lines 641-653).  The state of the loop is the array `result`, whose
uninitialized content is `result₀`, and the offset of the pointer `row` from
`left.data_.data()`. -/
def FixedMatrix.mulVec (left : FixedMatrix K rows columns) (right : FixedVector K columns)
    (result₀ : Nat → K) : Option (FixedVector K rows) :=
  ((List.range rows).foldlM
    (fun (state : (Nat → K) × Nat) i =>
      (DotProduct columns (pointerView (rows * columns) left.data_ state.2)
        (arrayView columns right.data_)).bind fun value =>
          some (Function.update state.1 i value, state.2 + columns))
    (result₀, 0)).map fun state => FixedVector.ofData rows state.1

/-- `operator*(FixedMatrix, FixedMatrix)` (fixed_arrays_body.hpp,
lines 625-639): `result` is value-initialized, that is zero, and
`result(i, j) += left(i, k) * right(k, j)` goes through the checked accessors. -/
def FixedMatrix.mul (left : FixedMatrix K rows dimension)
    (right : FixedMatrix K dimension columns) : Option (FixedMatrix K rows columns) :=
  (List.range rows).foldlM (fun result i =>
    (List.range columns).foldlM (fun result j =>
      (List.range dimension).foldlM (fun result k =>
        (left.get i k).bind fun l => (right.get k j).bind fun r =>
          (result.get i j).bind fun sum => result.set i j (sum + l * r))
        result) result) ⟨fun _ => 0⟩

/-- `FixedMatrix::Identity` (fixed_arrays_body.hpp, lines 202-210): the matrix
`m` is value-initialized, that is zero, then `m(i, i) = 1` for every row `i`. -/
def FixedMatrix.Identity (rows columns : Nat) : Option (FixedMatrix K rows columns) :=
  (List.range rows).foldlM (fun m i => m.set i i 1) ⟨fun _ => 0⟩

/-- `SymmetricProduct` (fixed_arrays_body.hpp, lines 388-402); `result₀` is the
uninitialized content of `result`, and the factor `0.5` is one half. -/
def SymmetricProduct (left : FixedVector K lsize) (right : FixedVector K rsize)
    (result₀ : FixedMatrix K lsize rsize) : Option (FixedMatrix K lsize rsize) :=
  (List.range lsize).foldlM (fun result (i : Nat) =>
    ((List.range i).foldlM (fun result (j : Nat) =>
      (arrayView lsize left.data_ i).bind fun left_i =>
      (arrayView rsize right.data_ j).bind fun right_j =>
      (arrayView lsize left.data_ j).bind fun left_j =>
      (arrayView rsize right.data_ i).bind fun right_i =>
        let r := 1 / 2 * (left_i * right_j + left_j * right_i)
        (result.set i j r).bind fun result => result.set j i r) result).bind fun result =>
    (arrayView lsize left.data_ i).bind fun left_i =>
    (arrayView rsize right.data_ i).bind fun right_i =>
      result.set i i (left_i * right_i)) result₀

/-- `SymmetricSquare` (fixed_arrays_body.hpp, lines 404-417); `result₀` is the
uninitialized content of `result`. -/
def SymmetricSquare (vector : FixedVector K size) (result₀ : FixedMatrix K size size) :
    Option (FixedMatrix K size size) :=
  (List.range size).foldlM (fun result (i : Nat) =>
    ((List.range i).foldlM (fun result (j : Nat) =>
      (arrayView size vector.data_ i).bind fun vector_i =>
      (arrayView size vector.data_ j).bind fun vector_j =>
        let r := vector_i * vector_j
        (result.set i j r).bind fun result => result.set j i r) result).bind fun result =>
    (arrayView size vector.data_ i).bind fun vector_i =>
      result.set i i (Pow2 vector_i)) result₀

end FixedArrayProducts

/-- Sample vectors and matrices for the products: `(1, 2, 3)`, `(4, 5, 6)` and
the matrix of the rows `(1, 2, 3)`, `(4, 5, 6)`. -/
def sampleLeft : FixedVector K 3 :=
  FixedVector.ofData 3 (arrayOfList [1, 2, 3])

/-- The sample vector `(4, 5, 6)`. -/
def sampleRight : FixedVector K 3 :=
  FixedVector.ofData 3 (arrayOfList [4, 5, 6])

/-- The sample matrix of two rows and three columns, rows `(1, 2, 3)` and
`(4, 5, 6)`. -/
def sampleMatrix : FixedMatrix K 2 3 :=
  ⟨arrayOfList [1, 2, 3, 4, 5, 6]⟩

/-! ## The samples of a discrete trajectory -/

/-- The struct `value_type<Frame>` (discrete_trajectory_types.hpp,
lines 34-41): a sample of a trajectory. -/
structure value_type (K : Type) where
  time : Instant K
  degrees_of_freedom : DegreesOfFreedom K
deriving DecidableEq, Repr

section Precedes

variable {F : Type} [LinearOrderedField F]

/-- `Precedes::operator()(value_type, value_type)`
(discrete_trajectory_types.hpp, lines 46-50). -/
def Precedes.value_value (left right : value_type F) : Bool :=
  decide (left.time < right.time)

/-- `Precedes::operator()(Instant, value_type)`
(discrete_trajectory_types.hpp, lines 51-54). -/
def Precedes.instant_value (left : Instant F) (right : value_type F) : Bool :=
  decide (left < right.time)

/-- `Precedes::operator()(value_type, Instant)`
(discrete_trajectory_types.hpp, lines 55-58). -/
def Precedes.value_instant (left : value_type F) (right : Instant F) : Bool :=
  decide (left.time < right)

/-- Modelled from the spec: `Timeline<Frame>` (discrete_trajectory_types.hpp,
lines 64-65) is `absl::btree_set<value_type<Frame>, Precedes>`; the container
is a library class that is not under src/.  A timeline is the list of its
samples in the order of iteration, which is increasing for the comparator. -/
abbrev Timeline (F : Type) := List (value_type F)

/-- The invariant of the ordered set: each sample precedes those after it. -/
def Timeline.Sorted (timeline : Timeline F) : Prop :=
  timeline.Pairwise fun left right => Precedes.value_value left right = true

/-- Modelled from the spec: `btree_set::insert`: the sample is inserted at its
place unless the set holds a sample equivalent to it, that is one that neither
precedes it nor is preceded by it. -/
def Timeline.insert (sample : value_type F) : Timeline F → Timeline F
  | [] => [sample]
  | head :: tail =>
    if Precedes.value_value sample head then sample :: head :: tail
    else if Precedes.value_value head sample then head :: Timeline.insert sample tail
    else head :: tail

end Precedes
/-- The sample matrix of three rows and two columns, rows `(1, 0)`, `(0, 1)` and
`(1, 1)`. -/
def sampleColumns : FixedMatrix K 3 2 :=
  ⟨arrayOfList [1, 0, 0, 1, 1, 1]⟩

/-- The sample vector `(1, 2)`. -/
def samplePair : FixedVector K 2 :=
  FixedVector.ofData 2 (arrayOfList [1, 2])

section reconstruct

variable {E P₁ P₂ P₃ P₄ F : Type}

/-- The reconstruction of the variant `v` on a message: the value of
`Variant::ReadFromMessage(ephemeris, message.GetExtension(...))` in the `if`
block of `v` in `ReferenceFrame::ReadFromMessage`
(rigid_reference_frame_body.hpp, lines 133-178), when the extension of `v` is
present. -/
def VariantReaders.reconstruct (readers : VariantReaders E P₁ P₂ P₃ P₄ F) (v : Variant)
    (ephemeris : E) (message : serialization.ReferenceFrame P₁ P₂ P₃ P₄) : Option F :=
  match v with
  | .BarycentricRotating =>
    message.BarycentricRotatingReferenceFrame.map
      (readers.BarycentricRotatingReferenceFrame ephemeris)
  | .BodyCentredBodyDirection =>
    message.BodyCentredBodyDirectionReferenceFrame.map
      (readers.BodyCentredBodyDirectionReferenceFrame ephemeris)
  | .BodyCentredNonRotating =>
    message.BodyCentredNonRotatingReferenceFrame.map
      (readers.BodyCentredNonRotatingReferenceFrame ephemeris)
  | .BodySurface =>
    message.BodySurfaceReferenceFrame.map (readers.BodySurfaceReferenceFrame ephemeris)

end reconstruct

/-- The outputs of a frame of the model above for a query, an instant and a
position: the gravitational acceleration and the gravitational potential. -/
def ConcreteFrame.outputs {P₁ P₂ P₃ P₄ : Type} (f : ConcreteFrame K P₁ P₂ P₃ P₄)
    (query : Instant K × Position K) : Vector K × K :=
  (f.GravitationalAcceleration query.1 query.2, f.GravitationalPotential query.1 query.2)

/-! ## The check of the Coriolis term on `double` values

The checked equality of `RotationFreeGeometricAccelerationAtRest` compares
`double` values, where a product can overflow and `∞ · 0` is not a number.  The
embedding below repeats the computation over a model of these values.  The
classes of `geometry/` and of `physics/rigid_motion.hpp` are modelled as above,
by their coordinates, with the arithmetic of `double`. -/

/-- A model of the values of a `double`: a finite value, an infinity with its
sign, or NaN.  The finite values are exact rationals: the rounding of a finite
result and the sign of a zero are not modelled, a result overflows when its
magnitude reaches `2^1024`.  For the product of a `double` by 2, and for a
product by zero, this is the value that the machine computes. -/
inductive Binary64 where
  | finite (value : ℚ)
  | infinity (negative : Bool)
  | nan
deriving DecidableEq

namespace Binary64

/-- The `double` for an exact result: an infinity from the magnitude `2^1024`
on. -/
def round (value : ℚ) : Binary64 :=
  if 2 ^ 1024 ≤ |value| then infinity (decide (value < 0)) else finite value

/-- The unary minus of `double`. -/
def neg : Binary64 → Binary64
  | finite a => finite (-a)
  | infinity s => infinity (!s)
  | nan => nan

/-- The addition of `double`: `∞ + (-∞)` is NaN. -/
def add : Binary64 → Binary64 → Binary64
  | finite a, finite b => round (a + b)
  | finite _, infinity s => infinity s
  | infinity s, finite _ => infinity s
  | infinity s, infinity s' => if s = s' then infinity s else nan
  | nan, _ => nan
  | _, nan => nan

/-- The multiplication of `double`: `∞ · 0` is NaN. -/
def mul : Binary64 → Binary64 → Binary64
  | finite a, finite b => round (a * b)
  | finite a, infinity s => if a = 0 then nan else infinity (xor s (decide (a < 0)))
  | infinity s, finite b => if b = 0 then nan else infinity (xor s (decide (b < 0)))
  | infinity s, infinity s' => infinity (xor s s')
  | nan, _ => nan
  | _, nan => nan

/-- The division of `double`: `0 / 0` and `∞ / ∞` are NaN; a zero divisor is
taken as `+0`. -/
def div : Binary64 → Binary64 → Binary64
  | finite a, finite b =>
    if b = 0 then (if a = 0 then nan else infinity (decide (a < 0))) else round (a / b)
  | finite _, infinity _ => finite 0
  | infinity s, finite b => infinity (xor s (decide (b < 0)))
  | infinity _, infinity _ => nan
  | nan, _ => nan
  | _, nan => nan

/-- The comparison `==` of `double`: NaN is equal to nothing. -/
def eq : Binary64 → Binary64 → Bool
  | finite a, finite b => decide (a = b)
  | infinity s, infinity s' => s == s'
  | _, _ => false

/-- The value is neither an infinity nor NaN. -/
def isFinite : Binary64 → Bool
  | finite _ => true
  | _ => false

instance : Zero Binary64 := ⟨finite 0⟩

instance : One Binary64 := ⟨finite 1⟩

instance : Neg Binary64 := ⟨neg⟩

instance : Add Binary64 := ⟨add⟩

instance : Sub Binary64 := ⟨fun a b => add a (neg b)⟩

instance : Mul Binary64 := ⟨mul⟩

instance : Div Binary64 := ⟨div⟩

instance : Zero (R3Element Binary64) := ⟨⟨0, 0, 0⟩⟩

instance : Add (R3Element Binary64) := ⟨fun l r => ⟨l.x + r.x, l.y + r.y, l.z + r.z⟩⟩

instance : Sub (R3Element Binary64) := ⟨fun l r => ⟨l.x - r.x, l.y - r.y, l.z - r.z⟩⟩

instance : Neg (R3Element Binary64) := ⟨fun r => ⟨-r.x, -r.y, -r.z⟩⟩

/-- Scalar times triple: `operator*(LScalar, R3Element<RScalar>)`. -/
instance : HMul Binary64 (R3Element Binary64) (R3Element Binary64) :=
  ⟨fun l r => ⟨l * r.x, l * r.y, l * r.z⟩⟩

/-- Triple divided by a scalar: `operator/(R3Element<LScalar>, RScalar)`. -/
instance : HDiv (R3Element Binary64) Binary64 (R3Element Binary64) :=
  ⟨fun l r => ⟨l.x / r, l.y / r, l.z / r⟩⟩

/-- The comparison `==` of two triples, coordinate by coordinate. -/
def R3Element.eq (l r : R3Element Binary64) : Bool :=
  Binary64.eq l.x r.x && Binary64.eq l.y r.y && Binary64.eq l.z r.z

/-- The function `Cross` of `r3_element_body.hpp`, on `double` values. -/
def R3Element.Cross (l r : R3Element Binary64) : R3Element Binary64 :=
  ⟨l.y * r.z - l.z * r.y, l.z * r.x - l.x * r.z, l.x * r.y - l.y * r.x⟩

/-- The function `Dot` of `r3_element_body.hpp`, on `double` values. -/
def R3Element.Dot (l r : R3Element Binary64) : Binary64 :=
  l.x * r.x + l.y * r.y + l.z * r.z

/-- The product `operator*(Bivector, Vector)`, on `double` values. -/
def Bivector.mulVector (l : Bivector Binary64) (r : Vector Binary64) : Vector Binary64 :=
  R3Element.Cross l r

/-- The constant `Radian`, on `double` values. -/
def Radian : Binary64 := 1

/-- The function `Pow<2>`, on `double` values. -/
def Pow2 (a : Binary64) : Binary64 := a * a

/-- The constant `Frame::origin`, on `double` values. -/
def Position.origin : Position Binary64 := ⟨0⟩

/-- Point minus point, on `double` values. -/
def Position.sub (p q : Position Binary64) : Vector Binary64 := p.coordinates - q.coordinates

/-- Displacement plus point, on `double` values. -/
def Position.translate (v : Vector Binary64) (p : Position Binary64) : Position Binary64 :=
  ⟨v + p.coordinates⟩

/-- The constant `Frame::unmoving`, on `double` values. -/
def unmoving : Vector Binary64 := 0

/-- Matrix times triple, on `double` values. -/
def R3x3Matrix.mulVec (m : R3x3Matrix Binary64) (r : R3Element Binary64) :
    R3Element Binary64 :=
  ⟨R3Element.Dot m.row_x r, R3Element.Dot m.row_y r, R3Element.Dot m.row_z r⟩

/-- The call operator `OrthogonalMap::operator()`, on `double` values. -/
def OrthogonalMap.apply (m : OrthogonalMap Binary64) (r : R3Element Binary64) :
    R3Element Binary64 :=
  R3x3Matrix.mulVec m.matrix r

/-- The call operator `RigidTransformation::operator()`, on `double` values. -/
def RigidTransformation.apply (f : RigidTransformation Binary64) (p : Position Binary64) :
    Position Binary64 :=
  Position.translate (OrthogonalMap.apply f.linear_map (Position.sub p f.from_origin))
    f.to_origin

/-- The call operator `RigidMotion::operator()` on degrees of freedom, on
`double` values. -/
def RigidMotion.apply (m : RigidMotion Binary64) (d : DegreesOfFreedom Binary64) :
    DegreesOfFreedom Binary64 :=
  ⟨RigidTransformation.apply m.rigid_transformation d.position,
   OrthogonalMap.apply m.orthogonal_map
     (d.velocity - m.velocity_of_to_frame_origin -
       Bivector.mulVector m.angular_velocity_of_to_frame
         (Position.sub d.position
           (RigidTransformation.apply m.rigid_transformation.Inverse Position.origin)) /
         Radian)⟩

/-- The member `RigidMotion::Inverse`, on `double` values. -/
def RigidMotion.Inverse (m : RigidMotion Binary64) : RigidMotion Binary64 :=
  ⟨m.rigid_transformation.Inverse,
   -OrthogonalMap.apply m.orthogonal_map m.angular_velocity_of_to_frame,
   (RigidMotion.apply m ⟨Position.origin, unmoving⟩).velocity⟩

/-- `ReferenceFrame::ComputeGeometricAccelerations`
(rigid_reference_frame_body.hpp, lines 183-218), on `double` values. -/
def ReferenceFrame.ComputeGeometricAccelerations (f : ReferenceFrame Binary64)
    (t : Instant Binary64) (degrees_of_freedom : DegreesOfFreedom Binary64) :
    GeometricAccelerations Binary64 :=
  let motion := f.MotionOfThisFrame t
  let to_this_frame := motion.rigid_motion
  let from_this_frame := RigidMotion.Inverse to_this_frame
  let Ω : Bivector Binary64 :=
    OrthogonalMap.apply to_this_frame.orthogonal_map to_this_frame.angular_velocity_of_to
  let dΩ_over_dt : Bivector Binary64 :=
    OrthogonalMap.apply to_this_frame.orthogonal_map motion.angular_acceleration_of_to
  let r : Vector Binary64 := Position.sub degrees_of_freedom.position Position.origin
  { gravitational_acceleration :=
      OrthogonalMap.apply to_this_frame.orthogonal_map
        (f.GravitationalAcceleration t
          (RigidTransformation.apply from_this_frame.rigid_transformation
            degrees_of_freedom.position))
    linear_acceleration :=
      -OrthogonalMap.apply to_this_frame.orthogonal_map motion.acceleration_of_origin_of_to
    coriolis_acceleration :=
      Bivector.mulVector (finite (-2) * Ω) degrees_of_freedom.velocity / Radian
    centrifugal_acceleration :=
      Bivector.mulVector (-Ω) (Bivector.mulVector Ω r) / Pow2 Radian
    euler_acceleration := Bivector.mulVector (-dΩ_over_dt) r / Radian }

/-- `ReferenceFrame::RotationFreeGeometricAccelerationAtRest`
(rigid_reference_frame_body.hpp, lines 60-81), on `double` values.  The result
is `none` when the check `DCHECK_EQ(coriolis_acceleration, 0)`, which compares
with `==`, fails. -/
def ReferenceFrame.RotationFreeGeometricAccelerationAtRest (f : ReferenceFrame Binary64)
    (t : Instant Binary64) (position : Position Binary64) : Option (Vector Binary64) :=
  let a := ReferenceFrame.ComputeGeometricAccelerations f t ⟨position, unmoving⟩
  if R3Element.eq a.coriolis_acceleration 0 = true then
    some (a.gravitational_acceleration +
      (a.linear_acceleration + a.centrifugal_acceleration))
  else
    none

/-- A frame that turns about `z` at `2^1023` radians per second, with the axes
and the origin of the inertial frame, without gravitation. -/
def overflowFrame : ReferenceFrame Binary64 where
  MotionOfThisFrame := fun _ =>
    { rigid_motion :=
        { rigid_transformation :=
            { from_origin := Position.origin
              to_origin := Position.origin
              linear_map := ⟨⟨⟨1, 0, 0⟩, ⟨0, 1, 0⟩, ⟨0, 0, 1⟩⟩⟩ }
          angular_velocity_of_to_frame := ⟨0, 0, finite (2 ^ 1023)⟩
          velocity_of_to_frame_origin := 0 }
      angular_acceleration_of_to_frame := 0
      acceleration_of_to_frame_origin := 0 }
  GravitationalAcceleration := fun _ _ => 0
  GravitationalPotential := fun _ _ => 0

/-- A frame that turns about `z` at one radian per second, otherwise as the
frame above. -/
def turningFrame : ReferenceFrame Binary64 where
  MotionOfThisFrame := fun _ =>
    { rigid_motion :=
        { rigid_transformation :=
            { from_origin := Position.origin
              to_origin := Position.origin
              linear_map := ⟨⟨⟨1, 0, 0⟩, ⟨0, 1, 0⟩, ⟨0, 0, 1⟩⟩⟩ }
          angular_velocity_of_to_frame := ⟨0, 0, 1⟩
          velocity_of_to_frame_origin := 0 }
      angular_acceleration_of_to_frame := 0
      acceleration_of_to_frame_origin := 0 }
  GravitationalAcceleration := fun _ _ => 0
  GravitationalPotential := fun _ _ => 0

end Binary64

/-! ## Theorems: coordinates -/

namespace R3Element

@[simp] theorem zero_x : (0 : R3Element K).x = 0 := rfl
@[simp] theorem zero_y : (0 : R3Element K).y = 0 := rfl
@[simp] theorem zero_z : (0 : R3Element K).z = 0 := rfl
@[simp] theorem add_x (l r : R3Element K) : (l + r).x = l.x + r.x := rfl
@[simp] theorem add_y (l r : R3Element K) : (l + r).y = l.y + r.y := rfl
@[simp] theorem add_z (l r : R3Element K) : (l + r).z = l.z + r.z := rfl
@[simp] theorem sub_x (l r : R3Element K) : (l - r).x = l.x - r.x := rfl
@[simp] theorem sub_y (l r : R3Element K) : (l - r).y = l.y - r.y := rfl
@[simp] theorem sub_z (l r : R3Element K) : (l - r).z = l.z - r.z := rfl
@[simp] theorem neg_x (r : R3Element K) : (-r).x = -r.x := rfl
@[simp] theorem neg_y (r : R3Element K) : (-r).y = -r.y := rfl
@[simp] theorem neg_z (r : R3Element K) : (-r).z = -r.z := rfl
@[simp] theorem smul_x (l : K) (r : R3Element K) : (l * r).x = l * r.x := rfl
@[simp] theorem smul_y (l : K) (r : R3Element K) : (l * r).y = l * r.y := rfl
@[simp] theorem smul_z (l : K) (r : R3Element K) : (l * r).z = l * r.z := rfl
@[simp] theorem div_x (l : R3Element K) (r : K) : (l / r).x = l.x / r := rfl
@[simp] theorem div_y (l : R3Element K) (r : K) : (l / r).y = l.y / r := rfl
@[simp] theorem div_z (l : R3Element K) (r : K) : (l / r).z = l.z / r := rfl

omit [Field K] in
theorem ext_iff3 (l r : R3Element K) : l = r ↔ l.x = r.x ∧ l.y = r.y ∧ l.z = r.z := by
  cases l; cases r; simp

@[simp] theorem Cross_x (l r : R3Element K) : (Cross l r).x = l.y * r.z - l.z * r.y := rfl
@[simp] theorem Cross_y (l r : R3Element K) : (Cross l r).y = l.z * r.x - l.x * r.z := rfl
@[simp] theorem Cross_z (l r : R3Element K) : (Cross l r).z = l.x * r.y - l.y * r.x := rfl

end R3Element

/-! ## Theorems: the geometric accelerations and the potential -/

/-- C1: `GeometricAcceleration(t, dof)` is the sum of the five terms
(gravitational, linear, Coriolis, centrifugal, Euler) that
`ComputeGeometricAccelerations(t, dof)` produces, each taken once and with its
own sign. -/
theorem GeometricAcceleration_eq_sum_of_five (f : ReferenceFrame K) (t : Instant K)
    (dof : DegreesOfFreedom K) :
    f.GeometricAcceleration t dof =
      (f.ComputeGeometricAccelerations t dof).gravitational_acceleration +
      (f.ComputeGeometricAccelerations t dof).linear_acceleration +
      (f.ComputeGeometricAccelerations t dof).coriolis_acceleration +
      (f.ComputeGeometricAccelerations t dof).centrifugal_acceleration +
      (f.ComputeGeometricAccelerations t dof).euler_acceleration := by
  simp only [ReferenceFrame.GeometricAcceleration, ext_iff3, add_x, add_y, add_z]
  refine ⟨?_, ?_, ?_⟩ <;> ring

/-- C2: with `R` the rotational part of `to_this_frame`, `Ω = R(angular
velocity)`, `dΩ/dt = R(angular acceleration)`, `r = position - origin` and `v`
the velocity, the Coriolis term is `-2·Ω×v`, the centrifugal term is
`-Ω×(Ω×r)` and the Euler term is `-(dΩ/dt)×r`, divided by the angle unit once,
twice and once. -/
theorem ComputeGeometricAccelerations_fictitious_terms (f : ReferenceFrame K)
    (t : Instant K) (dof : DegreesOfFreedom K) :
    let motion := f.MotionOfThisFrame t
    let R := motion.rigid_motion.orthogonal_map
    let Ω := R.apply motion.rigid_motion.angular_velocity_of_to
    let dΩ_over_dt := R.apply motion.angular_acceleration_of_to
    let r := dof.position.sub Position.origin
    let v := dof.velocity
    let a := f.ComputeGeometricAccelerations t dof
    a.coriolis_acceleration = ((-2 : K) * Cross Ω v) / (Radian : K) ∧
    a.centrifugal_acceleration = (-(Cross Ω (Cross Ω r))) / ((Radian : K) * Radian) ∧
    a.euler_acceleration = (-(Cross dΩ_over_dt r)) / (Radian : K) := by
  simp only [ReferenceFrame.ComputeGeometricAccelerations, Bivector.mulVector, Pow2, ext_iff3,
    div_x, div_y, div_z, smul_x, smul_y, smul_z, neg_x, neg_y, neg_z, Cross_x, Cross_y, Cross_z]
  refine ⟨⟨?_, ?_, ?_⟩, ⟨?_, ?_, ?_⟩, ⟨?_, ?_, ?_⟩⟩ <;> ring

/-- C3: the gravitational term is the rotational part of `to_this_frame`
applied to `GravitationalAcceleration(t, p)`, where `p` is the image of the
position under the inverse rigid transformation, that is the inverse rotation
applied to `position - to_origin`, moved to `from_origin`; the linear term is
the negation of the rotational part applied to the acceleration of the origin. -/
theorem ComputeGeometricAccelerations_gravitational_linear (f : ReferenceFrame K)
    (t : Instant K) (dof : DegreesOfFreedom K) :
    let motion := f.MotionOfThisFrame t
    let R := motion.rigid_motion.orthogonal_map
    let p := motion.rigid_motion.rigid_transformation.Inverse.apply dof.position
    let a := f.ComputeGeometricAccelerations t dof
    a.gravitational_acceleration = R.apply (f.GravitationalAcceleration t p) ∧
    p = Position.translate
          (R.Inverse.apply
            (dof.position.sub motion.rigid_motion.rigid_transformation.to_origin))
          motion.rigid_motion.rigid_transformation.from_origin ∧
    a.linear_acceleration = -(R.apply motion.acceleration_of_origin_of_to) :=
  ⟨rfl, rfl, rfl⟩

/-- The Coriolis term vanishes at zero velocity, whatever the motion. -/
theorem coriolis_acceleration_unmoving (f : ReferenceFrame K) (t : Instant K)
    (position : Position K) :
    (f.ComputeGeometricAccelerations t ⟨position, unmoving⟩).coriolis_acceleration = 0 := by
  simp [ReferenceFrame.ComputeGeometricAccelerations, Bivector.mulVector, unmoving, ext_iff3]

/-- C4: `RotationFreeGeometricAccelerationAtRest(t, position)` returns
gravitational + linear + centrifugal, the three terms being those of
`ComputeGeometricAccelerations` at `(t, {position, zero velocity})`; the Coriolis
and Euler terms do not enter the result. -/
theorem RotationFreeGeometricAccelerationAtRest_eq_sum_of_three [DecidableEq K]
    (f : ReferenceFrame K) (t : Instant K) (position : Position K) :
    f.RotationFreeGeometricAccelerationAtRest t position =
      some
        ((f.ComputeGeometricAccelerations t ⟨position, unmoving⟩).gravitational_acceleration +
         (f.ComputeGeometricAccelerations t ⟨position, unmoving⟩).linear_acceleration +
         (f.ComputeGeometricAccelerations t ⟨position, unmoving⟩).centrifugal_acceleration) :=
    by
  simp only [ReferenceFrame.RotationFreeGeometricAccelerationAtRest,
    coriolis_acceleration_unmoving, if_true, Option.some.injEq, ext_iff3, add_x, add_y, add_z]
  refine ⟨?_, ?_, ?_⟩ <;> ring

/-- C6: `GeometricPotential(t, position)` is the sum of three terms: the
gravitational potential at the inertial image `p` of the position, the inner
product of `r = position - origin` with the rotated acceleration of the origin,
and `-½·‖Ω×r‖²` with `Ω` the angular velocity pushed into the coordinates of
this frame. -/
theorem GeometricPotential_eq_sum_of_three (f : ReferenceFrame K) (t : Instant K)
    (position : Position K) :
    let motion := f.MotionOfThisFrame t
    let R := motion.rigid_motion.orthogonal_map
    let Ω := R.apply motion.rigid_motion.angular_velocity_of_to
    let r := position.sub Position.origin
    let p := motion.rigid_motion.rigid_transformation.Inverse.apply position
    f.GeometricPotential t position =
      f.GravitationalPotential t p +
      Dot r (R.apply motion.acceleration_of_origin_of_to) +
      -(1 / 2) * Norm2 (Cross Ω r) := by
  simp only [ReferenceFrame.GeometricPotential, InnerProduct, Bivector.mulVector, Radian,
    Norm2, div_x, div_y, div_z, div_one, RigidMotion.Inverse]
  ring

/-! ## Theorems: `ReadFromMessage` -/

section ReadFromMessage

variable {E P₁ P₂ P₃ P₄ F : Type}

/-- C7: `ReadFromMessage` returns a frame if and only if exactly one of the four
payloads is present; when none or at least two are present it fails and returns
no frame. -/
theorem ReadFromMessage_ok_iff_exactly_one (readers : VariantReaders E P₁ P₂ P₃ P₄ F)
    (message : serialization.ReferenceFrame P₁ P₂ P₃ P₄) (ephemeris : E) :
    ((∃ frame, ReferenceFrame.ReadFromMessage readers message ephemeris = .ok frame) ↔
      message.payloads_present = 1) ∧
    ((∃ error, ReferenceFrame.ReadFromMessage readers message ephemeris = .error error) ↔
      message.payloads_present ≠ 1) := by
  obtain ⟨m₁, m₂, m₃, m₄⟩ := message
  cases m₁ <;> cases m₂ <;> cases m₃ <;> cases m₄ <;>
    simp [ReferenceFrame.ReadFromMessage, ReferenceFrame.ReadFromMessage.run, ReadState.found,
      serialization.ReferenceFrame.payloads_present]

/-- C8: when exactly one of the four payloads is present, `ReadFromMessage`
returns the result of that variant's own `ReadFromMessage` applied to the
ephemeris and to that payload, and the reconstruction of no other variant is
invoked. -/
theorem ReadFromMessage_dispatch (readers : VariantReaders E P₁ P₂ P₃ P₄ F)
    (message : serialization.ReferenceFrame P₁ P₂ P₃ P₄) (ephemeris : E)
    (h : message.payloads_present = 1) :
    (∀ extension, message.BarycentricRotatingReferenceFrame = some extension →
      ReferenceFrame.ReadFromMessage readers message ephemeris =
        .ok (readers.BarycentricRotatingReferenceFrame ephemeris extension) ∧
      (ReferenceFrame.ReadFromMessage.run readers message ephemeris).calls =
        [.BarycentricRotating]) ∧
    (∀ extension, message.BodyCentredBodyDirectionReferenceFrame = some extension →
      ReferenceFrame.ReadFromMessage readers message ephemeris =
        .ok (readers.BodyCentredBodyDirectionReferenceFrame ephemeris extension) ∧
      (ReferenceFrame.ReadFromMessage.run readers message ephemeris).calls =
        [.BodyCentredBodyDirection]) ∧
    (∀ extension, message.BodyCentredNonRotatingReferenceFrame = some extension →
      ReferenceFrame.ReadFromMessage readers message ephemeris =
        .ok (readers.BodyCentredNonRotatingReferenceFrame ephemeris extension) ∧
      (ReferenceFrame.ReadFromMessage.run readers message ephemeris).calls =
        [.BodyCentredNonRotating]) ∧
    (∀ extension, message.BodySurfaceReferenceFrame = some extension →
      ReferenceFrame.ReadFromMessage readers message ephemeris =
        .ok (readers.BodySurfaceReferenceFrame ephemeris extension) ∧
      (ReferenceFrame.ReadFromMessage.run readers message ephemeris).calls =
        [.BodySurface]) := by
  obtain ⟨m₁, m₂, m₃, m₄⟩ := message
  cases m₁ <;> cases m₂ <;> cases m₃ <;> cases m₄ <;>
    simp [ReferenceFrame.ReadFromMessage, ReferenceFrame.ReadFromMessage.run, ReadState.found,
      serialization.ReferenceFrame.payloads_present] at h ⊢

/-- Witness for C8: the sample message carries exactly one payload, of the
`BodyCentredBodyDirection` variant, and is read by that variant alone. -/
theorem ReadFromMessage_dispatch_witness :
    sampleMessage.payloads_present = 1 ∧
    ReferenceFrame.ReadFromMessage sampleReaders sampleMessage 3 =
      .ok (Variant.BodyCentredBodyDirection, 3, 7) ∧
    (ReferenceFrame.ReadFromMessage.run sampleReaders sampleMessage 3).calls =
      [Variant.BodyCentredBodyDirection] :=
  ⟨by decide, (ReadFromMessage_dispatch sampleReaders sampleMessage 3 (by decide)).2.1 7 rfl⟩

end ReadFromMessage

/-! ## Theorems: the Frenet frame

The statements below are over an ordered field with an exact square root:
`Sqrt x` is the nonnegative root of every `x ≥ 0`. -/

section Frenet

variable {R : Type} [LinearOrderedField R]

theorem Norm2_nonneg (v : R3Element R) : 0 ≤ Norm2 v := by
  unfold Norm2
  have h₁ := mul_self_nonneg v.x
  have h₂ := mul_self_nonneg v.y
  have h₃ := mul_self_nonneg v.z
  linarith

theorem Norm2_eq_zero_iff (v : R3Element R) : Norm2 v = 0 ↔ v = 0 := by
  constructor
  · intro h
    unfold Norm2 at h
    have h₁ := mul_self_nonneg v.x
    have h₂ := mul_self_nonneg v.y
    have h₃ := mul_self_nonneg v.z
    have hx : v.x * v.x = 0 := by linarith
    have hy : v.y * v.y = 0 := by linarith
    have hz : v.z * v.z = 0 := by linarith
    rw [ext_iff3]
    exact ⟨mul_self_eq_zero.mp hx, mul_self_eq_zero.mp hy, mul_self_eq_zero.mp hz⟩
  · rintro rfl
    simp [Norm2]

theorem Norm_mul_self {Sqrt : R → R} (hSqrt : ExactSqrt Sqrt) (v : R3Element R) :
    Norm Sqrt v * Norm Sqrt v = Norm2 v :=
  (hSqrt _ (Norm2_nonneg v)).2

theorem Norm_ne_zero {Sqrt : R → R} (hSqrt : ExactSqrt Sqrt) {v : R3Element R} (hv : v ≠ 0) :
    Norm Sqrt v ≠ 0 := by
  intro h
  have h₂ := Norm_mul_self hSqrt v
  rw [h, mul_zero] at h₂
  exact hv ((Norm2_eq_zero_iff v).mp h₂.symm)

theorem Norm_eq_one {Sqrt : R → R} (hSqrt : ExactSqrt Sqrt) {v : R3Element R}
    (hv : Norm2 v = 1) : Norm Sqrt v = 1 := by
  have h₁ := (hSqrt _ (Norm2_nonneg v)).1
  have h₂ := Norm_mul_self hSqrt v
  rw [hv] at h₂
  change 0 ≤ Norm Sqrt v at h₁
  nlinarith

theorem Normalize_eq_some [DecidableEq R] {Sqrt : R → R} (hSqrt : ExactSqrt Sqrt)
    {v : R3Element R} (hv : v ≠ 0) : Normalize Sqrt v = some (v / Norm Sqrt v) := by
  simp [Normalize, Norm_ne_zero hSqrt hv]

theorem Norm2_div_Norm {Sqrt : R → R} (hSqrt : ExactSqrt Sqrt) {v : R3Element R}
    (hv : v ≠ 0) : Norm2 (v / Norm Sqrt v) = 1 := by
  have hs := Norm_ne_zero hSqrt hv
  have hss := Norm_mul_self hSqrt v
  unfold Norm2 at hss ⊢
  simp only [div_x, div_y, div_z]
  field_simp
  linarith

theorem Norm2_Cross (a b : R3Element R) :
    Norm2 (Cross a b) = Norm2 a * Norm2 b - Dot a b * Dot a b := by
  simp only [Norm2, Dot, Cross_x, Cross_y, Cross_z]
  ring

theorem Dot_Cross_left (a b : R3Element R) : Dot a (Cross a b) = 0 := by
  simp only [Dot, Cross_x, Cross_y, Cross_z]
  ring

theorem Dot_Cross_right (a b : R3Element R) : Dot b (Cross a b) = 0 := by
  simp only [Dot, Cross_x, Cross_y, Cross_z]
  ring

theorem Dot_div_right (a b : R3Element R) (c : R) : Dot a (b / c) = Dot a b / c := by
  simp only [Dot, div_x, div_y, div_z]
  ring

theorem Dot_div_left (a b : R3Element R) (c : R) : Dot (a / c) b = Dot a b / c := by
  simp only [Dot, div_x, div_y, div_z]
  ring

theorem Dot_comm (a b : R3Element R) : Dot a b = Dot b a := by
  simp only [Dot]
  ring

/-- The vector `a - (a · v̂) v̂`, with `v̂ = v / ‖v‖`, is orthogonal to `v`. -/
theorem Dot_orthogonalization {Sqrt : R → R} (hSqrt : ExactSqrt Sqrt) (a : R3Element R)
    {v : R3Element R} (hv : v ≠ 0) :
    Dot (a - Dot a (v / Norm Sqrt v) * (v / Norm Sqrt v)) v = 0 := by
  have hs := Norm_ne_zero hSqrt hv
  have hss := Norm_mul_self hSqrt v
  unfold Norm2 at hss
  simp only [Dot, sub_x, sub_y, sub_z, smul_x, smul_y, smul_z, div_x, div_y, div_z]
  field_simp
  have key : Norm Sqrt v * Norm Sqrt v = v.x * v.x + v.y * v.y + v.z * v.z := hss
  generalize Norm Sqrt v = s at key hs
  have e : s ^ 2 = v.x * v.x + v.y * v.y + v.z * v.z := by rw [← key]; ring
  linear_combination (a.x * v.x + a.y * v.y + a.z * v.z) * e

/-- A vector that is not a multiple of `v` has a nonzero component orthogonal
to `v`. -/
theorem orthogonalization_ne_zero (Sqrt : R → R) (a v : R3Element R)
    (hpar : ∀ c : R, a ≠ c * v) :
    a - Dot a (v / Norm Sqrt v) * (v / Norm Sqrt v) ≠ 0 := by
  intro h
  apply hpar (Dot a (v / Norm Sqrt v) / Norm Sqrt v)
  rw [ext_iff3] at h ⊢
  simp only [sub_x, sub_y, sub_z, smul_x, smul_y, smul_z, div_x, div_y, div_z, zero_x, zero_y,
    zero_z] at h ⊢
  obtain ⟨hx, hy, hz⟩ := h
  refine ⟨?_, ?_, ?_⟩
  · linear_combination hx
  · linear_combination hy
  · linear_combination hz

/-- C9: for degrees of freedom whose velocity is nonzero and whose geometric
acceleration is not parallel to the velocity, `FrenetFrame` builds a tangent, a
normal and a binormal that have unit norm, are pairwise orthogonal and are
right-handed (binormal = tangent × normal); the normal acceleration obtained by
`OrthogonalizationAgainst(velocity)` is orthogonal to the velocity. -/
theorem FrenetFrame_orthonormal [DecidableEq R] (Sqrt : R → R) (hSqrt : ExactSqrt Sqrt)
    (f : ReferenceFrame R) (t : Instant R) (dof : DegreesOfFreedom R)
    (hv : dof.velocity ≠ 0)
    (hpar : ∀ c : R, f.GeometricAcceleration t dof ≠ c * dof.velocity) :
    ∃ normal_acceleration tangent normal binormal : R3Element R,
      OrthogonalizationAgainst Sqrt (f.GeometricAcceleration t dof) dof.velocity =
        some normal_acceleration ∧
      Normalize Sqrt dof.velocity = some tangent ∧
      Normalize Sqrt normal_acceleration = some normal ∧
      f.FrenetFrame Sqrt t dof = some (Rotation.ofAxes tangent normal binormal) ∧
      Norm Sqrt tangent = 1 ∧ Norm Sqrt normal = 1 ∧ Norm Sqrt binormal = 1 ∧
      Dot tangent normal = 0 ∧ Dot tangent binormal = 0 ∧ Dot normal binormal = 0 ∧
      binormal = Cross tangent normal ∧
      Dot normal_acceleration dof.velocity = 0 := by
  have hna := orthogonalization_ne_zero Sqrt _ _ hpar
  have horth := Dot_orthogonalization hSqrt (f.GeometricAcceleration t dof) hv
  have h₁ : OrthogonalizationAgainst Sqrt (f.GeometricAcceleration t dof) dof.velocity =
      some (f.GeometricAcceleration t dof -
        Dot (f.GeometricAcceleration t dof) (dof.velocity / Norm Sqrt dof.velocity) *
          (dof.velocity / Norm Sqrt dof.velocity)) := by
    simp [OrthogonalizationAgainst, Normalize_eq_some hSqrt hv]
  generalize f.GeometricAcceleration t dof -
        Dot (f.GeometricAcceleration t dof) (dof.velocity / Norm Sqrt dof.velocity) *
          (dof.velocity / Norm Sqrt dof.velocity) = n at hna horth h₁
  have htn : Dot (dof.velocity / Norm Sqrt dof.velocity) (n / Norm Sqrt n) = 0 := by
    rw [Dot_div_left, Dot_div_right, Dot_comm, horth]
    simp
  have ht2 := Norm2_div_Norm hSqrt hv
  have hn2 := Norm2_div_Norm hSqrt hna
  refine ⟨n, dof.velocity / Norm Sqrt dof.velocity, n / Norm Sqrt n,
    Cross (dof.velocity / Norm Sqrt dof.velocity) (n / Norm Sqrt n),
    h₁, Normalize_eq_some hSqrt hv, Normalize_eq_some hSqrt hna, ?_,
    Norm_eq_one hSqrt ht2, Norm_eq_one hSqrt hn2, ?_, htn, Dot_Cross_left _ _,
    Dot_Cross_right _ _, rfl, horth⟩
  · simp [ReferenceFrame.FrenetFrame, h₁, Normalize_eq_some hSqrt hv,
      Normalize_eq_some hSqrt hna, Wedge]
  · apply Norm_eq_one hSqrt
    rw [Norm2_Cross, ht2, hn2, htn]
    ring

/-- The projection on the direction of `v`, computed with the normalized
vector, is the usual `(a · v / v · v) v`. -/
theorem orthogonalization_eq {Sqrt : R → R} (hSqrt : ExactSqrt Sqrt) (a : R3Element R)
    {v : R3Element R} (hv : v ≠ 0) :
    a - Dot a (v / Norm Sqrt v) * (v / Norm Sqrt v) = a - (Dot a v / Dot v v) * v := by
  have hs := Norm_ne_zero hSqrt hv
  have hss : Norm Sqrt v * Norm Sqrt v = Dot v v := Norm_mul_self hSqrt v
  have hd : Dot v v ≠ 0 := by
    rw [← hss]
    exact mul_ne_zero hs hs
  rw [Dot_div_right, ext_iff3]
  simp only [sub_x, sub_y, sub_z, smul_x, smul_y, smul_z, div_x, div_y, div_z]
  rw [← hss] at hd ⊢
  refine ⟨?_, ?_, ?_⟩ <;> field_simp

/-- A matrix is determined by the images of the canonical axes. -/
theorem R3x3Matrix.eq_of_mulVec_axes (m n : R3x3Matrix R)
    (hx : m.mulVec ⟨1, 0, 0⟩ = n.mulVec ⟨1, 0, 0⟩)
    (hy : m.mulVec ⟨0, 1, 0⟩ = n.mulVec ⟨0, 1, 0⟩)
    (hz : m.mulVec ⟨0, 0, 1⟩ = n.mulVec ⟨0, 0, 1⟩) : m = n := by
  obtain ⟨⟨a₁, a₂, a₃⟩, ⟨b₁, b₂, b₃⟩, ⟨c₁, c₂, c₃⟩⟩ := m
  obtain ⟨⟨d₁, d₂, d₃⟩, ⟨e₁, e₂, e₃⟩, ⟨g₁, g₂, g₃⟩⟩ := n
  simp [R3x3Matrix.mulVec, Dot] at hx hy hz
  simp [hx, hy, hz]

theorem Rotation.ofAxes_apply (x y z : R3Element R) :
    (Rotation.ofAxes x y z).apply ⟨1, 0, 0⟩ = x ∧
    (Rotation.ofAxes x y z).apply ⟨0, 1, 0⟩ = y ∧
    (Rotation.ofAxes x y z).apply ⟨0, 0, 1⟩ = z := by
  simp [Rotation.ofAxes, Rotation.apply, R3x3Matrix.FromColumns, R3x3Matrix.mulVec, Dot]

/-- C10: for nondegenerate degrees of freedom (nonzero velocity, geometric
acceleration `a` not parallel to it), `FrenetFrame(t, dof)` is the rotation that
maps the canonical axes `(1,0,0)`, `(0,1,0)`, `(0,0,1)` to
tangent = unit(velocity), normal = unit(a - projection of a on the velocity) and
binormal = tangent × normal; it is the only one that does. -/
theorem FrenetFrame_maps_canonical_axes [DecidableEq R] (Sqrt : R → R) (hSqrt : ExactSqrt Sqrt)
    (f : ReferenceFrame R) (t : Instant R) (dof : DegreesOfFreedom R)
    (hv : dof.velocity ≠ 0)
    (hpar : ∀ c : R, f.GeometricAcceleration t dof ≠ c * dof.velocity) :
    let a := f.GeometricAcceleration t dof
    let v := dof.velocity
    let tangent := v / Norm Sqrt v
    let normal_acceleration := a - (Dot a v / Dot v v) * v
    let normal := normal_acceleration / Norm Sqrt normal_acceleration
    let binormal := Cross tangent normal
    ∃ ρ : Rotation R, f.FrenetFrame Sqrt t dof = some ρ ∧
      ρ.apply ⟨1, 0, 0⟩ = tangent ∧
      ρ.apply ⟨0, 1, 0⟩ = normal ∧
      ρ.apply ⟨0, 0, 1⟩ = binormal ∧
      ∀ σ : Rotation R, σ.apply ⟨1, 0, 0⟩ = tangent → σ.apply ⟨0, 1, 0⟩ = normal →
        σ.apply ⟨0, 0, 1⟩ = binormal → σ = ρ := by
  intro a v tangent normal_acceleration normal binormal
  have hna := orthogonalization_ne_zero Sqrt _ _ hpar
  have heq : a - Dot a (v / Norm Sqrt v) * (v / Norm Sqrt v) = normal_acceleration :=
    orthogonalization_eq hSqrt a hv
  have h₁ : OrthogonalizationAgainst Sqrt a v = some normal_acceleration := by
    rw [← heq]
    simp [OrthogonalizationAgainst, Normalize_eq_some hSqrt hv]
  have hna2 : normal_acceleration ≠ 0 := by
    rw [← heq]
    exact hna
  obtain ⟨hx, hy, hz⟩ := Rotation.ofAxes_apply tangent normal binormal
  refine ⟨Rotation.ofAxes tangent normal binormal, ?_, hx, hy, hz, ?_⟩
  · simp only [ReferenceFrame.FrenetFrame]
    rw [h₁, Normalize_eq_some hSqrt hv]
    simp only [Option.some_bind]
    rw [Normalize_eq_some hSqrt hna2]
    simp [Wedge, tangent, normal, binormal]
  · intro σ sx sy sz
    obtain ⟨m⟩ := σ
    simp only [Rotation.ofAxes, Rotation.mk.injEq]
    apply R3x3Matrix.eq_of_mulVec_axes
    · exact sx.trans hx.symm
    · exact sy.trans hy.symm
    · exact sz.trans hz.symm

end Frenet

/-! ## The Frenet frame of the sample data, over the real numbers -/

/-- The real square root is exact. -/
theorem ExactSqrt_Real_sqrt : ExactSqrt Real.sqrt :=
  fun x hx => ⟨Real.sqrt_nonneg x, Real.mul_self_sqrt hx⟩

theorem sampleDegreesOfFreedom_velocity_ne_zero :
    (sampleDegreesOfFreedom : DegreesOfFreedom ℝ).velocity ≠ 0 := by
  simp [sampleDegreesOfFreedom, ext_iff3]

theorem sampleFrame_GeometricAcceleration :
    (sampleFrame : ReferenceFrame ℝ).GeometricAcceleration 0 sampleDegreesOfFreedom =
      ⟨-4, -5, -10⟩ := by
  simp only [ReferenceFrame.GeometricAcceleration, ReferenceFrame.ComputeGeometricAccelerations,
    sampleFrame, sampleDegreesOfFreedom, RigidMotion.orthogonal_map, OrthogonalMap.apply,
    R3x3Matrix.mulVec, Dot, RigidMotion.angular_velocity_of_to,
    AcceleratedRigidMotion.angular_acceleration_of_to,
    AcceleratedRigidMotion.acceleration_of_origin_of_to, Bivector.mulVector, Position.sub,
    Position.origin, Radian, Pow2, ext_iff3, add_x, add_y, add_z, sub_x, sub_y, sub_z, neg_x,
    neg_y, neg_z, smul_x, smul_y, smul_z, div_x, div_y, div_z, Cross_x, Cross_y, Cross_z,
    zero_x, zero_y, zero_z]
  norm_num

theorem sampleFrame_not_parallel (c : ℝ) :
    (sampleFrame : ReferenceFrame ℝ).GeometricAcceleration 0 sampleDegreesOfFreedom ≠
      c * (sampleDegreesOfFreedom : DegreesOfFreedom ℝ).velocity := by
  rw [sampleFrame_GeometricAcceleration]
  simp [sampleDegreesOfFreedom, ext_iff3]

/-- Witness for C9: the sample degrees of freedom in the sample frame, over the
real numbers with the real square root. -/
theorem FrenetFrame_orthonormal_witness :
    ((sampleDegreesOfFreedom : DegreesOfFreedom ℝ).velocity ≠ 0 ∧
      ∀ c : ℝ,
        (sampleFrame : ReferenceFrame ℝ).GeometricAcceleration 0 sampleDegreesOfFreedom ≠
          c * (sampleDegreesOfFreedom : DegreesOfFreedom ℝ).velocity) ∧
    ∃ normal_acceleration tangent normal binormal : R3Element ℝ,
      OrthogonalizationAgainst Real.sqrt
          ((sampleFrame : ReferenceFrame ℝ).GeometricAcceleration 0 sampleDegreesOfFreedom)
          (sampleDegreesOfFreedom : DegreesOfFreedom ℝ).velocity =
        some normal_acceleration ∧
      Normalize Real.sqrt (sampleDegreesOfFreedom : DegreesOfFreedom ℝ).velocity =
        some tangent ∧
      Normalize Real.sqrt normal_acceleration = some normal ∧
      (sampleFrame : ReferenceFrame ℝ).FrenetFrame Real.sqrt 0 sampleDegreesOfFreedom =
        some (Rotation.ofAxes tangent normal binormal) ∧
      Norm Real.sqrt tangent = 1 ∧ Norm Real.sqrt normal = 1 ∧ Norm Real.sqrt binormal = 1 ∧
      Dot tangent normal = 0 ∧ Dot tangent binormal = 0 ∧ Dot normal binormal = 0 ∧
      binormal = Cross tangent normal ∧
      Dot normal_acceleration (sampleDegreesOfFreedom : DegreesOfFreedom ℝ).velocity = 0 :=
  ⟨⟨sampleDegreesOfFreedom_velocity_ne_zero, sampleFrame_not_parallel⟩,
   FrenetFrame_orthonormal Real.sqrt ExactSqrt_Real_sqrt sampleFrame 0 sampleDegreesOfFreedom
     sampleDegreesOfFreedom_velocity_ne_zero sampleFrame_not_parallel⟩

/-- Witness for C10: the Frenet frame of the sample degrees of freedom in the
sample frame maps the first canonical axis to the unit tangent. -/
theorem FrenetFrame_maps_canonical_axes_witness :
    ((sampleDegreesOfFreedom : DegreesOfFreedom ℝ).velocity ≠ 0 ∧
      ∀ c : ℝ,
        (sampleFrame : ReferenceFrame ℝ).GeometricAcceleration 0 sampleDegreesOfFreedom ≠
          c * (sampleDegreesOfFreedom : DegreesOfFreedom ℝ).velocity) ∧
    ∃ ρ : Rotation ℝ,
      (sampleFrame : ReferenceFrame ℝ).FrenetFrame Real.sqrt 0 sampleDegreesOfFreedom =
        some ρ ∧
      ρ.apply ⟨1, 0, 0⟩ =
        (sampleDegreesOfFreedom : DegreesOfFreedom ℝ).velocity /
          Norm Real.sqrt (sampleDegreesOfFreedom : DegreesOfFreedom ℝ).velocity :=
  ⟨⟨sampleDegreesOfFreedom_velocity_ne_zero, sampleFrame_not_parallel⟩,
   (FrenetFrame_maps_canonical_axes Real.sqrt ExactSqrt_Real_sqrt sampleFrame 0
     sampleDegreesOfFreedom sampleDegreesOfFreedom_velocity_ne_zero
     sampleFrame_not_parallel).imp fun _ h => ⟨h.1, h.2.1⟩⟩

/-! ## Theorems: the degenerate Frenet frame -/

section FrenetDegenerate

variable {R : Type} [LinearOrderedField R]

theorem Norm_eq_zero_iff {Sqrt : R → R} (hSqrt : ExactSqrt Sqrt) (v : R3Element R) :
    Norm Sqrt v = 0 ↔ v = 0 := by
  constructor
  · intro h
    by_contra hv
    exact Norm_ne_zero hSqrt hv h
  · rintro rfl
    have h := Norm_mul_self hSqrt (0 : R3Element R)
    have h0 : Norm2 (0 : R3Element R) = 0 := (Norm2_eq_zero_iff _).mpr rfl
    rw [h0] at h
    exact mul_self_eq_zero.mp h

theorem Normalize_eq_none_iff [DecidableEq R] {Sqrt : R → R} (hSqrt : ExactSqrt Sqrt)
    (v : R3Element R) : Normalize Sqrt v = none ↔ v = 0 := by
  unfold Normalize
  simp only [ite_eq_left_iff, reduceCtorEq, imp_false, not_not]
  exact Norm_eq_zero_iff hSqrt v

/-- C11: `FrenetFrame(t, dof)` yields no rotation exactly when the velocity is
the zero vector or the normal acceleration (the geometric acceleration minus
its projection on the velocity) is the zero vector; for every other input it
yields a rotation. -/
theorem FrenetFrame_undefined_iff [DecidableEq R] (Sqrt : R → R) (hSqrt : ExactSqrt Sqrt)
    (f : ReferenceFrame R) (t : Instant R) (dof : DegreesOfFreedom R) :
    let a := f.GeometricAcceleration t dof
    let v := dof.velocity
    (f.FrenetFrame Sqrt t dof = none ↔ (v = 0 ∨ a - (Dot a v / Dot v v) * v = 0)) ∧
    ((f.FrenetFrame Sqrt t dof).isSome = true ↔
      (v ≠ 0 ∧ a - (Dot a v / Dot v v) * v ≠ 0)) := by
  intro a v
  have key : f.FrenetFrame Sqrt t dof = none ↔ (v = 0 ∨ a - (Dot a v / Dot v v) * v = 0) := by
    by_cases hv : v = 0
    · have hn : Normalize Sqrt dof.velocity = none := (Normalize_eq_none_iff hSqrt _).mpr hv
      simp [ReferenceFrame.FrenetFrame, OrthogonalizationAgainst, hn, hv]
    · have heq := orthogonalization_eq hSqrt a hv
      have hn : Normalize Sqrt dof.velocity = some (v / Norm Sqrt v) :=
        Normalize_eq_some hSqrt hv
      simp only [ReferenceFrame.FrenetFrame, OrthogonalizationAgainst, hn, Option.map_some',
        Option.some_bind, hv, false_or]
      change (Normalize Sqrt (a - Dot a (v / Norm Sqrt v) * (v / Norm Sqrt v))).bind _ = none ↔ _
      rw [heq]
      by_cases hz : a - (Dot a v / Dot v v) * v = 0
      · rw [(Normalize_eq_none_iff hSqrt _).mpr hz]
        simp [hz]
      · rw [Normalize_eq_some hSqrt hz]
        simp [hz]
  refine ⟨key, ?_⟩
  rw [← not_or, ← key, Option.isSome_iff_ne_none]

end FrenetDegenerate

/-! ## Theorems: the default frame transformations -/

/-- C12: for a variant that supplies one of `ToThisFrameAtTime` and
`FromThisFrameAtTime` and inherits the default for the other, both are defined
at every instant, and each is the inverse of the other, given that inverting
twice the supplied rigid motion gives it back. -/
theorem ToThisFrameAtTime_FromThisFrameAtTime_inverse (v : FrameOverrides K) (t : Instant K)
    (fuel : Nat)
    (hone : v.ToThisFrameAtTime.isSome ≠ v.FromThisFrameAtTime.isSome)
    (hinv : ∀ g, (v.ToThisFrameAtTime = some g ∨ v.FromThisFrameAtTime = some g) →
      (g t).Inverse.Inverse = g t) :
    ∃ to_this_frame from_this_frame : RigidMotion K,
      ReferenceFrame.ToThisFrameAtTime v (fuel + 1) t = some to_this_frame ∧
      ReferenceFrame.FromThisFrameAtTime v (fuel + 1) t = some from_this_frame ∧
      to_this_frame.Inverse = from_this_frame ∧
      from_this_frame.Inverse = to_this_frame := by
  obtain ⟨to_override, frm⟩ := v
  cases to_override with
  | none =>
    cases frm with
    | none => simp at hone
    | some g =>
      refine ⟨(g t).Inverse, g t, ?_, ?_, hinv g (Or.inr rfl), rfl⟩
      · cases fuel <;> simp [ReferenceFrame.ToThisFrameAtTime, ReferenceFrame.FromThisFrameAtTime]
      · simp [ReferenceFrame.FromThisFrameAtTime]
  | some g =>
    cases frm with
    | some g' => simp at hone
    | none =>
      refine ⟨g t, (g t).Inverse, ?_, ?_, rfl, hinv g (Or.inl rfl)⟩
      · simp [ReferenceFrame.ToThisFrameAtTime]
      · cases fuel <;> simp [ReferenceFrame.ToThisFrameAtTime, ReferenceFrame.FromThisFrameAtTime]

/-! ## Theorems: the calls of `MotionOfThisFrame` -/

/-- C13: one call of `GeometricAcceleration`, of
`RotationFreeGeometricAccelerationAtRest` or of `GeometricPotential` on an
instrumented frame returns what the frame returns and appends exactly one
entry to the log of the calls of `MotionOfThisFrame`, the instant it was given. -/
theorem MotionOfThisFrame_called_once [DecidableEq K] (f : ReferenceFrame K) (t : Instant K)
    (dof : DegreesOfFreedom K) (position : Position K) (calls : List (Instant K)) :
    Instrumented.GeometricAcceleration f t dof calls =
      (f.GeometricAcceleration t dof, calls ++ [t]) ∧
    Instrumented.RotationFreeGeometricAccelerationAtRest f t position calls =
      (f.RotationFreeGeometricAccelerationAtRest t position, calls ++ [t]) ∧
    Instrumented.GeometricPotential f t position calls =
      (f.GeometricPotential t position, calls ++ [t]) := by
  refine ⟨rfl, ?_, rfl⟩
  simp only [Instrumented.RotationFreeGeometricAccelerationAtRest,
    ReferenceFrame.RotationFreeGeometricAccelerationAtRest]
  have h := coriolis_acceleration_unmoving f t position
  have h' : (Instrumented.ComputeGeometricAccelerations f t ⟨position, unmoving⟩ calls) =
      (f.ComputeGeometricAccelerations t ⟨position, unmoving⟩, calls ++ [t]) := rfl
  rw [h']
  simp only [h, if_true]

/-- Inverting twice the rigid motion of the sample frame gives it back. -/
theorem sampleFrame_Inverse_Inverse (t : Instant ℚ) :
    ((sampleFrame : ReferenceFrame ℚ).MotionOfThisFrame t).rigid_motion.Inverse.Inverse =
      ((sampleFrame : ReferenceFrame ℚ).MotionOfThisFrame t).rigid_motion := by
  simp only [sampleFrame, RigidMotion.Inverse, RigidTransformation.Inverse,
    OrthogonalMap.Inverse, R3x3Matrix.Transpose, R3x3Matrix.FromColumns, RigidMotion.apply,
    RigidMotion.orthogonal_map, RigidTransformation.apply, OrthogonalMap.apply,
    R3x3Matrix.mulVec, Dot, Bivector.mulVector, Position.sub, Position.translate,
    Position.origin, unmoving, Radian, RigidMotion.mk.injEq, RigidTransformation.mk.injEq,
    OrthogonalMap.mk.injEq, R3x3Matrix.mk.injEq, Position.mk.injEq, ext_iff3, add_x, add_y,
    add_z, sub_x, sub_y, sub_z, neg_x, neg_y, neg_z, div_x, div_y, div_z, Cross_x, Cross_y,
    Cross_z, zero_x, zero_y, zero_z]
  norm_num

/-- Witness for C12: the sample variant supplies `ToThisFrameAtTime` only. -/
theorem ToThisFrameAtTime_FromThisFrameAtTime_inverse_witness :
    ((sampleOverrides : FrameOverrides ℚ).ToThisFrameAtTime.isSome ≠
      (sampleOverrides : FrameOverrides ℚ).FromThisFrameAtTime.isSome) ∧
    ∃ to_this_frame from_this_frame : RigidMotion ℚ,
      ReferenceFrame.ToThisFrameAtTime sampleOverrides 1 (5 : ℚ) = some to_this_frame ∧
      ReferenceFrame.FromThisFrameAtTime sampleOverrides 1 (5 : ℚ) = some from_this_frame ∧
      to_this_frame.Inverse = from_this_frame ∧
      from_this_frame.Inverse = to_this_frame :=
  ⟨by simp [sampleOverrides],
   ToThisFrameAtTime_FromThisFrameAtTime_inverse sampleOverrides 5 0
     (by simp [sampleOverrides])
     (by
       intro g hg
       simp only [sampleOverrides, Option.some.injEq, reduceCtorEq, or_false] at hg
       subst hg
       exact sampleFrame_Inverse_Inverse 5)⟩

/-- Witness for C11: over the real numbers, the Frenet frame of the sample degrees
of freedom in the sample frame is defined, its velocity and its normal
acceleration being nonzero. -/
theorem FrenetFrame_undefined_iff_witness :
    ((sampleFrame : ReferenceFrame ℝ).FrenetFrame Real.sqrt 0 sampleDegreesOfFreedom).isSome =
      true :=
  (FrenetFrame_undefined_iff Real.sqrt ExactSqrt_Real_sqrt sampleFrame 0
    sampleDegreesOfFreedom).2.mpr
    ⟨sampleDegreesOfFreedom_velocity_ne_zero, by
      rw [sampleFrame_GeometricAcceleration]
      simp [sampleDegreesOfFreedom, ext_iff3, Dot]⟩

/-! ## Theorems: the transform pipeline -/

section TransformsCache

variable {S : Type} [DecidableEq S]

omit [DecidableEq S] in
theorem Transforms.State.fresh_Consistent :
    (Transforms.State.fresh : Transforms.State S).Consistent := by
  simp [Transforms.State.Consistent, Transforms.State.fresh]

theorem Transforms.first_at_spec (T : Transforms S) (s s₁ : Transforms.State S) (t : Instant S)
    (dof d : DegreesOfFreedom S) (h : T.first_at s t dof = some (d, s₁))
    (hs : s.Consistent) :
    s₁.Consistent ∧ s₁.first_cache_ t = some d ∧
      (∀ u e, s.first_cache_ u = some e → s₁.first_cache_ u = some e) ∧
      ∀ u ∈ s₁.computed, u ∈ s.computed ∨ u = t := by
  unfold Transforms.first_at at h
  cases hc : s.first_cache_ t with
  | some cached =>
    simp only [hc, Option.some.injEq, Prod.mk.injEq] at h
    obtain ⟨rfl, rfl⟩ := h
    exact ⟨hs, hc, fun _ _ h => h, fun u hu => Or.inl hu⟩
  | none =>
    simp only [hc] at h
    cases hf : T.first_ t dof with
    | none => simp [hf] at h
    | some through =>
      simp only [hf, Option.some.injEq, Prod.mk.injEq] at h
      obtain ⟨rfl, rfl⟩ := h
      have hnot : t ∉ s.computed := by
        intro hmem
        have := (hs.2 t).mp hmem
        simp [hc] at this
      refine ⟨⟨?_, ?_⟩, by simp, ?_, by simp⟩
      · exact List.Nodup.append hs.1 (List.nodup_singleton t) (by simpa using hnot)
      · intro u
        by_cases hu : u = t
        · simp [hu]
        · simp [hu, hs.2 u]
      · intro u e hue
        have hu : u ≠ t := by
          rintro rfl
          simp [hc] at hue
        simp [hu, hue]

theorem Transforms.first_spec (T : Transforms S) (trajectory : Trajectory S) :
    ∀ (s s₂ : Transforms.State S) (emitted : Trajectory S),
      T.first trajectory s = some (emitted, s₂) → s.Consistent →
      s₂.Consistent ∧ (∀ e ∈ emitted, s₂.first_cache_ e.1 = some e.2) ∧
        (∀ u e, s.first_cache_ u = some e → s₂.first_cache_ u = some e) ∧
        emitted.map Prod.fst = trajectory.map Prod.fst ∧
        ∀ u ∈ s₂.computed, u ∈ s.computed ∨ u ∈ trajectory.map Prod.fst := by
  induction trajectory with
  | nil =>
    intro s s₂ emitted h hs
    simp only [Transforms.first, Option.some.injEq, Prod.mk.injEq] at h
    obtain ⟨rfl, rfl⟩ := h
    exact ⟨hs, by simp, fun _ _ h => h, rfl, fun u hu => Or.inl hu⟩
  | cons sample rest ih =>
    intro s s₂ emitted h hs
    obtain ⟨t, dof⟩ := sample
    simp only [Transforms.first] at h
    cases h₁ : T.first_at s t dof with
    | none => simp [h₁] at h
    | some r₁ =>
      obtain ⟨d, s₁⟩ := r₁
      simp only [h₁] at h
      cases h₂ : Transforms.first T rest s₁ with
      | none => simp [h₂] at h
      | some r₂ =>
        obtain ⟨emitted₂, s₂'⟩ := r₂
        simp only [h₂, Option.some.injEq, Prod.mk.injEq] at h
        obtain ⟨rfl, rfl⟩ := h
        obtain ⟨hc₁, hd, hmono₁, hlog₁⟩ :=
          Transforms.first_at_spec T s s₁ t dof d h₁ hs
        obtain ⟨hc₂, hem, hmono₂, hfst, hlog₂⟩ := ih s₁ s₂' emitted₂ h₂ hc₁
        refine ⟨hc₂, ?_, fun u e hue => hmono₂ u e (hmono₁ u e hue), by simp [hfst], ?_⟩
        · intro e he
          rcases List.mem_cons.mp he with rfl | he
          · exact hmono₂ _ _ hd
          · exact hem e he
        · intro u hu
          rcases hlog₂ u hu with h | h
          · rcases hlog₁ u h with h | h
            · exact Or.inl h
            · exact Or.inr (by simp [h])
          · exact Or.inr (by simp only [List.map_cons, List.mem_cons]; exact Or.inr h)

theorem Transforms.first_isSome (T : Transforms S) (trajectory : Trajectory S) :
    ∀ s : Transforms.State S,
      (∀ sample ∈ trajectory, (T.first_ sample.1 sample.2).isSome = true) →
      ∃ emitted s₂, T.first trajectory s = some (emitted, s₂) := by
  induction trajectory with
  | nil => intro s _; exact ⟨[], s, rfl⟩
  | cons sample rest ih =>
    intro s htotal
    obtain ⟨t, dof⟩ := sample
    have ht := htotal (t, dof) (List.mem_cons_self _ _)
    obtain ⟨d, hd⟩ := Option.isSome_iff_exists.mp ht
    have h₁ : ∃ r, T.first_at s t dof = some r := by
      unfold Transforms.first_at
      cases hc : s.first_cache_ t with
      | some cached => exact ⟨_, rfl⟩
      | none => simp only [hd]; exact ⟨_, rfl⟩
    obtain ⟨⟨d₁, s₁⟩, h₁⟩ := h₁
    obtain ⟨emitted, s₂, h₂⟩ :=
      ih s₁ fun sample hs => htotal sample (List.mem_cons_of_mem _ hs)
    exact ⟨(t, d₁) :: emitted, s₂, by simp [Transforms.first, h₁, h₂]⟩

/-- C14: one traversal of `first()` over a trajectory, from the state of a
pipeline that was just built: the transform `first_` is computed at most once
per instant; after the traversal the cache holds, at every instant produced,
exactly the value emitted at that instant; and the same traversal run again
from the same state gives the same output. -/
theorem Transforms.first_cache_correct (T : Transforms S) (trajectory : Trajectory S)
    (htotal : ∀ sample ∈ trajectory, (T.first_ sample.1 sample.2).isSome = true) :
    ∃ emitted s,
      T.first trajectory Transforms.State.fresh = some (emitted, s) ∧
      s.computed.Nodup ∧
      (∀ t, t ∈ s.computed → t ∈ trajectory.map Prod.fst) ∧
      (∀ e ∈ emitted, s.first_cache_ e.1 = some e.2) ∧
      emitted.map Prod.fst = trajectory.map Prod.fst ∧
      ∀ emitted₂ s₂, T.first trajectory Transforms.State.fresh = some (emitted₂, s₂) →
        emitted₂ = emitted ∧ s₂.computed = s.computed := by
  obtain ⟨emitted, s, h⟩ := Transforms.first_isSome T trajectory Transforms.State.fresh htotal
  obtain ⟨hc, hem, _, hfst, hlog⟩ :=
    Transforms.first_spec T trajectory _ _ _ h Transforms.State.fresh_Consistent
  refine ⟨emitted, s, h, hc.1, ?_, hem, hfst, ?_⟩
  · intro t ht
    rcases hlog t ht with h | h
    · simp [Transforms.State.fresh] at h
    · exact h
  · intro emitted₂ s₂ h₂
    rw [h] at h₂
    simp only [Option.some.injEq, Prod.mk.injEq] at h₂
    exact ⟨h₂.1.symm, by rw [h₂.2]⟩

end TransformsCache

section TransformsFirst

variable {S : Type} [DecidableEq S]

/-- Over a trajectory whose instants are distinct and not yet in the cache, every
element that `first()` emits is the transform of the sample at the same rank. -/
theorem Transforms.first_eq_transform (T : Transforms S) (trajectory : Trajectory S) :
    ∀ (s s₂ : Transforms.State S) (emitted : Trajectory S),
      (trajectory.map Prod.fst).Nodup →
      (∀ sample ∈ trajectory, s.first_cache_ sample.1 = none) →
      T.first trajectory s = some (emitted, s₂) →
      List.Forall₂ (fun sample e => e.1 = sample.1 ∧ T.first_ sample.1 sample.2 = some e.2)
        trajectory emitted := by
  induction trajectory with
  | nil =>
    intro s s₂ emitted _ _ h
    simp only [Transforms.first, Option.some.injEq, Prod.mk.injEq] at h
    obtain ⟨rfl, rfl⟩ := h
    exact List.Forall₂.nil
  | cons sample rest ih =>
    intro s s₂ emitted hnodup hcache h
    obtain ⟨t, dof⟩ := sample
    have hc : s.first_cache_ t = none := hcache (t, dof) (List.mem_cons_self _ _)
    simp only [Transforms.first, Transforms.first_at, hc] at h
    cases hf : T.first_ t dof with
    | none => simp [hf] at h
    | some d =>
      simp only [hf] at h
      cases h₂ : Transforms.first T rest
          { first_cache_ := fun u => if u = t then some d else s.first_cache_ u
            computed := s.computed ++ [t] } with
      | none => simp [h₂] at h
      | some r₂ =>
        obtain ⟨emitted₂, s₂'⟩ := r₂
        simp only [h₂, Option.some.injEq, Prod.mk.injEq] at h
        obtain ⟨rfl, rfl⟩ := h
        simp only [List.map_cons, List.nodup_cons] at hnodup
        refine List.Forall₂.cons ⟨rfl, hf⟩ (ih _ _ _ hnodup.2 ?_ h₂)
        intro sample hs
        have hne : sample.1 ≠ t := by
          rintro rfl
          exact hnodup.1 (List.mem_map_of_mem Prod.fst hs)
        simp only [hne, if_false]
        exact hcache sample (List.mem_cons_of_mem _ hs)

end TransformsFirst

section BodyCentredNonRotating

variable {R : Type} [LinearOrderedField R]

/-- C15: for a pipeline built by `BodyCentredNonRotating` and a trajectory in
`FromFrame` with increasing instants at each of which the centre trajectory has
a sample, `first()` yields the instants of the source, in the same increasing
order, and at each of them a position in `ThroughFrame` whose displacement from
the origin is the position of the sample minus the position of the centre at
that instant. -/
theorem Transforms.BodyCentredNonRotating_first [DecidableEq R]
    (from_centre_trajectory to_centre_trajectory trajectory : Trajectory R)
    (hsorted : (trajectory.map Prod.fst).Pairwise (· < ·))
    (hcentre : ∀ sample ∈ trajectory, (from_centre_trajectory.at_time sample.1).isSome = true) :
    ∃ emitted s,
      (Transforms.BodyCentredNonRotating from_centre_trajectory to_centre_trajectory).first
        trajectory Transforms.State.fresh = some (emitted, s) ∧
      emitted.map Prod.fst = trajectory.map Prod.fst ∧
      (emitted.map Prod.fst).Pairwise (· < ·) ∧
      List.Forall₂
        (fun sample e => e.1 = sample.1 ∧
          ∃ centre, from_centre_trajectory.at_time sample.1 = some centre ∧
            e.2.position.sub Position.origin = sample.2.position.sub centre.position)
        trajectory emitted := by
  have htotal : ∀ sample ∈ trajectory,
      ((Transforms.BodyCentredNonRotating from_centre_trajectory
        to_centre_trajectory).first_ sample.1 sample.2).isSome = true := by
    intro sample hs
    simpa [Transforms.BodyCentredNonRotating] using hcentre sample hs
  obtain ⟨emitted, s, h⟩ := Transforms.first_isSome _ trajectory Transforms.State.fresh htotal
  obtain ⟨-, -, -, hfst, -⟩ :=
    Transforms.first_spec _ trajectory _ _ _ h Transforms.State.fresh_Consistent
  have hnodup : (trajectory.map Prod.fst).Nodup :=
    hsorted.imp fun hab => ne_of_lt hab
  have hall := Transforms.first_eq_transform _ trajectory _ _ _ hnodup
    (fun _ _ => rfl) h
  refine ⟨emitted, s, h, hfst, hfst ▸ hsorted, ?_⟩
  refine hall.imp ?_
  rintro sample e ⟨he, hf⟩
  refine ⟨he, ?_⟩
  simp only [Transforms.BodyCentredNonRotating, Option.map_eq_some'] at hf
  obtain ⟨centre, hcen, hval⟩ := hf
  refine ⟨centre, hcen, ?_⟩
  rw [← hval]
  simp [Position.translate, Position.sub, Position.origin, ext_iff3]

end BodyCentredNonRotating

/-! ## The pipeline of `transforms_test.cpp` -/

/-- The traversal of the test: `first()` over `body_from_` in the frame centred
on `body1_`, emits at each instant `i` the position `(9 i, -22 i, 27 i)`, the
difference of the positions of the two bodies. -/
theorem TransformsTest.first_emitted :
    (((Transforms.BodyCentredNonRotating TransformsTest.body1_from_
        TransformsTest.body1_to_).first (TransformsTest.body_from_ : Trajectory ℚ)
        Transforms.State.fresh).map Prod.fst) =
      some ((List.range 20).map fun i =>
        ((i : ℚ), ⟨⟨⟨9 * i, -22 * i, 27 * i⟩⟩, ⟨36 * i, -88 * i, 144 * i⟩⟩)) := by
  have hrange : List.range 20 = [0, 1, 2, 3, 4, 5, 6, 7, 8, 9, 10, 11, 12, 13, 14, 15, 16, 17,
      18, 19] := by decide
  simp only [TransformsTest.body_from_, TransformsTest.body1_from_,
    TransformsTest.kNumberOfPoints, hrange, List.map, Transforms.first, Transforms.first_at,
    Transforms.State.fresh, Transforms.BodyCentredNonRotating, Trajectory.at_time]
  norm_num [List.find?, Position.translate, Position.sub, Position.origin, ext_iff3]

/-- Witness for C14: the pipeline and the trajectory of `transforms_test.cpp`. -/
theorem Transforms.first_cache_correct_witness :
    ∃ emitted s,
      (Transforms.BodyCentredNonRotating TransformsTest.body1_from_
        TransformsTest.body1_to_).first (TransformsTest.body_from_ : Trajectory ℚ)
        Transforms.State.fresh = some (emitted, s) ∧
      s.computed.Nodup ∧
      (∀ e ∈ emitted, s.first_cache_ e.1 = some e.2) :=
  (Transforms.first_cache_correct
    (Transforms.BodyCentredNonRotating TransformsTest.body1_from_ TransformsTest.body1_to_)
    (TransformsTest.body_from_ : Trajectory ℚ) (by decide)).imp
    fun _ h => h.imp fun _ h => ⟨h.1, h.2.1, h.2.2.2.1⟩

/-- Witness for C15: the pipeline and the trajectory of `transforms_test.cpp`. -/
theorem Transforms.BodyCentredNonRotating_first_witness :
    (((TransformsTest.body_from_ : Trajectory ℚ).map Prod.fst).Pairwise (· < ·) ∧
      ∀ sample ∈ (TransformsTest.body_from_ : Trajectory ℚ),
        ((TransformsTest.body1_from_ : Trajectory ℚ).at_time sample.1).isSome = true) ∧
    ∃ emitted s,
      (Transforms.BodyCentredNonRotating TransformsTest.body1_from_
        TransformsTest.body1_to_).first (TransformsTest.body_from_ : Trajectory ℚ)
        Transforms.State.fresh = some (emitted, s) ∧
      emitted.map Prod.fst = (TransformsTest.body_from_ : Trajectory ℚ).map Prod.fst ∧
      (emitted.map Prod.fst).Pairwise (· < ·) ∧
      List.Forall₂
        (fun sample e => e.1 = sample.1 ∧
          ∃ centre,
            (TransformsTest.body1_from_ : Trajectory ℚ).at_time sample.1 = some centre ∧
            e.2.position.sub Position.origin = sample.2.position.sub centre.position)
        (TransformsTest.body_from_ : Trajectory ℚ) emitted :=
  ⟨⟨by decide, by decide⟩,
   Transforms.BodyCentredNonRotating_first TransformsTest.body1_from_ TransformsTest.body1_to_
     TransformsTest.body_from_ (by decide) (by decide)⟩

/-! ## Theorems: writing a frame and reading it back

The members `WriteToMessage` and `ReadFromMessage` of the four variant classes
are not part of the excerpt.  What the specification says of them enters as
hypotheses; the dispatch is that of `ReferenceFrame::ReadFromMessage`. -/

section RoundTrip

variable {E P₁ P₂ P₃ P₄ F Q A : Type}

/-- When exactly the payload of the variant `v` is present in a message,
`ReferenceFrame::ReadFromMessage` passes its check and returns the frame that
the reconstruction of `v` gives. -/
theorem ReferenceFrame.ReadFromMessage_of_present_variants
    (readers : VariantReaders E P₁ P₂ P₃ P₄ F)
    (message : serialization.ReferenceFrame P₁ P₂ P₃ P₄) (ephemeris : E) (v : Variant)
    (h : message.present_variants = [v]) :
    ∃ g, readers.reconstruct v ephemeris message = some g ∧
      ReferenceFrame.ReadFromMessage readers message ephemeris = .ok g := by
  obtain ⟨m₁, m₂, m₃, m₄⟩ := message
  cases m₁ <;> cases m₂ <;> cases m₃ <;> cases m₄ <;>
    simp [serialization.ReferenceFrame.present_variants] at h <;>
    subst h <;>
    simp [VariantReaders.reconstruct, ReferenceFrame.ReadFromMessage,
      ReferenceFrame.ReadFromMessage.run, ReadState.found]

end RoundTrip

/-! ## Theorems: the packed upper-triangular matrix -/

section UpperTriangularStorage

variable {α : Type}

theorem Transpose.store_fst (position : Nat) (value : α) (state : (Nat → α) × Nat) :
    (FixedUpperTriangularMatrix.Transpose.store position value state).1 =
      Function.update state.1 position value := rfl

theorem Transpose.store_snd (position : Nat) (value : α) (state : (Nat → α) × Nat) :
    (FixedUpperTriangularMatrix.Transpose.store position value state).2 = state.2 + 1 := rfl

/-- The inner loop of the first nest of `Transpose`: it copies consecutive
elements of `data` to consecutive positions from `base + c₀`. -/
theorem Transpose.inner_full (data : Nat → α) (base : Nat) :
    ∀ (k c₀ : Nat) (state : (Nat → α) × Nat),
      ((List.range' c₀ k).foldl
          (fun state column =>
            FixedUpperTriangularMatrix.Transpose.store (base + column) (data state.2) state)
          state).2 = state.2 + k ∧
      (∀ c, c₀ ≤ c → c < c₀ + k →
        ((List.range' c₀ k).foldl
          (fun state column =>
            FixedUpperTriangularMatrix.Transpose.store (base + column) (data state.2) state)
          state).1 (base + c) = data (state.2 + (c - c₀))) ∧
      (∀ i, (i < base + c₀ ∨ base + c₀ + k ≤ i) →
        ((List.range' c₀ k).foldl
          (fun state column =>
            FixedUpperTriangularMatrix.Transpose.store (base + column) (data state.2) state)
          state).1 i = state.1 i) := by
  intro k
  induction k with
  | zero =>
    intro c₀ state
    refine ⟨rfl, ?_, fun _ _ => rfl⟩
    intro c h₁ h₂
    omega
  | succ k ih =>
    intro c₀ state
    simp only [List.range'_succ, List.foldl_cons]
    obtain ⟨h₁, h₂, h₃⟩ := ih (c₀ + 1)
      (FixedUpperTriangularMatrix.Transpose.store (base + c₀) (data state.2) state)
    rw [Transpose.store_snd] at h₁ h₂
    refine ⟨by rw [h₁]; omega, ?_, ?_⟩
    · intro c hc₁ hc₂
      by_cases hc : c = c₀
      · subst hc
        rw [h₃ _ (Or.inl (by omega)), Transpose.store_fst]
        simp
      · rw [h₂ c (by omega) (by omega)]
        congr 1
        omega
    · intro i hi
      rw [h₃ i (by omega), Transpose.store_fst, Function.update_noteq (by omega)]

/-- The inner loop of the second nest of `Transpose`: it stores the values `g r`
at consecutive positions from the running index. -/
theorem Transpose.inner_result (g : Nat → α) :
    ∀ (k r₀ : Nat) (state : (Nat → α) × Nat),
      ((List.range' r₀ k).foldl
          (fun state row => FixedUpperTriangularMatrix.Transpose.store state.2 (g row) state)
          state).2 = state.2 + k ∧
      (∀ r, r₀ ≤ r → r < r₀ + k →
        ((List.range' r₀ k).foldl
          (fun state row => FixedUpperTriangularMatrix.Transpose.store state.2 (g row) state)
          state).1 (state.2 + (r - r₀)) = g r) ∧
      (∀ i, (i < state.2 ∨ state.2 + k ≤ i) →
        ((List.range' r₀ k).foldl
          (fun state row => FixedUpperTriangularMatrix.Transpose.store state.2 (g row) state)
          state).1 i = state.1 i) := by
  intro k
  induction k with
  | zero =>
    intro r₀ state
    refine ⟨rfl, ?_, fun _ _ => rfl⟩
    intro r h₁ h₂
    omega
  | succ k ih =>
    intro r₀ state
    simp only [List.range'_succ, List.foldl_cons]
    obtain ⟨h₁, h₂, h₃⟩ := ih (r₀ + 1)
      (FixedUpperTriangularMatrix.Transpose.store state.2 (g r₀) state)
    rw [Transpose.store_snd] at h₁ h₂ h₃
    refine ⟨by rw [h₁]; omega, ?_, ?_⟩
    · intro r hr₁ hr₂
      by_cases hr : r = r₀
      · subst hr
        rw [h₃ _ (Or.inl (by omega)), Transpose.store_fst]
        have e : state.2 + (r - r) = state.2 := by omega
        rw [e]
        exact Function.update_same _ _ _
      · have := h₂ r (by omega) (by omega)
        have e : state.2 + 1 + (r - (r₀ + 1)) = state.2 + (r - r₀) := by omega
        rw [e] at this
        exact this
    · intro i hi
      rw [h₃ i (by omega), Transpose.store_fst, Function.update_noteq (by omega)]


theorem triangle_succ (c : Nat) : (c + 1) * (c + 1 + 1) / 2 = c * (c + 1) / 2 + (c + 1) := by
  have h := Nat.triangle_succ (c + 1)
  simp only [Nat.add_sub_cancel] at h
  rw [Nat.mul_comm (c + 1) (c + 1 + 1), h, Nat.mul_comm (c + 1) c]

theorem triangle_mono {c d : Nat} (h : c ≤ d) : c * (c + 1) / 2 ≤ d * (d + 1) / 2 :=
  Nat.div_le_div_right (Nat.mul_le_mul h (by omega))

theorem rowOffset_eq (n : Nat) : ∀ row, row ≤ n →
    rowOffset n row = row * n - row * (row - 1) / 2
  | 0, _ => by simp [rowOffset]
  | row + 1, h => by
    have ih := rowOffset_eq n row (by omega)
    have ht := Nat.triangle_succ row
    have hle : row * (row - 1) / 2 ≤ row * row := by
      calc row * (row - 1) / 2 ≤ row * (row - 1) := Nat.div_le_self _ _
        _ ≤ row * row := Nat.mul_le_mul_left _ (by omega)
    have hrn : row * row ≤ row * n := Nat.mul_le_mul_left _ (by omega)
    have hexp : (row + 1) * n = row * n + n := by ring
    have hsq : 2 * (row * (row - 1) / 2) = row * (row - 1) := by
      have : 2 ∣ row * (row - 1) := by
        cases row with
        | zero => simp
        | succ m =>
          simp only [Nat.add_sub_cancel]
          have h2 := (Nat.even_mul_succ_self m).two_dvd
          rwa [Nat.mul_comm] at h2
      omega
    simp only [rowOffset, ih, Nat.add_sub_cancel] at ht ⊢
    rw [ht, hexp]
    have hrr : row * (row - 1) / 2 + row ≤ row * n := by
      cases row with
      | zero => simp
      | succ m =>
        simp only [Nat.add_sub_cancel] at hsq ⊢
        have h1 : (m + 1) * m + 2 * (m + 1) ≤ 2 * ((m + 1) * n) := by
          have : m + 2 ≤ 2 * n := by omega
          calc (m + 1) * m + 2 * (m + 1) = (m + 1) * (m + 2) := by ring
            _ ≤ (m + 1) * (2 * n) := Nat.mul_le_mul_left _ this
            _ = 2 * ((m + 1) * n) := by ring
        omega
    omega

/-- The first nest of loops of `Transpose`, after `m` rows: the running index is
the offset of row `m` and the rows done hold their elements of `data`. -/
theorem Transpose.outer_full (n : Nat) (full₀ data : Nat → α) : ∀ m, m ≤ n →
    ((List.range m).foldl
      (fun state row =>
        (List.range' row (n - row)).foldl
          (fun state column =>
            FixedUpperTriangularMatrix.Transpose.store (row * n + column) (data state.2) state)
          state)
      (full₀, 0)).2 = rowOffset n m ∧
    ∀ r c, r < m → r ≤ c → c < n →
      ((List.range m).foldl
        (fun state row =>
          (List.range' row (n - row)).foldl
            (fun state column =>
              FixedUpperTriangularMatrix.Transpose.store (row * n + column) (data state.2)
                state)
            state)
        (full₀, 0)).1 (r * n + c) = data (rowOffset n r + (c - r)) := by
  intro m
  induction m with
  | zero =>
    intro _
    exact ⟨rfl, fun r c hr => absurd hr (Nat.not_lt_zero r)⟩
  | succ m ih =>
    intro hm
    obtain ⟨ih₁, ih₂⟩ := ih (by omega)
    simp only [List.range_succ, List.foldl_append, List.foldl_cons, List.foldl_nil]
    obtain ⟨h₁, h₂, h₃⟩ := Transpose.inner_full data (m * n) (n - m) m
      ((List.range m).foldl
        (fun state row =>
          (List.range' row (n - row)).foldl
            (fun state column =>
              FixedUpperTriangularMatrix.Transpose.store (row * n + column) (data state.2)
                state)
            state)
        (full₀, 0))
    rw [ih₁] at h₁ h₂
    refine ⟨by rw [h₁]; rfl, ?_⟩
    intro r c hr hrc hc
    by_cases hrm : r = m
    · subst hrm
      exact h₂ c hrc (by omega)
    · have hlt : r < m := by omega
      rw [h₃ _ (Or.inl ?_), ih₂ r c hlt hrc hc]
      have : (r + 1) * n ≤ m * n := Nat.mul_le_mul_right _ hlt
      have e : (r + 1) * n = r * n + n := by ring
      omega

/-- The second nest of loops of `Transpose`, after `m` columns: the running
index is the triangular number of `m` and the columns done hold their elements
of `full`. -/
theorem Transpose.outer_result (n : Nat) (result₀ full : Nat → α) : ∀ m,
    ((List.range m).foldl
      (fun state column =>
        (List.range (column + 1)).foldl
          (fun state row =>
            FixedUpperTriangularMatrix.Transpose.store state.2 (full (row * n + column)) state)
          state)
      (result₀, 0)).2 = m * (m + 1) / 2 ∧
    ∀ r c, c < m → r ≤ c →
      ((List.range m).foldl
        (fun state column =>
          (List.range (column + 1)).foldl
            (fun state row =>
              FixedUpperTriangularMatrix.Transpose.store state.2 (full (row * n + column))
                state)
            state)
        (result₀, 0)).1 (c * (c + 1) / 2 + r) = full (r * n + c) := by
  intro m
  induction m with
  | zero => exact ⟨rfl, fun r c hc => absurd hc (Nat.not_lt_zero c)⟩
  | succ m ih =>
    obtain ⟨ih₁, ih₂⟩ := ih
    rw [List.range_succ, List.foldl_append]
    simp only [List.foldl_cons, List.foldl_nil]
    obtain ⟨h₁, h₂, h₃⟩ :=
      Transpose.inner_result (fun row => full (row * n + m)) (m + 1) 0
      ((List.range m).foldl
        (fun state column =>
          (List.range (column + 1)).foldl
            (fun state row =>
              FixedUpperTriangularMatrix.Transpose.store state.2 (full (row * n + column))
                state)
            state)
        (result₀, 0))
    rw [ih₁] at h₁ h₂ h₃
    rw [← List.range_eq_range'] at h₁ h₂ h₃
    refine ⟨by rw [h₁, triangle_succ], ?_⟩
    intro r c hc hrc
    by_cases hcm : c = m
    · subst hcm
      have := h₂ r (by omega) (by omega)
      simpa using this
    · have hlt : c < m := by omega
      rw [h₃ _ (Or.inl ?_), ih₂ r c hlt hrc]
      have h1 := triangle_succ c
      have h2 := triangle_mono (show c + 1 ≤ m by omega)
      omega

/-- The matrix constructed from row-major `data` reads back, at `(row, column)`,
the element of `data` at the offset of the row plus `column - row`. -/
theorem FixedUpperTriangularMatrix.ofData_get_rowOffset (n : Nat)
    (full₀ result₀ data : Nat → α) (row column : Nat) (hrow : row ≤ column)
    (hcolumn : column < n) :
    (FixedUpperTriangularMatrix.ofData n full₀ result₀ data).get row column =
      data (rowOffset n row + (column - row)) := by
  simp only [FixedUpperTriangularMatrix.get, FixedUpperTriangularMatrix.ofData,
    FixedUpperTriangularMatrix.Transpose]
  rw [(Transpose.outer_result n result₀ _ n).2 row column hcolumn hrow,
    (Transpose.outer_full n full₀ data n (le_refl n)).2 row column (by omega) hrow hcolumn]

/-- C17: the matrix constructed from an array `data` that lists an upper
triangular matrix with `n` columns row by row reads back, at `(row, column)` with
`row ≤ column < n`, the element of `data` of index
`row·n − row·(row−1)/2 + (column − row)`, whatever the arrays `full` and
`result` of `Transpose` hold before they are filled. -/
theorem FixedUpperTriangularMatrix.ofData_get (n : Nat) (full₀ result₀ data : Nat → α)
    (row column : Nat) (hrow : row ≤ column) (hcolumn : column < n) :
    (FixedUpperTriangularMatrix.ofData n full₀ result₀ data).get row column =
      data (row * n - row * (row - 1) / 2 + (column - row)) := by
  rw [FixedUpperTriangularMatrix.ofData_get_rowOffset n full₀ result₀ data row column hrow
    hcolumn, rowOffset_eq n row (by omega)]

end UpperTriangularStorage

/-! ## Theorems: triangular systems -/

section Substitution

variable {n : Nat}

theorem foldl_sub_range' (f : Nat → K) : ∀ (k a : Nat) (s : K),
    (List.range' a k).foldl (fun s j => s - f j) s = s - ∑ j in Finset.Ico a (a + k), f j := by
  intro k
  induction k with
  | zero => intro a s; simp
  | succ k ih =>
    intro a s
    simp only [List.range'_succ, List.foldl_cons]
    rw [ih (a + 1) (s - f a)]
    have e : a + 1 + k = a + (k + 1) := by omega
    rw [e, Finset.sum_eq_sum_Ico_succ_bot (by omega : a < a + (k + 1))]
    ring

theorem FixedUpperTriangularMatrix.sum_entry_upper (U : FixedUpperTriangularMatrix K n)
    (x : Nat → K) {i : Nat} (hi : i ≤ n) :
    ∑ j in Finset.range n, U.entry i j * x j = ∑ j in Finset.Ico i n, U.get i j * x j := by
  rw [Finset.range_eq_Ico, ← Finset.sum_Ico_consecutive _ (Nat.zero_le i) hi]
  have h₁ : ∑ j in Finset.Ico 0 i, U.entry i j * x j = 0 := by
    apply Finset.sum_eq_zero
    intro j hj
    have : ¬ i ≤ j := by
      have := (Finset.mem_Ico.mp hj).2
      omega
    simp [FixedUpperTriangularMatrix.entry, this]
  have h₂ : ∑ j in Finset.Ico i n, U.entry i j * x j =
      ∑ j in Finset.Ico i n, U.get i j * x j := by
    apply Finset.sum_congr rfl
    intro j hj
    simp [FixedUpperTriangularMatrix.entry, (Finset.mem_Ico.mp hj).1]
  rw [h₁, h₂, zero_add]

theorem BackSubstitution.loop_of_le (U : FixedUpperTriangularMatrix K n) (b : FixedVector K n) :
    ∀ (i : Nat) (x : Nat → K) (j : Nat), i ≤ j → BackSubstitution.loop U b i x j = x j := by
  intro i
  induction i with
  | zero => intro x j _; rfl
  | succ i ih =>
    intro x j hj
    rw [BackSubstitution.loop, ih _ j (by omega), BackSubstitution.row,
      Function.update_noteq (by omega)]

theorem BackSubstitution.back_row_solves (U : FixedUpperTriangularMatrix K n) (b : FixedVector K n)
    (x : Nat → K) {i : Nat} (hi : i < n) (hU : U.get i i ≠ 0) :
    ∑ j in Finset.Ico i n, U.get i j * BackSubstitution.row U b i x j = b.get i := by
  have hrest : ∑ j in Finset.Ico (i + 1) n, U.get i j * BackSubstitution.row U b i x j =
      ∑ j in Finset.Ico (i + 1) n, U.get i j * x j := by
    apply Finset.sum_congr rfl
    intro j hj
    have : j ≠ i := by
      have := (Finset.mem_Ico.mp hj).1
      omega
    rw [BackSubstitution.row, Function.update_noteq this]
  rw [Finset.sum_eq_sum_Ico_succ_bot hi, hrest]
  simp only [BackSubstitution.row, Function.update_same]
  rw [foldl_sub_range' (fun j => U.get i j * x j)]
  have e : i + 1 + (n - (i + 1)) = n := by omega
  rw [e]
  field_simp

theorem BackSubstitution.loop_solves (U : FixedUpperTriangularMatrix K n) (b : FixedVector K n)
    (hU : ∀ i < n, U.get i i ≠ 0) :
    ∀ (i : Nat) (x : Nat → K), i ≤ n →
      (∀ r, i ≤ r → r < n → ∑ j in Finset.Ico r n, U.get r j * x j = b.get r) →
      ∀ r < n,
        ∑ j in Finset.Ico r n, U.get r j * BackSubstitution.loop U b i x j = b.get r := by
  intro i
  induction i with
  | zero => intro x _ h r hr; exact h r (Nat.zero_le r) hr
  | succ i ih =>
    intro x hi h r hr
    rw [BackSubstitution.loop]
    apply ih _ (by omega) _ r hr
    intro r' hr' hr'n
    by_cases hri : r' = i
    · subst hri
      exact BackSubstitution.back_row_solves U b x hr'n (hU _ hr'n)
    · rw [← h r' (by omega) hr'n]
      apply Finset.sum_congr rfl
      intro j hj
      have : j ≠ i := by
        have := (Finset.mem_Ico.mp hj).1
        omega
      rw [BackSubstitution.row, Function.update_noteq this]

/-- C18: for an upper triangular matrix `U` with nonzero diagonal entries and a
vector `b`, `x = BackSubstitution(U, b)` satisfies `U x = b`: for every row
`i < n`, `Σ_{j < n} U(i, j) x[j] = b[i]`. -/
theorem BackSubstitution_solves (U : FixedUpperTriangularMatrix K n) (b : FixedVector K n)
    (x₀ : Nat → K) (hU : ∀ i < n, U.get i i ≠ 0) :
    ∀ i < n,
      ∑ j in Finset.range n, U.entry i j * (BackSubstitution U b x₀).get j = b.get i := by
  intro i hi
  rw [FixedUpperTriangularMatrix.sum_entry_upper U _ (by omega)]
  exact BackSubstitution.loop_solves U b hU n x₀ (le_refl n) (fun r h₁ h₂ => by omega) i hi

theorem FixedLowerTriangularMatrix.sum_entry_lower (L : FixedLowerTriangularMatrix K n)
    (x : Nat → K) {i : Nat} (hi : i < n) :
    ∑ j in Finset.range n, L.entry i j * x j =
      ∑ j in Finset.range (i + 1), L.get i j * x j := by
  rw [Finset.range_eq_Ico, ← Finset.sum_Ico_consecutive _ (Nat.zero_le (i + 1)) hi]
  have h₁ : ∑ j in Finset.Ico (i + 1) n, L.entry i j * x j = 0 := by
    apply Finset.sum_eq_zero
    intro j hj
    have : ¬ j ≤ i := by
      have := (Finset.mem_Ico.mp hj).1
      omega
    simp [FixedLowerTriangularMatrix.entry, this]
  have h₂ : ∑ j in Finset.Ico 0 (i + 1), L.entry i j * x j =
      ∑ j in Finset.Ico 0 (i + 1), L.get i j * x j := by
    apply Finset.sum_congr rfl
    intro j hj
    have : j ≤ i := by
      have := (Finset.mem_Ico.mp hj).2
      omega
    simp [FixedLowerTriangularMatrix.entry, this]
  rw [h₁, h₂, add_zero]

theorem ForwardSubstitution.forward_row_solves (L : FixedLowerTriangularMatrix K n)
    (b : FixedVector K n) (x : Nat → K) (i : Nat) (hL : L.get i i ≠ 0) :
    ∑ j in Finset.range (i + 1), L.get i j * ForwardSubstitution.row L b x i j = b.get i := by
  have hrest : ∑ j in Finset.range i, L.get i j * ForwardSubstitution.row L b x i j =
      ∑ j in Finset.range i, L.get i j * x j := by
    apply Finset.sum_congr rfl
    intro j hj
    have : j ≠ i := by
      have := Finset.mem_range.mp hj
      omega
    rw [ForwardSubstitution.row, Function.update_noteq this]
  rw [Finset.sum_range_succ, hrest]
  simp only [ForwardSubstitution.row, Function.update_same]
  rw [List.range_eq_range', foldl_sub_range' (fun j => L.get i j * x j)]
  simp only [Nat.zero_add, ← Finset.range_eq_Ico]
  field_simp

theorem ForwardSubstitution.foldl_solves (L : FixedLowerTriangularMatrix K n)
    (b : FixedVector K n) (x₀ : Nat → K) (hL : ∀ i < n, L.get i i ≠ 0) :
    ∀ m, m ≤ n → ∀ r < m,
      ∑ j in Finset.range (r + 1),
        L.get r j * (List.range m).foldl (ForwardSubstitution.row L b) x₀ j = b.get r := by
  intro m
  induction m with
  | zero => intro _ r hr; omega
  | succ m ih =>
    intro hm r hr
    rw [List.range_succ, List.foldl_append]
    simp only [List.foldl_cons, List.foldl_nil]
    by_cases hrm : r = m
    · subst hrm
      exact ForwardSubstitution.forward_row_solves L b _ r (hL r (by omega))
    · rw [← ih (by omega) r (by omega)]
      apply Finset.sum_congr rfl
      intro j hj
      have : j ≠ m := by
        have := Finset.mem_range.mp hj
        omega
      rw [ForwardSubstitution.row, Function.update_noteq this]

/-- C19: for a lower triangular matrix `L` with nonzero diagonal entries and a
vector `b`, `x = ForwardSubstitution(L, b)` satisfies `L x = b`: for every row
`i < n`, `Σ_{j < n} L(i, j) x[j] = b[i]`. -/
theorem ForwardSubstitution_solves (L : FixedLowerTriangularMatrix K n) (b : FixedVector K n)
    (x₀ : Nat → K) (hL : ∀ i < n, L.get i i ≠ 0) :
    ∀ i < n,
      ∑ j in Finset.range n, L.entry i j * (ForwardSubstitution L b x₀).get j = b.get i := by
  intro i hi
  rw [FixedLowerTriangularMatrix.sum_entry_lower L _ hi]
  exact ForwardSubstitution.foldl_solves L b x₀ hL n (le_refl n) i hi

end Substitution

/-! ## The tests of `matrix_computations_test.cpp` -/

/-- The entries of the matrix `m4` of the test `BackSubstitution`. -/
theorem MatrixComputationsTest.BackSubstitution.upper_m4_get :
    (MatrixComputationsTest.BackSubstitution.m4 : FixedUpperTriangularMatrix ℚ 4).get 0 0 =
      1 ∧
    (MatrixComputationsTest.BackSubstitution.m4 : FixedUpperTriangularMatrix ℚ 4).get 0 1 =
      3 ∧
    (MatrixComputationsTest.BackSubstitution.m4 : FixedUpperTriangularMatrix ℚ 4).get 0 2 =
      -2 ∧
    (MatrixComputationsTest.BackSubstitution.m4 : FixedUpperTriangularMatrix ℚ 4).get 0 3 =
      6 ∧
    (MatrixComputationsTest.BackSubstitution.m4 : FixedUpperTriangularMatrix ℚ 4).get 1 1 =
      4 ∧
    (MatrixComputationsTest.BackSubstitution.m4 : FixedUpperTriangularMatrix ℚ 4).get 1 2 =
      7 ∧
    (MatrixComputationsTest.BackSubstitution.m4 : FixedUpperTriangularMatrix ℚ 4).get 1 3 =
      -1 ∧
    (MatrixComputationsTest.BackSubstitution.m4 : FixedUpperTriangularMatrix ℚ 4).get 2 2 =
      5 ∧
    (MatrixComputationsTest.BackSubstitution.m4 : FixedUpperTriangularMatrix ℚ 4).get 2 3 =
      3 ∧
    (MatrixComputationsTest.BackSubstitution.m4 : FixedUpperTriangularMatrix ℚ 4).get 3 3 =
      2 := by
  decide

/-- The test `BackSubstitution` (matrix_computations_test.cpp, lines 72-85):
`BackSubstitution(m4, b4)` is `x4_expected = (-111/4, 17/4, -2, 2)`. -/
theorem MatrixComputationsTest.BackSubstitution.back_x4_actual (x₀ : Nat → ℚ) :
    (List.range 4).map
        (BackSubstitution MatrixComputationsTest.BackSubstitution.m4
          MatrixComputationsTest.b4 x₀).get =
      [-111 / 4, 17 / 4, -2, 2] := by
  obtain ⟨h00, h01, h02, h03, h11, h12, h13, h22, h23, h33⟩ :=
    MatrixComputationsTest.BackSubstitution.upper_m4_get
  have hb : (MatrixComputationsTest.b4 : FixedVector ℚ 4).get 0 = 1 ∧
      (MatrixComputationsTest.b4 : FixedVector ℚ 4).get 1 = 1 ∧
      (MatrixComputationsTest.b4 : FixedVector ℚ 4).get 2 = -4 ∧
      (MatrixComputationsTest.b4 : FixedVector ℚ 4).get 3 = 4 := by decide
  obtain ⟨b0, b1, b2, b3⟩ := hb
  have hrange : List.range 4 = [0, 1, 2, 3] := by decide
  simp only [hrange, List.map, FixedVector.get, BackSubstitution, BackSubstitution.loop,
    BackSubstitution.row, List.range', List.foldl, Function.update, h00, h01, h02, h03, h11,
    h12, h13, h22, h23, h33]
  simp only [FixedVector.get] at b0 b1 b2 b3
  norm_num [b0, b1, b2, b3]

theorem MatrixComputationsTest.BackSubstitution.upper_m4_diagonal :
    ∀ i < 4,
      (MatrixComputationsTest.BackSubstitution.m4 : FixedUpperTriangularMatrix ℚ 4).get i i ≠
        0 := by
  decide

/-- Witness for C18: the matrix `m4` and the vector `b4` of the test
`BackSubstitution`. -/
theorem BackSubstitution_solves_witness :
    (∀ i < 4,
      (MatrixComputationsTest.BackSubstitution.m4 : FixedUpperTriangularMatrix ℚ 4).get i i ≠
        0) ∧
    ∀ i < 4,
      ∑ j in Finset.range 4,
        (MatrixComputationsTest.BackSubstitution.m4 : FixedUpperTriangularMatrix ℚ 4).entry i j *
          (BackSubstitution MatrixComputationsTest.BackSubstitution.m4
            MatrixComputationsTest.b4 fun _ => 0).get j =
        (MatrixComputationsTest.b4 : FixedVector ℚ 4).get i :=
  ⟨MatrixComputationsTest.BackSubstitution.upper_m4_diagonal,
   BackSubstitution_solves MatrixComputationsTest.BackSubstitution.m4
     MatrixComputationsTest.b4 (fun _ => 0)
     MatrixComputationsTest.BackSubstitution.upper_m4_diagonal⟩

/-- The entries of the matrix `m4` of the test `ForwardSubstitution`. -/
theorem MatrixComputationsTest.ForwardSubstitution.lower_m4_get :
    (MatrixComputationsTest.ForwardSubstitution.m4 : FixedLowerTriangularMatrix ℚ 4).get 0 0 =
      1 ∧
    (MatrixComputationsTest.ForwardSubstitution.m4 : FixedLowerTriangularMatrix ℚ 4).get 1 0 =
      3 ∧
    (MatrixComputationsTest.ForwardSubstitution.m4 : FixedLowerTriangularMatrix ℚ 4).get 1 1 =
      -2 ∧
    (MatrixComputationsTest.ForwardSubstitution.m4 : FixedLowerTriangularMatrix ℚ 4).get 2 0 =
      4 ∧
    (MatrixComputationsTest.ForwardSubstitution.m4 : FixedLowerTriangularMatrix ℚ 4).get 2 1 =
      7 ∧
    (MatrixComputationsTest.ForwardSubstitution.m4 : FixedLowerTriangularMatrix ℚ 4).get 2 2 =
      5 ∧
    (MatrixComputationsTest.ForwardSubstitution.m4 : FixedLowerTriangularMatrix ℚ 4).get 3 0 =
      -6 ∧
    (MatrixComputationsTest.ForwardSubstitution.m4 : FixedLowerTriangularMatrix ℚ 4).get 3 1 =
      9 ∧
    (MatrixComputationsTest.ForwardSubstitution.m4 : FixedLowerTriangularMatrix ℚ 4).get 3 2 =
      1 ∧
    (MatrixComputationsTest.ForwardSubstitution.m4 : FixedLowerTriangularMatrix ℚ 4).get 3 3 =
      2 := by
  decide

/-- The test `ForwardSubstitution` (matrix_computations_test.cpp, lines 87-100):
`ForwardSubstitution(m4, b4)` is `x4_expected = (1, 1, -3, 2)`. -/
theorem MatrixComputationsTest.ForwardSubstitution.forward_x4_actual (x₀ : Nat → ℚ) :
    (List.range 4).map
        (ForwardSubstitution MatrixComputationsTest.ForwardSubstitution.m4
          MatrixComputationsTest.b4 x₀).get =
      [1, 1, -3, 2] := by
  obtain ⟨h00, h10, h11, h20, h21, h22, h30, h31, h32, h33⟩ :=
    MatrixComputationsTest.ForwardSubstitution.lower_m4_get
  have hb : (MatrixComputationsTest.b4 : FixedVector ℚ 4).get 0 = 1 ∧
      (MatrixComputationsTest.b4 : FixedVector ℚ 4).get 1 = 1 ∧
      (MatrixComputationsTest.b4 : FixedVector ℚ 4).get 2 = -4 ∧
      (MatrixComputationsTest.b4 : FixedVector ℚ 4).get 3 = 4 := by decide
  obtain ⟨b0, b1, b2, b3⟩ := hb
  have hrange : List.range 4 = [0, 1, 2, 3] := by decide
  have hrange3 : List.range 3 = [0, 1, 2] := by decide
  have hrange2 : List.range 2 = [0, 1] := by decide
  have hrange1 : List.range 1 = [0] := by decide
  simp only [hrange, hrange3, hrange2, hrange1, List.range_zero, List.map, FixedVector.get,
    ForwardSubstitution, ForwardSubstitution.row, List.foldl, Function.update, h00, h10, h11,
    h20, h21, h22, h30, h31, h32, h33]
  simp only [FixedVector.get] at b0 b1 b2 b3
  norm_num [b0, b1, b2, b3]

theorem MatrixComputationsTest.ForwardSubstitution.lower_m4_diagonal :
    ∀ i < 4,
      (MatrixComputationsTest.ForwardSubstitution.m4 : FixedLowerTriangularMatrix ℚ 4).get i i ≠
        0 := by
  decide

/-- Witness for C19: the matrix `m4` and the vector `b4` of the test
`ForwardSubstitution`. -/
theorem ForwardSubstitution_solves_witness :
    (∀ i < 4,
      (MatrixComputationsTest.ForwardSubstitution.m4 : FixedLowerTriangularMatrix ℚ 4).get i i ≠
        0) ∧
    ∀ i < 4,
      ∑ j in Finset.range 4,
        (MatrixComputationsTest.ForwardSubstitution.m4 :
            FixedLowerTriangularMatrix ℚ 4).entry i j *
          (ForwardSubstitution MatrixComputationsTest.ForwardSubstitution.m4
            MatrixComputationsTest.b4 fun _ => 0).get j =
        (MatrixComputationsTest.b4 : FixedVector ℚ 4).get i :=
  ⟨MatrixComputationsTest.ForwardSubstitution.lower_m4_diagonal,
   ForwardSubstitution_solves MatrixComputationsTest.ForwardSubstitution.m4
     MatrixComputationsTest.b4 (fun _ => 0)
     MatrixComputationsTest.ForwardSubstitution.lower_m4_diagonal⟩

/-- Witness for C17: the entry `(1, 2)` of the matrix `m4` of the test
`BackSubstitution` is the element of index `5` of its initializer list. -/
theorem FixedUpperTriangularMatrix.ofData_get_witness :
    (1 ≤ 2 ∧ 2 < 4) ∧
    (FixedUpperTriangularMatrix.ofData 4 (fun _ => 0) (fun _ => 0)
        (arrayOfList [1, 3, -2, 6, 4, 7, -1, 5, 3, (2 : ℚ)])).get 1 2 =
      arrayOfList [1, 3, -2, 6, 4, 7, -1, 5, 3, (2 : ℚ)] 5 :=
  ⟨⟨by decide, by decide⟩,
   FixedUpperTriangularMatrix.ofData_get 4 (fun _ => 0) (fun _ => 0)
     (arrayOfList [1, 3, -2, 6, 4, 7, -1, 5, 3, (2 : ℚ)]) 1 2 (by decide) (by decide)⟩

/-! ## Theorems: the Cholesky decomposition -/

section CholeskyAlgebra

variable {n : Nat}

/-- The packed index of an upper triangular matrix does not alias two entries. -/
theorem FixedUpperTriangularMatrix.index_injective {i c i' c' : Nat} (hi : i ≤ c)
    (hi' : i' ≤ c') (h : c * (c + 1) / 2 + i = c' * (c' + 1) / 2 + i') : c = c' ∧ i = i' := by
  have hc : c = c' := by
    rcases Nat.lt_trichotomy c c' with hlt | heq | hgt
    · have h1 := triangle_succ c
      have h2 := triangle_mono (show c + 1 ≤ c' by omega)
      omega
    · exact heq
    · have h1 := triangle_succ c'
      have h2 := triangle_mono (show c' + 1 ≤ c by omega)
      omega
  subst hc
  exact ⟨rfl, by omega⟩

theorem FixedUpperTriangularMatrix.get_set_same {α : Type} (R : FixedUpperTriangularMatrix α n)
    (i c : Nat) (v : α) : (R.set i c v).get i c = v := by
  simp [FixedUpperTriangularMatrix.get, FixedUpperTriangularMatrix.set]

theorem FixedUpperTriangularMatrix.get_set_of_ne {α : Type}
    (R : FixedUpperTriangularMatrix α n) {i c i' c' : Nat} (v : α) (hi : i ≤ c)
    (hi' : i' ≤ c')
    (hne : ¬ (c' = c ∧ i' = i)) : (R.set i c v).get i' c' = R.get i' c' := by
  simp only [FixedUpperTriangularMatrix.get, FixedUpperTriangularMatrix.set]
  apply Function.update_noteq
  intro h
  exact hne (FixedUpperTriangularMatrix.index_injective hi' hi h)

theorem foldl_add_range (f : Nat → K) (m : Nat) :
    (List.range m).foldl (fun s k => s + f k) 0 = ∑ k in Finset.range m, f k := by
  induction m with
  | zero => simp
  | succ m ih =>
    rw [List.range_succ, List.foldl_append, ih, Finset.sum_range_succ]
    rfl

/-- The quadratic form of a Gram matrix is a sum of squares. -/
theorem sum_gram (s t : Finset Nat) (M : Nat → Nat → K) (x : Nat → K) :
    ∑ i in s, ∑ c in s, x i * (∑ k in t, M k i * M k c) * x c =
      ∑ k in t, (∑ i in s, M k i * x i) * (∑ c in s, M k c * x c) := by
  have h₁ : ∀ k, (∑ i in s, M k i * x i) * (∑ c in s, M k c * x c) =
      ∑ i in s, ∑ c in s, (M k i * x i) * (M k c * x c) := fun k => Finset.sum_mul_sum _ _ _ _
  have h₂ : ∀ i c, x i * (∑ k in t, M k i * M k c) * x c =
      ∑ k in t, (M k i * x i) * (M k c * x c) := by
    intro i c
    rw [Finset.mul_sum, Finset.sum_mul]
    apply Finset.sum_congr rfl
    intro k _
    ring
  simp only [h₁, h₂]
  have h₃ : ∀ i, ∑ c in s, ∑ k in t, (M k i * x i) * (M k c * x c) =
      ∑ k in t, ∑ c in s, (M k i * x i) * (M k c * x c) := fun i => Finset.sum_comm
  simp only [h₃]
  exact Finset.sum_comm

end CholeskyAlgebra

section CholeskyPivot

variable {F : Type} [LinearOrderedField F] {n : Nat}

/-- The product of two columns of an upper triangular matrix: the rows below the
diagonal entry of the first column do not contribute. -/
theorem FixedUpperTriangularMatrix.sum_entry_mul_entry (R : FixedUpperTriangularMatrix F n)
    {i c j : Nat} (hij : i < j) (hic : i ≤ c) :
    ∑ k in Finset.range j, R.entry k i * R.entry k c =
      ∑ k in Finset.range (i + 1), R.get k i * R.get k c := by
  rw [Finset.range_eq_Ico, ← Finset.sum_Ico_consecutive _ (Nat.zero_le (i + 1)) hij]
  have h₁ : ∑ k in Finset.Ico (i + 1) j, R.entry k i * R.entry k c = 0 := by
    apply Finset.sum_eq_zero
    intro k hk
    have : ¬ k ≤ i := by
      have := (Finset.mem_Ico.mp hk).1
      omega
    simp [FixedUpperTriangularMatrix.entry, this]
  rw [h₁, add_zero]
  apply Finset.sum_congr rfl
  intro k hk
  have hki : k ≤ i := by
    have := (Finset.mem_Ico.mp hk).2
    omega
  have hkc : k ≤ c := by omega
  simp [FixedUpperTriangularMatrix.entry, hki, hkc]

/-- The pivot of the column `j` of the Cholesky decomposition of a positive
definite matrix is positive: it is the value of the quadratic form at the
vector `(-y, 1, 0, ..., 0)`, where `y` solves `R y = r` for the part `r` of the
column `j` above the diagonal and the factor `R` of the leading block. -/
theorem CholeskyDecomposition.pivot_pos (A R : FixedUpperTriangularMatrix F n)
    (hA : A.PositiveDefinite) {j : Nat} (hj : j < n)
    (hdiag : ∀ c < j, R.get c c ≠ 0)
    (hcols : ∀ c < j, ∀ i ≤ c,
      ∑ k in Finset.range (i + 1), R.get k i * R.get k c = A.get i c)
    (hcolj : ∀ i < j, ∑ k in Finset.range (i + 1), R.get k i * R.get k j = A.get i j) :
    0 < A.get j j - ∑ k in Finset.range j, R.get k j * R.get k j := by
  -- the solution `y` of the triangular system
  have hy := BackSubstitution.loop_solves (⟨R.data_⟩ : FixedUpperTriangularMatrix F j)
    (⟨fun i => R.get i j⟩ : FixedVector F j) hdiag j (fun _ => 0) (le_refl j)
    (fun r h₁ h₂ => by omega)
  generalize BackSubstitution.loop (⟨R.data_⟩ : FixedUpperTriangularMatrix F j)
    (⟨fun i => R.get i j⟩ : FixedVector F j) j (fun _ => 0) = y at hy
  have hy' : ∀ r < j, ∑ c in Finset.Ico r j, R.get r c * y c = R.get r j := hy
  -- the vector at which the quadratic form is evaluated
  obtain ⟨x, hx⟩ :
      ∃ x : Nat → F, x = fun c => if c < j then -y c else if c = j then 1 else 0 :=
    ⟨_, rfl⟩
  have hxlt : ∀ c, c < j → x c = -y c := by
    intro c hc
    simp [hx, hc]
  have hxj : x j = 1 := by simp [hx]
  have hxgt : ∀ c, j < c → x c = 0 := by
    intro c hc
    have h₁ : ¬ c < j := by omega
    have h₂ : ¬ c = j := by omega
    simp [hx, h₁, h₂]
  -- every row of the factor annihilates `x`
  have hrow : ∀ k < j, ∑ c in Finset.range n, R.entry k c * x c = 0 := by
    intro k hk
    rw [Finset.range_eq_Ico, ← Finset.sum_Ico_consecutive _ (Nat.zero_le (j + 1)) hj,
      ← Finset.range_eq_Ico, Finset.sum_range_succ]
    have h₁ : ∑ c in Finset.Ico (j + 1) n, R.entry k c * x c = 0 := by
      apply Finset.sum_eq_zero
      intro c hc
      rw [hxgt c (by have := (Finset.mem_Ico.mp hc).1; omega), mul_zero]
    have h₂ : ∑ c in Finset.range j, R.entry k c * x c =
        -∑ c in Finset.range j, R.entry k c * y c := by
      rw [← Finset.sum_neg_distrib]
      apply Finset.sum_congr rfl
      intro c hc
      rw [hxlt c (Finset.mem_range.mp hc)]
      ring
    have h₃ : ∑ c in Finset.range j, R.entry k c * y c = R.get k j := by
      rw [← hy' k hk]
      exact FixedUpperTriangularMatrix.sum_entry_upper
        (⟨R.data_⟩ : FixedUpperTriangularMatrix F j) y
        (le_of_lt hk)
    have h₄ : R.entry k j = R.get k j := by
      simp [FixedUpperTriangularMatrix.entry, le_of_lt hk]
    rw [h₁, h₂, h₃, h₄, hxj]
    ring
  -- the matrix is the Gram matrix of the factor, up to the pivot
  have hgram : ∀ i c, i ≤ c → c ≤ j →
      A.get i c = ∑ k in Finset.range j, R.entry k i * R.entry k c +
        (if i = j ∧ c = j then A.get j j - ∑ k in Finset.range j, R.get k j * R.get k j
          else 0) := by
    intro i c hic hcj
    by_cases hc : c = j
    · subst hc
      by_cases hi : i = c
      · subst hi
        have : ∑ k in Finset.range i, R.entry k i * R.entry k i =
            ∑ k in Finset.range i, R.get k i * R.get k i := by
          apply Finset.sum_congr rfl
          intro k hk
          simp [FixedUpperTriangularMatrix.entry, le_of_lt (Finset.mem_range.mp hk)]
        simp only [and_self, if_true, this]
        ring
      · have hlt : i < c := by omega
        rw [FixedUpperTriangularMatrix.sum_entry_mul_entry R hlt hic, hcolj i hlt]
        simp [hi]
    · have hlt : c < j := by omega
      rw [FixedUpperTriangularMatrix.sum_entry_mul_entry R (by omega : i < j) hic,
        hcols c hlt i hic]
      simp [hc]
  have hterm : ∀ i c, x i * A.symmetric_entry i c * x c =
      x i * (∑ k in Finset.range j, R.entry k i * R.entry k c) * x c +
        x i * (if i = j ∧ c = j then A.get j j - ∑ k in Finset.range j, R.get k j * R.get k j
          else 0) * x c := by
    intro i c
    by_cases hij : j < i
    · rw [hxgt i hij]
      ring
    by_cases hcj : j < c
    · rw [hxgt c hcj]
      ring
    rw [← add_mul, ← mul_add]
    congr 2
    by_cases hic : i ≤ c
    · simp only [FixedUpperTriangularMatrix.symmetric_entry, hic, if_true]
      exact hgram i c hic (by omega)
    · simp only [FixedUpperTriangularMatrix.symmetric_entry, hic, if_false]
      rw [hgram c i (by omega) (by omega)]
      congr 1
      · apply Finset.sum_congr rfl
        intro k _
        ring
      · simp only [and_comm]
  -- the quadratic form at `x` is the pivot
  have hquad : ∑ i in Finset.range n, ∑ c in Finset.range n,
      x i * A.symmetric_entry i c * x c =
      A.get j j - ∑ k in Finset.range j, R.get k j * R.get k j := by
    simp only [hterm, Finset.sum_add_distrib]
    rw [sum_gram]
    have h₁ : ∑ k in Finset.range j,
        (∑ i in Finset.range n, R.entry k i * x i) *
          (∑ c in Finset.range n, R.entry k c * x c) = 0 := by
      apply Finset.sum_eq_zero
      intro k hk
      rw [hrow k (Finset.mem_range.mp hk), zero_mul]
    have h₂ : ∑ i in Finset.range n, ∑ c in Finset.range n,
        x i * (if i = j ∧ c = j then A.get j j - ∑ k in Finset.range j, R.get k j * R.get k j
          else 0) * x c =
        A.get j j - ∑ k in Finset.range j, R.get k j * R.get k j := by
      rw [Finset.sum_eq_single j]
      · rw [Finset.sum_eq_single j]
        · simp [hxj]
        · intro c _ hc
          simp [hc]
        · intro h
          exact absurd (Finset.mem_range.mpr hj) h
      · intro i _ hi
        apply Finset.sum_eq_zero
        intro c _
        simp [hi]
      · intro h
        exact absurd (Finset.mem_range.mpr hj) h
    rw [h₁, h₂, zero_add]
  rw [← hquad]
  exact hA x ⟨j, hj, by rw [hxj]; exact one_ne_zero⟩

end CholeskyPivot

section CholeskyLoops

variable {F : Type} [LinearOrderedField F] {n : Nat}

theorem CholeskyDecomposition.off_diagonal_get_of_ne (A R : FixedUpperTriangularMatrix F n)
    {i j i' c' : Nat} (hij : i ≤ j) (hi' : i' ≤ c') (hne : ¬ (c' = j ∧ i' = i)) :
    (CholeskyDecomposition.off_diagonal A j R i).get i' c' = R.get i' c' :=
  FixedUpperTriangularMatrix.get_set_of_ne R _ hij hi' hne

theorem CholeskyDecomposition.off_diagonal_get (A R : FixedUpperTriangularMatrix F n)
    (i j : Nat) :
    (CholeskyDecomposition.off_diagonal A j R i).get i j =
      (A.get i j - ∑ k in Finset.range i, R.get k i * R.get k j) / R.get i i := by
  rw [CholeskyDecomposition.off_diagonal, FixedUpperTriangularMatrix.get_set_same,
    foldl_add_range (fun k => R.get k i * R.get k j)]

/-- The loop over the rows of the column `j`: the other columns are unchanged and
the rows done satisfy their equation. -/
theorem CholeskyDecomposition.rows_spec (A R : FixedUpperTriangularMatrix F n) (j : Nat)
    (hdone : ∀ c < j, CholeskyDecomposition.ColumnDone A R c) :
    ∀ m, m ≤ j →
      (∀ i' c', i' ≤ c' → c' ≠ j →
        ((List.range m).foldl (CholeskyDecomposition.off_diagonal A j) R).get i' c' =
          R.get i' c') ∧
      (∀ i < m, ∑ k in Finset.range (i + 1),
        ((List.range m).foldl (CholeskyDecomposition.off_diagonal A j) R).get k i *
          ((List.range m).foldl (CholeskyDecomposition.off_diagonal A j) R).get k j =
        A.get i j) := by
  intro m
  induction m with
  | zero =>
    intro _
    exact ⟨fun _ _ _ _ => rfl, fun i hi => absurd hi (Nat.not_lt_zero i)⟩
  | succ m ih =>
    intro hm
    obtain ⟨ih₁, ih₂⟩ := ih (by omega)
    rw [List.range_succ, List.foldl_append]
    simp only [List.foldl_cons, List.foldl_nil]
    generalize (List.range m).foldl (CholeskyDecomposition.off_diagonal A j) R = Rm at ih₁ ih₂
    have hother : ∀ i' c', i' ≤ c' → c' ≠ j →
        (CholeskyDecomposition.off_diagonal A j Rm m).get i' c' = R.get i' c' := by
      intro i' c' hi' hc'
      rw [CholeskyDecomposition.off_diagonal_get_of_ne A Rm (by omega) hi' (fun h => hc' h.1)]
      exact ih₁ i' c' hi' hc'
    have hcolj : ∀ k, k < m →
        (CholeskyDecomposition.off_diagonal A j Rm m).get k j = Rm.get k j := by
      intro k hk
      exact CholeskyDecomposition.off_diagonal_get_of_ne A Rm (by omega) (by omega)
        (fun h => by omega)
    refine ⟨hother, ?_⟩
    intro i hi
    by_cases him : i = m
    · subst him
      rw [Finset.sum_range_succ, CholeskyDecomposition.off_diagonal_get]
      have hsum : ∑ k in Finset.range i,
          (CholeskyDecomposition.off_diagonal A j Rm i).get k i *
            (CholeskyDecomposition.off_diagonal A j Rm i).get k j =
          ∑ k in Finset.range i, Rm.get k i * Rm.get k j := by
        apply Finset.sum_congr rfl
        intro k hk
        have hk' := Finset.mem_range.mp hk
        rw [hcolj k hk', hother k i (by omega) (by omega), ih₁ k i (by omega) (by omega)]
      have hd : Rm.get i i ≠ 0 := by
        rw [ih₁ i i (le_refl i) (by omega)]
        exact ne_of_gt (hdone i (by omega)).1
      rw [hsum, hother i i (le_refl i) (by omega), ← ih₁ i i (le_refl i) (by omega)]
      field_simp
    · have hlt : i < m := by omega
      rw [← ih₂ i hlt]
      apply Finset.sum_congr rfl
      intro k hk
      have hk' := Finset.mem_range.mp hk
      rw [hcolj k (by omega), hother k i (by omega) (by omega), ih₁ k i (by omega) (by omega)]

/-- One column of the decomposition: if the columns before `j` are done, so are
the columns up to `j` after the column `j` is computed. -/
theorem CholeskyDecomposition.column_spec {Sqrt : F → F} (hSqrt : ExactSqrt Sqrt)
    (A R : FixedUpperTriangularMatrix F n) (hA : A.PositiveDefinite) {j : Nat} (hj : j < n)
    (hdone : ∀ c < j, CholeskyDecomposition.ColumnDone A R c) :
    ∀ c < j + 1,
      CholeskyDecomposition.ColumnDone A (CholeskyDecomposition.column Sqrt A R j) c := by
  obtain ⟨h₁, h₂⟩ := CholeskyDecomposition.rows_spec A R j hdone j (le_refl j)
  simp only [CholeskyDecomposition.column]
  rw [foldl_add_range
    (fun k => Pow2 (((List.range j).foldl (CholeskyDecomposition.off_diagonal A j) R).get k j))]
  generalize (List.range j).foldl (CholeskyDecomposition.off_diagonal A j) R = R₁ at h₁ h₂
  simp only [Pow2]
  have hpos : 0 < A.get j j - ∑ k in Finset.range j, R₁.get k j * R₁.get k j := by
    apply CholeskyDecomposition.pivot_pos A R₁ hA hj
    · intro c hc
      rw [h₁ c c (le_refl c) (by omega)]
      exact ne_of_gt (hdone c hc).1
    · intro c hc i hi
      rw [← (hdone c hc).2 i hi]
      apply Finset.sum_congr rfl
      intro k hk
      have hk' := Finset.mem_range.mp hk
      rw [h₁ k i (by omega) (by omega), h₁ k c (by omega) (by omega)]
    · exact h₂
  generalize hd : A.get j j - ∑ k in Finset.range j, R₁.get k j * R₁.get k j = d at hpos
  obtain ⟨hs₁, hs₂⟩ := hSqrt d (le_of_lt hpos)
  have hspos : 0 < Sqrt d := by
    rcases eq_or_lt_of_le hs₁ with h | h
    · rw [← h, mul_zero] at hs₂
      exact absurd hs₂ (ne_of_lt hpos)
    · exact h
  have hget : ∀ i' c', i' ≤ c' → ¬ (c' = j ∧ i' = j) →
      (R₁.set j j (Sqrt d)).get i' c' = R₁.get i' c' := fun i' c' hi' hne =>
    FixedUpperTriangularMatrix.get_set_of_ne R₁ _ (le_refl j) hi' hne
  intro c hc
  by_cases hcj : c = j
  · subst hcj
    refine ⟨by rw [FixedUpperTriangularMatrix.get_set_same]; exact hspos, ?_⟩
    intro i hi
    by_cases hic : i = c
    · subst hic
      rw [Finset.sum_range_succ, FixedUpperTriangularMatrix.get_set_same, hs₂]
      have hsum : ∑ k in Finset.range i,
          (R₁.set i i (Sqrt d)).get k i * (R₁.set i i (Sqrt d)).get k i =
          ∑ k in Finset.range i, R₁.get k i * R₁.get k i := by
        apply Finset.sum_congr rfl
        intro k hk
        have hk' := Finset.mem_range.mp hk
        rw [hget k i (by omega) (fun h => by omega)]
      rw [hsum, ← hd]
      ring
    · rw [← h₂ i (by omega)]
      apply Finset.sum_congr rfl
      intro k hk
      have hk' := Finset.mem_range.mp hk
      rw [hget k i (by omega) (fun h => by omega), hget k c (by omega) (fun h => by omega)]
  · have hlt : c < j := by omega
    refine ⟨?_, ?_⟩
    · rw [hget c c (le_refl c) (fun h => hcj h.1), h₁ c c (le_refl c) hcj]
      exact (hdone c hlt).1
    · intro i hi
      rw [← (hdone c hlt).2 i hi]
      apply Finset.sum_congr rfl
      intro k hk
      have hk' := Finset.mem_range.mp hk
      rw [hget k i (by omega) (fun h => by omega), hget k c (by omega) (fun h => hcj h.1),
        h₁ k i (by omega) (by omega), h₁ k c (by omega) hcj]

/-- The loop over the columns: after `m` columns, the columns before `m` are
done. -/
theorem CholeskyDecomposition.columns_spec {Sqrt : F → F} (hSqrt : ExactSqrt Sqrt)
    (A R₀ : FixedUpperTriangularMatrix F n) (hA : A.PositiveDefinite) :
    ∀ m, m ≤ n → ∀ c < m,
      CholeskyDecomposition.ColumnDone A
        ((List.range m).foldl (CholeskyDecomposition.column Sqrt A) R₀) c := by
  intro m
  induction m with
  | zero => intro _ c hc; omega
  | succ m ih =>
    intro hm
    rw [List.range_succ, List.foldl_append]
    simp only [List.foldl_cons, List.foldl_nil]
    exact CholeskyDecomposition.column_spec hSqrt A _ hA (by omega) (ih (by omega))

/-- C20: for a symmetric positive definite matrix `A` given by its upper
triangle, `R = CholeskyDecomposition(A)` is upper triangular, has a positive
diagonal and satisfies `ᵗR R = A`: for all `i, j < n`,
`Σ_{k < n} R(k, i) R(k, j) = A(i, j)`. -/
theorem CholeskyDecomposition_correct (Sqrt : F → F) (hSqrt : ExactSqrt Sqrt)
    (A R₀ : FixedUpperTriangularMatrix F n) (hA : A.PositiveDefinite) :
    (∀ i j, j < i → (CholeskyDecomposition Sqrt A R₀).entry i j = 0) ∧
    (∀ j < n, 0 < (CholeskyDecomposition Sqrt A R₀).get j j) ∧
    ∀ i < n, ∀ j < n,
      ∑ k in Finset.range n,
        (CholeskyDecomposition Sqrt A R₀).entry k i *
          (CholeskyDecomposition Sqrt A R₀).entry k j =
        A.symmetric_entry i j := by
  have hdone := CholeskyDecomposition.columns_spec hSqrt A R₀ hA n (le_refl n)
  change ∀ c < n, CholeskyDecomposition.ColumnDone A (CholeskyDecomposition Sqrt A R₀) c
    at hdone
  generalize CholeskyDecomposition Sqrt A R₀ = R at hdone
  refine ⟨?_, fun j hj => (hdone j hj).1, ?_⟩
  · intro i j hji
    have : ¬ i ≤ j := by omega
    simp [FixedUpperTriangularMatrix.entry, this]
  · intro i hi j hj
    by_cases hij : i ≤ j
    · rw [FixedUpperTriangularMatrix.sum_entry_mul_entry R hi hij, (hdone j hj).2 i hij]
      simp [FixedUpperTriangularMatrix.symmetric_entry, hij]
    · have hji : j ≤ i := by omega
      have hcomm : ∑ k in Finset.range n, R.entry k i * R.entry k j =
          ∑ k in Finset.range n, R.entry k j * R.entry k i :=
        Finset.sum_congr rfl fun k _ => mul_comm _ _
      rw [hcomm, FixedUpperTriangularMatrix.sum_entry_mul_entry R hj hji, (hdone i hi).2 j hji]
      simp [FixedUpperTriangularMatrix.symmetric_entry, hij]

/-- The Cholesky factor is unique: two upper triangular matrices with a positive
diagonal whose columns are all done for `A` have the same entries. -/
theorem CholeskyDecomposition.unique (A R R' : FixedUpperTriangularMatrix F n)
    (h : ∀ c < n, CholeskyDecomposition.ColumnDone A R c)
    (h' : ∀ c < n, CholeskyDecomposition.ColumnDone A R' c) :
    ∀ i j, i ≤ j → j < n → R.get i j = R'.get i j := by
  intro i
  induction i using Nat.strong_induction_on with
  | _ i ih =>
    have hsum : ∀ j, i ≤ j → j < n →
        ∑ k in Finset.range i, R.get k i * R.get k j =
          ∑ k in Finset.range i, R'.get k i * R'.get k j := by
      intro j hij hj
      apply Finset.sum_congr rfl
      intro k hk
      have hk' := Finset.mem_range.mp hk
      rw [ih k hk' i (by omega) (by omega), ih k hk' j (by omega) hj]
    have hdiag : ∀ _ : i < n, R.get i i = R'.get i i := by
      intro hi
      have e := (h i hi).2 i (le_refl i)
      have e' := (h' i hi).2 i (le_refl i)
      rw [Finset.sum_range_succ, hsum i (le_refl i) hi] at e
      rw [Finset.sum_range_succ] at e'
      have hsq : R.get i i * R.get i i = R'.get i i * R'.get i i := by linarith
      rcases mul_self_eq_mul_self_iff.mp hsq with heq | hneg
      · exact heq
      · have p := (h i hi).1
        have p' := (h' i hi).1
        linarith
    intro j hij hj
    by_cases hji : j = i
    · subst hji
      exact hdiag hj
    · have e := (h j hj).2 i hij
      have e' := (h' j hj).2 i hij
      rw [Finset.sum_range_succ, hsum j hij hj, hdiag (by omega)] at e
      rw [Finset.sum_range_succ] at e'
      have hne : R'.get i i ≠ 0 := ne_of_gt (h' i (by omega)).1
      have hmul : R'.get i i * R.get i j = R'.get i i * R'.get i j := by linarith
      exact mul_left_cancel₀ hne hmul

end CholeskyLoops

/-! ## The test `CholeskyDecomposition` of `matrix_computations_test.cpp` -/

/-- The entries of the matrix `hilbert4`. -/
theorem MatrixComputationsTest.hilbert4_get :
    (MatrixComputationsTest.hilbert4 : FixedUpperTriangularMatrix ℝ 4).get 0 0 = 1 ∧
    (MatrixComputationsTest.hilbert4 : FixedUpperTriangularMatrix ℝ 4).get 0 1 = 1 / 2 ∧
    (MatrixComputationsTest.hilbert4 : FixedUpperTriangularMatrix ℝ 4).get 0 2 = 1 / 3 ∧
    (MatrixComputationsTest.hilbert4 : FixedUpperTriangularMatrix ℝ 4).get 0 3 = 1 / 4 ∧
    (MatrixComputationsTest.hilbert4 : FixedUpperTriangularMatrix ℝ 4).get 1 1 = 1 / 3 ∧
    (MatrixComputationsTest.hilbert4 : FixedUpperTriangularMatrix ℝ 4).get 1 2 = 1 / 4 ∧
    (MatrixComputationsTest.hilbert4 : FixedUpperTriangularMatrix ℝ 4).get 1 3 = 1 / 5 ∧
    (MatrixComputationsTest.hilbert4 : FixedUpperTriangularMatrix ℝ 4).get 2 2 = 1 / 5 ∧
    (MatrixComputationsTest.hilbert4 : FixedUpperTriangularMatrix ℝ 4).get 2 3 = 1 / 6 ∧
    (MatrixComputationsTest.hilbert4 : FixedUpperTriangularMatrix ℝ 4).get 3 3 = 1 / 7 := by
  simp [MatrixComputationsTest.hilbert4, FixedUpperTriangularMatrix.ofData_get_rowOffset,
    rowOffset, arrayOfList]

/-- The matrix `hilbert4` is positive definite: its quadratic form is a sum of
four squares with positive weights. -/
theorem MatrixComputationsTest.hilbert4_PositiveDefinite :
    (MatrixComputationsTest.hilbert4 : FixedUpperTriangularMatrix ℝ 4).PositiveDefinite := by
  obtain ⟨h00, h01, h02, h03, h11, h12, h13, h22, h23, h33⟩ :=
    MatrixComputationsTest.hilbert4_get
  intro x hx
  simp only [Finset.sum_range_succ, Finset.sum_range_zero, zero_add,
    FixedUpperTriangularMatrix.symmetric_entry, h00, h01, h02, h03, h11, h12, h13, h22, h23,
    h33]
  norm_num
  have key : x 0 * x 0 + x 0 * (1 / 2) * x 1 + x 0 * (1 / 3) * x 2 + x 0 * (1 / 4) * x 3 +
      (x 1 * (1 / 2) * x 0 + x 1 * (1 / 3) * x 1 + x 1 * (1 / 4) * x 2 + x 1 * (1 / 5) * x 3) +
      (x 2 * (1 / 3) * x 0 + x 2 * (1 / 4) * x 1 + x 2 * (1 / 5) * x 2 + x 2 * (1 / 6) * x 3) +
      (x 3 * (1 / 4) * x 0 + x 3 * (1 / 5) * x 1 + x 3 * (1 / 6) * x 2 + x 3 * (1 / 7) * x 3) =
      (x 0 + x 1 / 2 + x 2 / 3 + x 3 / 4) ^ 2 + (1 / 12) * (x 1 + x 2 + 9 / 10 * x 3) ^ 2 +
        (1 / 180) * (x 2 + 3 / 2 * x 3) ^ 2 + (1 / 2800) * x 3 ^ 2 := by ring
  rw [key]
  by_contra hneg
  have hle := not_lt.mp hneg
  have s₀ := sq_nonneg (x 0 + x 1 / 2 + x 2 / 3 + x 3 / 4)
  have s₁ := sq_nonneg (x 1 + x 2 + 9 / 10 * x 3)
  have s₂ := sq_nonneg (x 2 + 3 / 2 * x 3)
  have s₃ := sq_nonneg (x 3)
  have q₃ : x 3 ^ 2 = 0 := by linarith only [hle, s₀, s₁, s₂, s₃]
  have q₂ : (x 2 + 3 / 2 * x 3) ^ 2 = 0 := by linarith only [hle, s₀, s₁, s₂, s₃]
  have q₁ : (x 1 + x 2 + 9 / 10 * x 3) ^ 2 = 0 := by linarith only [hle, s₀, s₁, s₂, s₃]
  have q₀ : (x 0 + x 1 / 2 + x 2 / 3 + x 3 / 4) ^ 2 = 0 := by
    linarith only [hle, s₀, s₁, s₂, s₃]
  have e₃ : x 3 = 0 := pow_eq_zero q₃
  have e₂' : x 2 + 3 / 2 * x 3 = 0 := pow_eq_zero q₂
  have e₁' : x 1 + x 2 + 9 / 10 * x 3 = 0 := pow_eq_zero q₁
  have e₀' : x 0 + x 1 / 2 + x 2 / 3 + x 3 / 4 = 0 := pow_eq_zero q₀
  have e₂ : x 2 = 0 := by linear_combination e₂' - 3 / 2 * e₃
  have e₁ : x 1 = 0 := by linear_combination e₁' - e₂ - 9 / 10 * e₃
  have e₀ : x 0 = 0 := by linear_combination e₀' - 1 / 2 * e₁ - 1 / 3 * e₂ - 1 / 4 * e₃
  obtain ⟨i, hi, hne⟩ := hx
  interval_cases i
  · exact hne e₀
  · exact hne e₁
  · exact hne e₂
  · exact hne e₃

/-- The entries of the matrix `r4_expected`, over the real numbers with the real
square root, written without square roots in denominators. -/
theorem MatrixComputationsTest.CholeskyDecomposition.r4_expected_get :
    (MatrixComputationsTest.CholeskyDecomposition.r4_expected Real.sqrt).get 0 0 = 1 ∧
    (MatrixComputationsTest.CholeskyDecomposition.r4_expected Real.sqrt).get 0 1 = 1 / 2 ∧
    (MatrixComputationsTest.CholeskyDecomposition.r4_expected Real.sqrt).get 0 2 = 1 / 3 ∧
    (MatrixComputationsTest.CholeskyDecomposition.r4_expected Real.sqrt).get 0 3 = 1 / 4 ∧
    (MatrixComputationsTest.CholeskyDecomposition.r4_expected Real.sqrt).get 1 1 =
      Real.sqrt 12 / 12 ∧
    (MatrixComputationsTest.CholeskyDecomposition.r4_expected Real.sqrt).get 1 2 =
      Real.sqrt 12 / 12 ∧
    (MatrixComputationsTest.CholeskyDecomposition.r4_expected Real.sqrt).get 1 3 =
      3 * Real.sqrt 12 / 40 ∧
    (MatrixComputationsTest.CholeskyDecomposition.r4_expected Real.sqrt).get 2 2 =
      Real.sqrt 180 / 180 ∧
    (MatrixComputationsTest.CholeskyDecomposition.r4_expected Real.sqrt).get 2 3 =
      Real.sqrt 180 / 120 ∧
    (MatrixComputationsTest.CholeskyDecomposition.r4_expected Real.sqrt).get 3 3 =
      Real.sqrt 2800 / 2800 := by
  have h : ∀ i j, i ≤ j → j < 4 →
      (MatrixComputationsTest.CholeskyDecomposition.r4_expected Real.sqrt).get i j =
        arrayOfList [1, 1 / 2, 1 / 3, 1 / 4, 1 / Real.sqrt 12, 1 / Real.sqrt 12,
          Real.sqrt 27 / 20, 1 / Real.sqrt 180, 1 / Real.sqrt 80, 1 / Real.sqrt 2800]
          (rowOffset 4 i + (j - i)) := fun i j hij hj =>
    FixedUpperTriangularMatrix.ofData_get_rowOffset 4 _ _ _ i j hij hj
  have p12 : 0 < Real.sqrt 12 := Real.sqrt_pos.mpr (by norm_num)
  have p27 : 0 < Real.sqrt 27 := Real.sqrt_pos.mpr (by norm_num)
  have p80 : 0 < Real.sqrt 80 := Real.sqrt_pos.mpr (by norm_num)
  have p180 : 0 < Real.sqrt 180 := Real.sqrt_pos.mpr (by norm_num)
  have p2800 : 0 < Real.sqrt 2800 := Real.sqrt_pos.mpr (by norm_num)
  have m12 : Real.sqrt 12 * Real.sqrt 12 = 12 := Real.mul_self_sqrt (by norm_num)
  have m27 : Real.sqrt 27 * Real.sqrt 27 = 27 := Real.mul_self_sqrt (by norm_num)
  have m80 : Real.sqrt 80 * Real.sqrt 80 = 80 := Real.mul_self_sqrt (by norm_num)
  have m180 : Real.sqrt 180 * Real.sqrt 180 = 180 := Real.mul_self_sqrt (by norm_num)
  have m2800 : Real.sqrt 2800 * Real.sqrt 2800 = 2800 := Real.mul_self_sqrt (by norm_num)
  have r₁ : 2 * Real.sqrt 27 = 3 * Real.sqrt 12 := by
    have hz : (2 * Real.sqrt 27 - 3 * Real.sqrt 12) * (2 * Real.sqrt 27 + 3 * Real.sqrt 12) =
        0 := by linear_combination 4 * m27 - 9 * m12
    rcases mul_eq_zero.mp hz with hz | hz
    · linarith only [hz]
    · linarith only [hz, p12, p27]
  have r₂ : Real.sqrt 180 * Real.sqrt 80 = 120 := by
    have hz : (Real.sqrt 180 * Real.sqrt 80 - 120) * (Real.sqrt 180 * Real.sqrt 80 + 120) =
        0 := by linear_combination (Real.sqrt 80 * Real.sqrt 80) * m180 + 180 * m80
    rcases mul_eq_zero.mp hz with hz | hz
    · linarith only [hz]
    · have := mul_pos p180 p80
      linarith only [hz, this]
  refine ⟨h 0 0 (by decide) (by decide), h 0 1 (by decide) (by decide),
    h 0 2 (by decide) (by decide), h 0 3 (by decide) (by decide),
    (h 1 1 (by decide) (by decide)).trans ?_, (h 1 2 (by decide) (by decide)).trans ?_,
    (h 1 3 (by decide) (by decide)).trans ?_, (h 2 2 (by decide) (by decide)).trans ?_,
    (h 2 3 (by decide) (by decide)).trans ?_, (h 3 3 (by decide) (by decide)).trans ?_⟩
  · show 1 / Real.sqrt 12 = Real.sqrt 12 / 12
    field_simp
  · show 1 / Real.sqrt 12 = Real.sqrt 12 / 12
    field_simp
  · show Real.sqrt 27 / 20 = 3 * Real.sqrt 12 / 40
    linear_combination (1 / 40) * r₁
  · show 1 / Real.sqrt 180 = Real.sqrt 180 / 180
    field_simp
  · show 1 / Real.sqrt 80 = Real.sqrt 180 / 120
    field_simp
    linear_combination -r₂
  · show 1 / Real.sqrt 2800 = Real.sqrt 2800 / 2800
    field_simp

/-- The matrix `r4_expected` is a Cholesky factor of `hilbert4`: its diagonal is
positive and the products of its columns are the entries of `hilbert4`. -/
theorem MatrixComputationsTest.CholeskyDecomposition.r4_expected_ColumnDone :
    ∀ c < 4, CholeskyDecomposition.ColumnDone
      (MatrixComputationsTest.hilbert4 : FixedUpperTriangularMatrix ℝ 4)
      (MatrixComputationsTest.CholeskyDecomposition.r4_expected Real.sqrt) c := by
  obtain ⟨h00, h01, h02, h03, h11, h12, h13, h22, h23, h33⟩ :=
    MatrixComputationsTest.hilbert4_get
  obtain ⟨r00, r01, r02, r03, r11, r12, r13, r22, r23, r33⟩ :=
    MatrixComputationsTest.CholeskyDecomposition.r4_expected_get
  have p12 : 0 < Real.sqrt 12 := Real.sqrt_pos.mpr (by norm_num)
  have p180 : 0 < Real.sqrt 180 := Real.sqrt_pos.mpr (by norm_num)
  have p2800 : 0 < Real.sqrt 2800 := Real.sqrt_pos.mpr (by norm_num)
  have m12 : Real.sqrt 12 * Real.sqrt 12 = 12 := Real.mul_self_sqrt (by norm_num)
  have m180 : Real.sqrt 180 * Real.sqrt 180 = 180 := Real.mul_self_sqrt (by norm_num)
  have m2800 : Real.sqrt 2800 * Real.sqrt 2800 = 2800 := Real.mul_self_sqrt (by norm_num)
  intro c hc
  interval_cases c
  · refine ⟨by rw [r00]; exact one_pos, ?_⟩
    intro i hi
    interval_cases i
    simp only [Finset.sum_range_succ, Finset.sum_range_zero, zero_add, r00, h00]
    norm_num
  · refine ⟨by rw [r11]; exact div_pos p12 (by norm_num), ?_⟩
    intro i hi
    interval_cases i
    · simp only [Finset.sum_range_succ, Finset.sum_range_zero, zero_add, r00, r01, h01]
      norm_num
    · simp only [Finset.sum_range_succ, Finset.sum_range_zero, zero_add, r01, r11, h11]
      linear_combination (1 / 144) * m12
  · refine ⟨by rw [r22]; exact div_pos p180 (by norm_num), ?_⟩
    intro i hi
    interval_cases i
    · simp only [Finset.sum_range_succ, Finset.sum_range_zero, zero_add, r00, r02, h02]
      norm_num
    · simp only [Finset.sum_range_succ, Finset.sum_range_zero, zero_add, r01, r11, r02, r12,
        h12]
      linear_combination (1 / 144) * m12
    · simp only [Finset.sum_range_succ, Finset.sum_range_zero, zero_add, r02, r12, r22, h22]
      linear_combination (1 / 144) * m12 + (1 / 32400) * m180
  · refine ⟨by rw [r33]; exact div_pos p2800 (by norm_num), ?_⟩
    intro i hi
    interval_cases i
    · simp only [Finset.sum_range_succ, Finset.sum_range_zero, zero_add, r00, r03, h03]
      norm_num
    · simp only [Finset.sum_range_succ, Finset.sum_range_zero, zero_add, r01, r11, r03, r13,
        h13]
      linear_combination (1 / 160) * m12
    · simp only [Finset.sum_range_succ, Finset.sum_range_zero, zero_add, r02, r12, r22, r03,
        r13, r23, h23]
      linear_combination (1 / 160) * m12 + (1 / 21600) * m180
    · simp only [Finset.sum_range_succ, Finset.sum_range_zero, zero_add, r03, r13, r23, r33,
        h33]
      linear_combination (9 / 1600) * m12 + (1 / 14400) * m180 + (1 / 7840000) * m2800

/-- The test `CholeskyDecomposition` (matrix_computations_test.cpp, lines 34-50),
over the real numbers: the factor computed for `hilbert4` is `r4_expected`. -/
theorem MatrixComputationsTest.CholeskyDecomposition.r4_actual
    (R₀ : FixedUpperTriangularMatrix ℝ 4) :
    ∀ i j, i ≤ j → j < 4 →
      (CholeskyDecomposition Real.sqrt MatrixComputationsTest.hilbert4 R₀).get i j =
        (MatrixComputationsTest.CholeskyDecomposition.r4_expected Real.sqrt).get i j :=
  CholeskyDecomposition.unique MatrixComputationsTest.hilbert4 _ _
    (CholeskyDecomposition.columns_spec ExactSqrt_Real_sqrt MatrixComputationsTest.hilbert4 R₀
      MatrixComputationsTest.hilbert4_PositiveDefinite 4 (le_refl 4))
    MatrixComputationsTest.CholeskyDecomposition.r4_expected_ColumnDone

/-- Witness for C20: the matrix `hilbert4` of the test, over the real numbers
with the real square root. -/
theorem CholeskyDecomposition_correct_witness :
    (MatrixComputationsTest.hilbert4 : FixedUpperTriangularMatrix ℝ 4).PositiveDefinite ∧
    (∀ i j, j < i →
      (CholeskyDecomposition Real.sqrt MatrixComputationsTest.hilbert4 ⟨fun _ => 0⟩).entry i j =
        0) ∧
    (∀ j < 4,
      0 < (CholeskyDecomposition Real.sqrt MatrixComputationsTest.hilbert4
        ⟨fun _ => 0⟩).get j j) ∧
    ∀ i < 4, ∀ j < 4,
      ∑ k in Finset.range 4,
        (CholeskyDecomposition Real.sqrt MatrixComputationsTest.hilbert4
            ⟨fun _ => 0⟩).entry k i *
          (CholeskyDecomposition Real.sqrt MatrixComputationsTest.hilbert4
            ⟨fun _ => 0⟩).entry k j =
        (MatrixComputationsTest.hilbert4 : FixedUpperTriangularMatrix ℝ 4).symmetric_entry i j :=
  ⟨MatrixComputationsTest.hilbert4_PositiveDefinite,
   CholeskyDecomposition_correct Real.sqrt ExactSqrt_Real_sqrt MatrixComputationsTest.hilbert4
     ⟨fun _ => 0⟩ MatrixComputationsTest.hilbert4_PositiveDefinite⟩

/-! ## Theorems: the Euler term and the at-rest acceleration -/

/-- The value of `RotationFreeGeometricAccelerationAtRest`, the check of the
Coriolis term being passed. -/
theorem RotationFreeGeometricAccelerationAtRest_eq [DecidableEq K]
    (f : ReferenceFrame K) (t : Instant K) (position : Position K) :
    f.RotationFreeGeometricAccelerationAtRest t position =
      some
        ((f.ComputeGeometricAccelerations t ⟨position, unmoving⟩).gravitational_acceleration +
         ((f.ComputeGeometricAccelerations t ⟨position, unmoving⟩).linear_acceleration +
          (f.ComputeGeometricAccelerations t ⟨position, unmoving⟩).centrifugal_acceleration)) :=
    by
  simp only [ReferenceFrame.RotationFreeGeometricAccelerationAtRest,
    coriolis_acceleration_unmoving, if_true]

/-- C23: `GeometricAcceleration(t, {position, zero velocity})` minus
`RotationFreeGeometricAccelerationAtRest(t, position)` is the Euler term
`-(dΩ/dt)×r`; the two agree when the angular acceleration is zero; for the
sample frame, whose angular acceleration is not zero, they differ at the
position `(1, 0, 0)`. -/
theorem GeometricAcceleration_sub_RotationFreeGeometricAccelerationAtRest [DecidableEq K]
    (f : ReferenceFrame K) (t : Instant K) (position : Position K) :
    let motion := f.MotionOfThisFrame t
    let dΩ_over_dt := motion.rigid_motion.orthogonal_map.apply motion.angular_acceleration_of_to
    let r := position.sub Position.origin
    (∃ at_rest, f.RotationFreeGeometricAccelerationAtRest t position = some at_rest ∧
      f.GeometricAcceleration t ⟨position, unmoving⟩ - at_rest =
        (f.ComputeGeometricAccelerations t ⟨position, unmoving⟩).euler_acceleration ∧
      f.GeometricAcceleration t ⟨position, unmoving⟩ - at_rest =
        (-(Cross dΩ_over_dt r)) / (Radian : K) ∧
      (motion.angular_acceleration_of_to = 0 →
        f.GeometricAcceleration t ⟨position, unmoving⟩ = at_rest)) ∧
    ((sampleFrame.MotionOfThisFrame (0 : ℚ)).angular_acceleration_of_to ≠ 0 ∧
      some (sampleFrame.GeometricAcceleration (0 : ℚ) ⟨⟨⟨1, 0, 0⟩⟩, unmoving⟩) ≠
        sampleFrame.RotationFreeGeometricAccelerationAtRest (0 : ℚ) ⟨⟨1, 0, 0⟩⟩) := by
  have hc := coriolis_acceleration_unmoving f t position
  refine ⟨⟨_, RotationFreeGeometricAccelerationAtRest_eq f t position, ?_, ?_, ?_⟩, ?_, ?_⟩
  · simp only [ReferenceFrame.GeometricAcceleration, hc, ext_iff3, add_x, add_y, add_z,
      sub_x, sub_y, sub_z, zero_x, zero_y, zero_z]
    refine ⟨?_, ?_, ?_⟩ <;> ring
  · simp only [ReferenceFrame.GeometricAcceleration, hc, ext_iff3, add_x, add_y, add_z,
      sub_x, sub_y, sub_z, zero_x, zero_y, zero_z]
    simp only [ReferenceFrame.ComputeGeometricAccelerations, Bivector.mulVector, ext_iff3,
      div_x, div_y, div_z, neg_x, neg_y, neg_z, Cross_x, Cross_y, Cross_z]
    refine ⟨?_, ?_, ?_⟩ <;> ring
  · intro h0
    simp only [ReferenceFrame.GeometricAcceleration, hc, ext_iff3, add_x, add_y, add_z,
      zero_x, zero_y, zero_z]
    simp only [ReferenceFrame.ComputeGeometricAccelerations, h0, Bivector.mulVector,
      OrthogonalMap.apply, R3x3Matrix.mulVec, Dot, div_x, div_y, div_z, neg_x, neg_y, neg_z,
      Cross_x, Cross_y, Cross_z, zero_x, zero_y, zero_z]
    refine ⟨?_, ?_, ?_⟩ <;> ring
  · simp [sampleFrame, AcceleratedRigidMotion.angular_acceleration_of_to, ext_iff3]
  · simp only [ReferenceFrame.RotationFreeGeometricAccelerationAtRest,
      coriolis_acceleration_unmoving, if_true, ne_eq, Option.some.injEq]
    intro h
    have hy := congrArg R3Element.y h
    simp [ReferenceFrame.GeometricAcceleration, ReferenceFrame.ComputeGeometricAccelerations,
      sampleFrame, Bivector.mulVector, OrthogonalMap.apply, R3x3Matrix.mulVec, Dot, Radian,
      Pow2, unmoving, Position.sub, Position.origin, RigidMotion.orthogonal_map,
      RigidMotion.angular_velocity_of_to, AcceleratedRigidMotion.angular_acceleration_of_to,
      AcceleratedRigidMotion.acceleration_of_origin_of_to] at hy

/-- Witness for C23: over the rationals, for the sample inertial frame, whose
angular acceleration is zero, the acceleration at rest in `(1, 0, 0)` is the
at-rest acceleration without rotation. -/
theorem GeometricAcceleration_sub_RotationFreeGeometricAccelerationAtRest_witness :
    ∃ at_rest,
      (inertialFrame : ReferenceFrame ℚ).RotationFreeGeometricAccelerationAtRest 0
        ⟨⟨1, 0, 0⟩⟩ = some at_rest ∧
      (inertialFrame : ReferenceFrame ℚ).GeometricAcceleration 0 ⟨⟨⟨1, 0, 0⟩⟩, unmoving⟩ =
        at_rest := by
  obtain ⟨⟨at_rest, h₁, -, -, h₂⟩, -⟩ :=
    GeometricAcceleration_sub_RotationFreeGeometricAccelerationAtRest
      (inertialFrame : ReferenceFrame ℚ) 0 ⟨⟨1, 0, 0⟩⟩
  exact ⟨at_rest, h₁, h₂ rfl⟩

/-- C24: with `P(r) = ⟨r, A⟩ - ½‖Ω×r‖²` the linear and centrifugal potential of
`GeometricPotential` and `a(r) = -A - Ω×(Ω×r)` the linear and centrifugal
acceleration of `RotationFreeGeometricAccelerationAtRest`, for all `r` and `h`
one has `P(r + h) - P(r) = -⟨a(r), h⟩ - ½‖Ω×h‖²`. -/
theorem fictitious_acceleration_derives_from_potential [DecidableEq K]
    (f : ReferenceFrame K) (t : Instant K) (position : Position K) (h : Vector K)
    (htwo : (2 : K) ≠ 0) :
    let motion := f.MotionOfThisFrame t
    let R := motion.rigid_motion.orthogonal_map
    let Ω := R.apply motion.rigid_motion.angular_velocity_of_to
    let A := R.apply motion.acceleration_of_origin_of_to
    let P := fun q : Position K =>
      f.GeometricPotential t q -
        f.GravitationalPotential t (motion.rigid_motion.rigid_transformation.Inverse.apply q)
    let a := fun q : Position K =>
      (f.ComputeGeometricAccelerations t ⟨q, unmoving⟩).linear_acceleration +
        (f.ComputeGeometricAccelerations t ⟨q, unmoving⟩).centrifugal_acceleration
    (∀ q : Position K,
      P q = Dot (q.sub Position.origin) A - 1 / 2 * Norm2 (Cross Ω (q.sub Position.origin))) ∧
    (∀ q : Position K, a q = -A - Cross Ω (Cross Ω (q.sub Position.origin))) ∧
    (∀ q : Position K, f.RotationFreeGeometricAccelerationAtRest t q =
      some ((f.ComputeGeometricAccelerations t ⟨q, unmoving⟩).gravitational_acceleration +
        a q)) ∧
    P (Position.translate h position) - P position =
      -Dot (a position) h - 1 / 2 * Norm2 (Cross Ω h) := by
  refine ⟨?_, ?_, ?_, ?_⟩
  · intro q
    simp only [ReferenceFrame.GeometricPotential, InnerProduct, Bivector.mulVector, Radian,
      Norm2, div_x, div_y, div_z, div_one, RigidMotion.Inverse]
    ring
  · intro q
    simp only [ReferenceFrame.ComputeGeometricAccelerations, Bivector.mulVector, Pow2, Radian,
      ext_iff3, add_x, add_y, add_z, sub_x, sub_y, sub_z, div_x, div_y, div_z, neg_x, neg_y,
      neg_z, Cross_x, Cross_y, Cross_z]
    refine ⟨?_, ?_, ?_⟩ <;> ring
  · intro q
    exact RotationFreeGeometricAccelerationAtRest_eq f t q
  · simp only [ReferenceFrame.GeometricPotential, ReferenceFrame.ComputeGeometricAccelerations,
      InnerProduct, Bivector.mulVector, Radian, Pow2, Norm2, Dot, Position.translate,
      Position.sub, Position.origin, RigidMotion.Inverse, add_x, add_y, add_z, sub_x, sub_y,
      sub_z, div_x, div_y, div_z, neg_x, neg_y, neg_z, Cross_x, Cross_y, Cross_z, zero_x,
      zero_y, zero_z]
    field_simp
    ring

/-- Witness for C24: over the rationals, for the sample frame, from the position
`(1, 0, 0)` along the displacement `(0, 2, 0)`, the fictitious potential
decreases by 2. -/
theorem fictitious_acceleration_derives_from_potential_witness :
    (2 : ℚ) ≠ 0 ∧
    ((sampleFrame : ReferenceFrame ℚ).GeometricPotential 0
        (Position.translate ⟨0, 2, 0⟩ ⟨⟨1, 0, 0⟩⟩) -
      (sampleFrame : ReferenceFrame ℚ).GravitationalPotential 0
        (((sampleFrame : ReferenceFrame ℚ).MotionOfThisFrame
          0).rigid_motion.rigid_transformation.Inverse.apply
            (Position.translate ⟨0, 2, 0⟩ ⟨⟨1, 0, 0⟩⟩))) -
    ((sampleFrame : ReferenceFrame ℚ).GeometricPotential 0 ⟨⟨1, 0, 0⟩⟩ -
      (sampleFrame : ReferenceFrame ℚ).GravitationalPotential 0
        (((sampleFrame : ReferenceFrame ℚ).MotionOfThisFrame
          0).rigid_motion.rigid_transformation.Inverse.apply ⟨⟨1, 0, 0⟩⟩)) = -2 :=
  ⟨by norm_num,
    (fictitious_acceleration_derives_from_potential (sampleFrame : ReferenceFrame ℚ)
      0 ⟨⟨1, 0, 0⟩⟩ ⟨0, 2, 0⟩ (by norm_num)).2.2.2.trans (by
        simp only [ReferenceFrame.ComputeGeometricAccelerations, sampleFrame,
          Bivector.mulVector, OrthogonalMap.apply, R3x3Matrix.mulVec, Dot, Norm2, Radian, Pow2,
          unmoving, Position.sub, Position.origin, RigidMotion.orthogonal_map,
          RigidMotion.angular_velocity_of_to,
          AcceleratedRigidMotion.acceleration_of_origin_of_to, add_x, add_y, add_z, sub_x,
          sub_y, sub_z, div_x, div_y, div_z, neg_x, neg_y, neg_z, Cross_x, Cross_y, Cross_z,
          zero_x, zero_y, zero_z]
        norm_num)⟩

/-! ## Theorems: an inertial frame -/

/-- The rotational part of a rigid motion maps the zero triple to itself. -/
theorem OrthogonalMap.apply_zero (m : OrthogonalMap K) : m.apply 0 = 0 := by
  simp [OrthogonalMap.apply, R3x3Matrix.mulVec, Dot, ext_iff3]

/-- C25: when the motion of the frame at `t` has zero angular velocity, zero
angular acceleration and zero acceleration of the origin, the linear, Coriolis,
centrifugal and Euler terms are zero for every dof, `GeometricAcceleration` is
the rotated gravitational acceleration and does not depend on the velocity, and
`GeometricPotential` is the gravitational potential. -/
theorem inertial_frame_has_no_fictitious_terms (f : ReferenceFrame K) (t : Instant K)
    (dof : DegreesOfFreedom K)
    (angular_velocity_zero :
      (f.MotionOfThisFrame t).rigid_motion.angular_velocity_of_to = 0)
    (angular_acceleration_zero : (f.MotionOfThisFrame t).angular_acceleration_of_to = 0)
    (acceleration_of_origin_zero : (f.MotionOfThisFrame t).acceleration_of_origin_of_to = 0) :
    let motion := f.MotionOfThisFrame t
    let R := motion.rigid_motion.orthogonal_map
    let p := motion.rigid_motion.rigid_transformation.Inverse.apply dof.position
    let a := f.ComputeGeometricAccelerations t dof
    a.linear_acceleration = 0 ∧ a.coriolis_acceleration = 0 ∧
    a.centrifugal_acceleration = 0 ∧ a.euler_acceleration = 0 ∧
    f.GeometricAcceleration t dof = a.gravitational_acceleration ∧
    f.GeometricAcceleration t dof = R.apply (f.GravitationalAcceleration t p) ∧
    (∀ velocity : Vector K,
      f.GeometricAcceleration t ⟨dof.position, velocity⟩ = f.GeometricAcceleration t dof) ∧
    f.GeometricPotential t dof.position = f.GravitationalPotential t p := by
  have key : ∀ d : DegreesOfFreedom K,
      (f.ComputeGeometricAccelerations t d).linear_acceleration = 0 ∧
      (f.ComputeGeometricAccelerations t d).coriolis_acceleration = 0 ∧
      (f.ComputeGeometricAccelerations t d).centrifugal_acceleration = 0 ∧
      (f.ComputeGeometricAccelerations t d).euler_acceleration = 0 := by
    intro d
    simp only [ReferenceFrame.ComputeGeometricAccelerations, angular_velocity_zero,
      angular_acceleration_zero, acceleration_of_origin_zero, OrthogonalMap.apply_zero,
      Bivector.mulVector, ext_iff3, div_x, div_y, div_z, neg_x, neg_y, neg_z, smul_x, smul_y,
      smul_z, Cross_x, Cross_y, Cross_z, zero_x, zero_y, zero_z]
    simp
  have acc : ∀ d : DegreesOfFreedom K, f.GeometricAcceleration t d =
      (f.ComputeGeometricAccelerations t d).gravitational_acceleration := by
    intro d
    obtain ⟨h₁, h₂, h₃, h₄⟩ := key d
    simp only [ReferenceFrame.GeometricAcceleration, h₁, h₂, h₃, h₄, ext_iff3, add_x, add_y,
      add_z, zero_x, zero_y, zero_z]
    simp
  obtain ⟨h₁, h₂, h₃, h₄⟩ := key dof
  refine ⟨h₁, h₂, h₃, h₄, acc dof, acc dof, fun velocity => ?_, ?_⟩
  · rw [acc, acc]
    rfl
  · simp only [ReferenceFrame.GeometricPotential, angular_velocity_zero,
      acceleration_of_origin_zero, OrthogonalMap.apply_zero, InnerProduct, Bivector.mulVector,
      Dot, Norm2, div_x, div_y, div_z, Cross_x, Cross_y, Cross_z, zero_x, zero_y, zero_z]
    simp [RigidMotion.Inverse]

/-- Witness for C25: over the rationals, the sample inertial frame at the sample
degrees of freedom: the acceleration is the rotated gravitational acceleration
`(0, 0, -10)`. -/
theorem inertial_frame_has_no_fictitious_terms_witness :
    ((inertialFrame : ReferenceFrame ℚ).MotionOfThisFrame 0).rigid_motion.angular_velocity_of_to
      = 0 ∧
    ((inertialFrame : ReferenceFrame ℚ).MotionOfThisFrame 0).angular_acceleration_of_to = 0 ∧
    ((inertialFrame : ReferenceFrame ℚ).MotionOfThisFrame 0).acceleration_of_origin_of_to = 0 ∧
    (inertialFrame : ReferenceFrame ℚ).GeometricAcceleration 0 sampleDegreesOfFreedom =
      ⟨0, 0, -10⟩ :=
  ⟨rfl, rfl, rfl,
    (inertial_frame_has_no_fictitious_terms (inertialFrame : ReferenceFrame ℚ) 0
      sampleDegreesOfFreedom rfl rfl rfl).2.2.2.2.2.1.trans (by
        simp [inertialFrame, OrthogonalMap.apply, R3x3Matrix.mulVec, Dot,
          RigidMotion.orthogonal_map])⟩

/-! ## Theorems: termination of the default frame transformations -/

/-- C26: when the variant supplies `ToThisFrameAtTime` (or
`FromThisFrameAtTime`), both operations return at every instant; the supplied
one is entered once, and the derived one enters the supplied one once and then
inverts once.  When the variant supplies neither, no amount of fuel lets either
default return. -/
theorem default_frame_transformations_terminate (v : FrameOverrides K) (t : Instant K)
    (events : List (FrameEvent K)) :
    (∀ g, v.ToThisFrameAtTime = some g →
      (∀ fuel, Traced.ToThisFrameAtTime v fuel t events =
        some (g t, events ++ [FrameEvent.supplied_ToThisFrameAtTime t])) ∧
      (v.FromThisFrameAtTime = none → ∀ fuel,
        Traced.FromThisFrameAtTime v (fuel + 1) t events =
          some ((g t).Inverse,
            events ++ [FrameEvent.supplied_ToThisFrameAtTime t, FrameEvent.Inverse]) ∧
        ReferenceFrame.FromThisFrameAtTime v (fuel + 1) t = some (g t).Inverse)) ∧
    (∀ g, v.FromThisFrameAtTime = some g →
      (∀ fuel, Traced.FromThisFrameAtTime v fuel t events =
        some (g t, events ++ [FrameEvent.supplied_FromThisFrameAtTime t])) ∧
      (v.ToThisFrameAtTime = none → ∀ fuel,
        Traced.ToThisFrameAtTime v (fuel + 1) t events =
          some ((g t).Inverse,
            events ++ [FrameEvent.supplied_FromThisFrameAtTime t, FrameEvent.Inverse]) ∧
        ReferenceFrame.ToThisFrameAtTime v (fuel + 1) t = some (g t).Inverse)) ∧
    (v.ToThisFrameAtTime = none → v.FromThisFrameAtTime = none → ∀ fuel,
      Traced.ToThisFrameAtTime v fuel t events = none ∧
      Traced.FromThisFrameAtTime v fuel t events = none ∧
      ReferenceFrame.ToThisFrameAtTime v fuel t = none ∧
      ReferenceFrame.FromThisFrameAtTime v fuel t = none) := by
  obtain ⟨to_override, from_override⟩ := v
  refine ⟨?_, ?_, ?_⟩
  · rintro g ⟨rfl⟩
    refine ⟨fun fuel => ?_, ?_⟩
    · cases fuel <;> simp [Traced.ToThisFrameAtTime]
    · rintro ⟨rfl⟩ fuel
      cases fuel <;>
        simp [Traced.ToThisFrameAtTime, Traced.FromThisFrameAtTime,
          ReferenceFrame.ToThisFrameAtTime, ReferenceFrame.FromThisFrameAtTime]
  · rintro g ⟨rfl⟩
    refine ⟨fun fuel => ?_, ?_⟩
    · cases fuel <;> simp [Traced.FromThisFrameAtTime]
    · rintro ⟨rfl⟩ fuel
      cases fuel <;>
        simp [Traced.ToThisFrameAtTime, Traced.FromThisFrameAtTime,
          ReferenceFrame.ToThisFrameAtTime, ReferenceFrame.FromThisFrameAtTime]
  · rintro ⟨rfl⟩ ⟨rfl⟩ fuel
    induction fuel with
    | zero =>
      simp [Traced.ToThisFrameAtTime, Traced.FromThisFrameAtTime,
        ReferenceFrame.ToThisFrameAtTime, ReferenceFrame.FromThisFrameAtTime]
    | succ fuel ih =>
      obtain ⟨h₁, h₂, h₃, h₄⟩ := ih
      simp [Traced.ToThisFrameAtTime, Traced.FromThisFrameAtTime,
        ReferenceFrame.ToThisFrameAtTime, ReferenceFrame.FromThisFrameAtTime, h₁, h₂, h₃, h₄]

/-- Witness for C26: the sample variant supplies `ToThisFrameAtTime` only; its
`FromThisFrameAtTime` enters `ToThisFrameAtTime` once and inverts once.  The
variant without overrides never returns. -/
theorem default_frame_transformations_terminate_witness :
    (Traced.FromThisFrameAtTime (sampleOverrides : FrameOverrides ℚ) 1 0 [] =
      some (((sampleFrame : ReferenceFrame ℚ).MotionOfThisFrame 0).rigid_motion.Inverse,
        [FrameEvent.supplied_ToThisFrameAtTime 0, FrameEvent.Inverse])) ∧
    (∀ fuel, Traced.ToThisFrameAtTime (noOverrides : FrameOverrides ℚ) fuel 0 [] = none) :=
  ⟨(((default_frame_transformations_terminate (sampleOverrides : FrameOverrides ℚ) 0 []).1
      _ rfl).2 rfl 0).1,
   fun fuel =>
    ((default_frame_transformations_terminate (noOverrides : FrameOverrides ℚ) 0 []).2.2
      rfl rfl fuel).1⟩

/-! ## Theorems: orthogonality of the Coriolis and Euler terms -/

/-- C27: the Coriolis term of `ComputeGeometricAccelerations` is orthogonal to
the velocity and is additive and homogeneous in the velocity; the Euler term is
orthogonal to `r = position - origin`. -/
theorem coriolis_orthogonal_linear_and_euler_orthogonal (f : ReferenceFrame K)
    (t : Instant K) (dof : DegreesOfFreedom K) :
    let a := f.ComputeGeometricAccelerations t dof
    let coriolis := fun velocity : Vector K =>
      (f.ComputeGeometricAccelerations t ⟨dof.position, velocity⟩).coriolis_acceleration
    InnerProduct a.coriolis_acceleration dof.velocity = 0 ∧
    (∀ v w : Vector K, coriolis (v + w) = coriolis v + coriolis w) ∧
    (∀ (c : K) (v : Vector K), coriolis (c * v) = c * coriolis v) ∧
    InnerProduct a.euler_acceleration (dof.position.sub Position.origin) = 0 := by
  refine ⟨?_, ?_, ?_, ?_⟩
  · simp only [ReferenceFrame.ComputeGeometricAccelerations, InnerProduct, Bivector.mulVector,
      Dot, Radian, div_x, div_y, div_z, smul_x, smul_y, smul_z, Cross_x, Cross_y, Cross_z]
    ring
  · intro v w
    simp only [ReferenceFrame.ComputeGeometricAccelerations, Bivector.mulVector, Radian,
      ext_iff3, add_x, add_y, add_z, div_x, div_y, div_z, smul_x, smul_y, smul_z, Cross_x,
      Cross_y, Cross_z]
    refine ⟨?_, ?_, ?_⟩ <;> ring
  · intro c v
    simp only [ReferenceFrame.ComputeGeometricAccelerations, Bivector.mulVector, Radian,
      ext_iff3, div_x, div_y, div_z, smul_x, smul_y, smul_z, Cross_x, Cross_y, Cross_z]
    refine ⟨?_, ?_, ?_⟩ <;> ring
  · simp only [ReferenceFrame.ComputeGeometricAccelerations, InnerProduct, Bivector.mulVector,
      Dot, Radian, div_x, div_y, div_z, neg_x, neg_y, neg_z, Cross_x, Cross_y, Cross_z]
    ring

/-! ## Theorems: the order of the steps of `ReadFromMessage` -/

section ReadOrder

variable {E P₁ P₂ P₃ P₄ F : Type}

end ReadOrder

/-! ## Theorems: the packed indices of the triangular matrices -/

theorem FixedLowerTriangularMatrix.index_lt_size {n row column : Nat} (h₁ : column ≤ row)
    (h₂ : row < n) : row * (row + 1) / 2 + column < n * (n + 1) / 2 := by
  have h := triangle_succ row
  have h' := triangle_mono (show row + 1 ≤ n by omega)
  omega

theorem FixedLowerTriangularMatrix.index_surjective (n : Nat) :
    ∀ k, k < n * (n + 1) / 2 →
      ∃ row column, column ≤ row ∧ row < n ∧ row * (row + 1) / 2 + column = k := by
  induction n with
  | zero => intro k hk; simp at hk
  | succ n ih =>
    intro k hk
    rw [triangle_succ] at hk
    by_cases h : k < n * (n + 1) / 2
    · obtain ⟨row, column, h₁, h₂, h₃⟩ := ih k h
      exact ⟨row, column, h₁, by omega, h₃⟩
    · exact ⟨n, k - n * (n + 1) / 2, by omega, by omega, by omega⟩

theorem FixedStrictlyLowerTriangularMatrix.index_succ (row column : Nat) :
    FixedStrictlyLowerTriangularMatrix.index (row + 1) column =
      row * (row + 1) / 2 + column := by
  simp only [FixedStrictlyLowerTriangularMatrix.index, Nat.add_sub_cancel]
  rw [Nat.mul_comm]

theorem FixedStrictlyLowerTriangularMatrix.size_succ (n : Nat) :
    FixedStrictlyLowerTriangularMatrix.size (n + 1) = n * (n + 1) / 2 := by
  simp only [FixedStrictlyLowerTriangularMatrix.size, Nat.add_sub_cancel]
  rw [Nat.mul_comm]

/-- C30: the index that each of the three triangular matrix classes computes is
a bijection from the pairs `(row, column)` that pass the checks of the accessor
onto the indices below the size of the storage: it is in bounds and two
entries never share an index. -/
theorem packed_index_bijective (n : Nat) :
    Set.BijOn (fun p : Nat × Nat => FixedLowerTriangularMatrix.index p.1 p.2)
      {p | p.2 ≤ p.1 ∧ p.1 < n} (Set.Iio (FixedLowerTriangularMatrix.size n)) ∧
    Set.BijOn (fun p : Nat × Nat => FixedUpperTriangularMatrix.index p.1 p.2)
      {p | p.1 ≤ p.2 ∧ p.2 < n} (Set.Iio (FixedUpperTriangularMatrix.size n)) ∧
    Set.BijOn (fun p : Nat × Nat => FixedStrictlyLowerTriangularMatrix.index p.1 p.2)
      {p | p.2 < p.1 ∧ p.1 < n} (Set.Iio (FixedStrictlyLowerTriangularMatrix.size n)) ∧
    (∀ (α : Type) (m : FixedLowerTriangularMatrix α n) (row column : Nat),
      m.get row column = m.data_ (FixedLowerTriangularMatrix.index row column)) ∧
    (∀ (α : Type) (m : FixedUpperTriangularMatrix α n) (row column : Nat),
      m.get row column = m.data_ (FixedUpperTriangularMatrix.index row column)) ∧
    (∀ (α : Type) (m : FixedStrictlyLowerTriangularMatrix α n) (row column : Nat),
      m.get row column = m.data_ (FixedStrictlyLowerTriangularMatrix.index row column)) := by
  refine ⟨⟨?_, ?_, ?_⟩, ⟨?_, ?_, ?_⟩, ⟨?_, ?_, ?_⟩, fun _ _ _ _ => rfl, fun _ _ _ _ => rfl,
    fun _ _ _ _ => rfl⟩
  · rintro ⟨row, column⟩ ⟨h₁, h₂⟩
    exact FixedLowerTriangularMatrix.index_lt_size h₁ h₂
  · rintro ⟨row, column⟩ ⟨h₁, _⟩ ⟨row', column'⟩ ⟨h₁', _⟩ h
    obtain ⟨e₁, e₂⟩ := FixedUpperTriangularMatrix.index_injective h₁ h₁' h
    exact Prod.ext e₁ e₂
  · intro k hk
    obtain ⟨row, column, h₁, h₂, h₃⟩ := FixedLowerTriangularMatrix.index_surjective n k hk
    exact ⟨(row, column), ⟨h₁, h₂⟩, h₃⟩
  · rintro ⟨row, column⟩ ⟨h₁, h₂⟩
    exact FixedLowerTriangularMatrix.index_lt_size h₁ h₂
  · rintro ⟨row, column⟩ ⟨h₁, _⟩ ⟨row', column'⟩ ⟨h₁', _⟩ h
    obtain ⟨e₁, e₂⟩ := FixedUpperTriangularMatrix.index_injective h₁ h₁' h
    exact Prod.ext e₂ e₁
  · intro k hk
    obtain ⟨row, column, h₁, h₂, h₃⟩ := FixedLowerTriangularMatrix.index_surjective n k hk
    exact ⟨(column, row), ⟨h₁, h₂⟩, h₃⟩
  · rintro ⟨row, column⟩ ⟨h₁, h₂⟩
    obtain ⟨row, rfl⟩ : ∃ r, row = r + 1 := ⟨row - 1, by omega⟩
    obtain ⟨n, rfl⟩ : ∃ m, n = m + 1 := ⟨n - 1, by omega⟩
    simp only [Set.mem_Iio, FixedStrictlyLowerTriangularMatrix.index_succ,
      FixedStrictlyLowerTriangularMatrix.size_succ]
    exact FixedLowerTriangularMatrix.index_lt_size (by omega) (by omega)
  · rintro ⟨row, column⟩ ⟨h₁, _⟩ ⟨row', column'⟩ ⟨h₁', _⟩ h
    obtain ⟨row, rfl⟩ : ∃ r, row = r + 1 := ⟨row - 1, by omega⟩
    obtain ⟨row', rfl⟩ : ∃ r, row' = r + 1 := ⟨row' - 1, by omega⟩
    simp only [FixedStrictlyLowerTriangularMatrix.index_succ] at h
    obtain ⟨e₁, e₂⟩ := FixedUpperTriangularMatrix.index_injective
      (show column ≤ row by omega) (show column' ≤ row' by omega) h
    simp only [e₁, e₂]
  · intro k hk
    cases n with
    | zero => simp [FixedStrictlyLowerTriangularMatrix.size] at hk
    | succ n =>
      simp only [Set.mem_Iio, FixedStrictlyLowerTriangularMatrix.size_succ] at hk
      obtain ⟨row, column, h₁, h₂, h₃⟩ := FixedLowerTriangularMatrix.index_surjective n k hk
      refine ⟨(row + 1, column), ⟨by simp only; omega, by simp only; omega⟩, ?_⟩
      simp only [FixedStrictlyLowerTriangularMatrix.index_succ]
      exact h₃

/-! ## Theorems: `for_all_of` -/

section ForAllOf

variable {n : Nat} {T : Fin n → Type}

/-- The loop of `for_all_of` over a list of distinct indices: the elements at
the indices of the list have `f` applied once, the others are unchanged, and
the indices of the list are appended to the log. -/
theorem for_all_of.foldl_spec (f : ∀ i, T i → T i) :
    ∀ l : List (Fin n), l.Nodup → ∀ (tuple : ∀ i, T i) (log : List (Fin n)),
      (∀ i, i ∈ l →
        (l.foldl (fun state i => (Function.update state.1 i (f i (state.1 i)), state.2 ++ [i]))
          (tuple, log)).1 i = f i (tuple i)) ∧
      (∀ i, i ∉ l →
        (l.foldl (fun state i => (Function.update state.1 i (f i (state.1 i)), state.2 ++ [i]))
          (tuple, log)).1 i = tuple i) ∧
      (l.foldl (fun state i => (Function.update state.1 i (f i (state.1 i)), state.2 ++ [i]))
          (tuple, log)).2 = log ++ l := by
  intro l
  induction l with
  | nil => intro _ tuple log; simp
  | cons a l ih =>
    intro hnodup tuple log
    obtain ⟨ha, hl⟩ := List.nodup_cons.mp hnodup
    obtain ⟨h₁, h₂, h₃⟩ := ih hl (Function.update tuple a (f a (tuple a))) (log ++ [a])
    simp only [List.foldl_cons]
    refine ⟨?_, ?_, ?_⟩
    · intro i hi
      rcases List.mem_cons.mp hi with rfl | hi'
      · rw [h₂ i ha, Function.update_same]
      · have hne : i ≠ a := fun e => ha (e ▸ hi')
        rw [h₁ i hi', Function.update_noteq hne]
    · intro i hi
      have hne : i ≠ a := fun e => hi (e ▸ List.mem_cons_self _ _)
      have hi' : i ∉ l := fun e => hi (List.mem_cons_of_mem _ e)
      rw [h₂ i hi', Function.update_noteq hne]
    · rw [h₃]
      simp

/-- C22: `for_all_of(tuple, f)` applies `f` in place to each element exactly
once and to nothing else: afterwards the element `i` is `f` applied to the
original element `i`, and the log of the visits is the list of the indices,
each of them once. -/
theorem for_all_of_applies_once (tuple : ∀ i, T i) (f : ∀ i, T i → T i) :
    (∀ i, (for_all_of tuple f).1 i = f i (tuple i)) ∧
    (for_all_of tuple f).2 = List.finRange n ∧
    (∀ i, (for_all_of tuple f).2.count i = 1) := by
  obtain ⟨h₁, -, h₃⟩ := for_all_of.foldl_spec f (List.finRange n) (List.nodup_finRange n)
    tuple []
  have hlog : (for_all_of tuple f).2 = List.finRange n := by
    simpa [for_all_of] using h₃
  refine ⟨fun i => h₁ i (List.mem_finRange i), hlog, fun i => ?_⟩
  rw [hlog]
  exact List.count_eq_one_of_mem (List.nodup_finRange n) (List.mem_finRange i)

end ForAllOf

/-- Witness for C22: the tests `AnArray` and `ATuple` of for_all_of_test.cpp:
halving `(42, 43, -41)` gives `(21, 21.5, -20.5)` and incrementing
`('a', 42.0, 666)` gives `('b', 43.0, 667)`. -/
theorem for_all_of_applies_once_witness :
    (∀ i, (for_all_of ForAllOfTest.AnArray.array fun _ value => value / 2).1 i =
      ForAllOfTest.AnArray.halved i) ∧
    (∀ i, (for_all_of ForAllOfTest.ATuple.tuple ForAllOfTest.ATuple.increment).1 i =
      ForAllOfTest.ATuple.incremented i) :=
  ⟨fun i =>
    ((@for_all_of_applies_once 3 (fun _ => ℚ) ForAllOfTest.AnArray.array
        fun _ value => value / 2).1 i).trans (by
      fin_cases i <;> norm_num [ForAllOfTest.AnArray.array, ForAllOfTest.AnArray.halved]),
   fun i =>
    ((for_all_of_applies_once ForAllOfTest.ATuple.tuple ForAllOfTest.ATuple.increment).1
      i).trans (by
      fin_cases i
      · show Char.ofNat ('a'.toNat + 1) = 'b'
        decide
      · show (42 : ℚ) + 1 = 43
        norm_num
      · show (666 : Int) + 1 = 667
        decide)⟩

/-! ## Theorems: `FixedMatrix::Transpose` -/

section FixedMatrixTranspose

variable {α : Type}

/-- The index of the flat storage determines the row and the column. -/
theorem FixedMatrix.flat_index_injective {n i j i' j' : Nat} (hj : j < n) (hj' : j' < n)
    (h : i * n + j = i' * n + j') : i = i' ∧ j = j' := by
  have hn : 0 < n := by omega
  have h₁ : (i * n + j) / n = i := by
    rw [Nat.mul_comm, Nat.mul_add_div hn, Nat.div_eq_of_lt hj, Nat.add_zero]
  have h₂ : (i' * n + j') / n = i' := by
    rw [Nat.mul_comm, Nat.mul_add_div hn, Nat.div_eq_of_lt hj', Nat.add_zero]
  have hi : i = i' := by rw [← h₁, ← h₂, h]
  subst hi
  exact ⟨rfl, by omega⟩

/-- The inner loop of `Transpose` on a square matrix, for the row `i`: every
check passes, the entries `(j, i)` of `m` receive the entries `(i, j)` of
`self`, and the rest of `m` is unchanged. -/
theorem FixedMatrix.Transpose.inner_spec {n : Nat} (self : FixedMatrix α n n) {i : Nat}
    (hi : i < n) : ∀ c, c ≤ n → ∀ m : FixedMatrix α n n,
      ∃ m' : FixedMatrix α n n,
        (List.range c).foldlM (fun m j =>
          (self.get i j).bind fun value => m.set j i value) m = some m' ∧
        (∀ j < c, m'.data_ (j * n + i) = self.data_ (i * n + j)) ∧
        (∀ k, (∀ j < c, k ≠ j * n + i) → m'.data_ k = m.data_ k) := by
  intro c
  induction c with
  | zero => intro _ m; exact ⟨m, by simp, by simp, fun _ _ => rfl⟩
  | succ c ih =>
    intro hc m
    obtain ⟨m₁, h₁, h₂, h₃⟩ := ih (by omega) m
    have hcn : c < n := by omega
    refine ⟨⟨Function.update m₁.data_ (c * n + i) (self.data_ (i * n + c))⟩, ?_, ?_, ?_⟩
    · rw [List.range_succ, List.foldlM_append, h₁]
      simp [FixedMatrix.get, FixedMatrix.set, hi, hcn]
    · intro j hj
      by_cases hjc : j = c
      · subst hjc
        simp
      · have hne : j * n + i ≠ c * n + i := fun e =>
          hjc (FixedMatrix.flat_index_injective hi hi e).1
        simp only [Function.update_noteq hne]
        exact h₂ j (by omega)
    · intro k hk
      have hne : k ≠ c * n + i := hk c (by omega)
      simp only [Function.update_noteq hne]
      exact h₃ k fun j hj => hk j (by omega)

/-- The loops of `Transpose` on a square matrix, up to the row `r`. -/
theorem FixedMatrix.Transpose.outer_spec {n : Nat} (self m₀ : FixedMatrix α n n) :
    ∀ r, r ≤ n →
      ∃ m' : FixedMatrix α n n,
        (List.range r).foldlM (fun m i =>
          (List.range n).foldlM (fun m j =>
            (self.get i j).bind fun value => m.set j i value) m) m₀ = some m' ∧
        (∀ i < r, ∀ j < n, m'.data_ (j * n + i) = self.data_ (i * n + j)) ∧
        (∀ k, (∀ i < r, ∀ j < n, k ≠ j * n + i) → m'.data_ k = m₀.data_ k) := by
  intro r
  induction r with
  | zero => intro _; exact ⟨m₀, by simp, by simp, fun _ _ => rfl⟩
  | succ r ih =>
    intro hr
    obtain ⟨m₁, h₁, h₂, h₃⟩ := ih (by omega)
    have hrn : r < n := by omega
    obtain ⟨m₂, e₁, e₂, e₃⟩ := FixedMatrix.Transpose.inner_spec self hrn n (le_refl n) m₁
    refine ⟨m₂, ?_, ?_, ?_⟩
    · rw [List.range_succ, List.foldlM_append, h₁]
      simp [e₁]
    · intro i hi j hj
      by_cases hir : i = r
      · subst hir
        exact e₂ j hj
      · rw [e₃ (j * n + i) fun j' _ e =>
          hir (FixedMatrix.flat_index_injective (by omega) hrn e).2]
        exact h₂ i (by omega) j hj
    · intro k hk
      rw [e₃ k fun j hj => hk r (by omega) j hj]
      exact h₃ k fun i hi j hj => hk i (by omega) j hj

/-- On a square matrix `Transpose` passes every check of the accessors and its
entry `(j, i)` is the entry `(i, j)` of the matrix. -/
theorem FixedMatrix.Transpose_square {n : Nat} (self m₀ : FixedMatrix α n n) :
    ∃ m : FixedMatrix α n n, self.Transpose m₀ = some m ∧
      ∀ i < n, ∀ j < n, m.get j i = self.get i j := by
  obtain ⟨m, h₁, h₂, -⟩ := FixedMatrix.Transpose.outer_spec self m₀ n (le_refl n)
  refine ⟨m, h₁, fun i hi j hj => ?_⟩
  simp only [FixedMatrix.get, hi, hj, and_self, if_true, h₂ i hi j hj]

/-- On a square matrix the transpose of the transpose has the entries of the
matrix. -/
theorem FixedMatrix.Transpose_Transpose_square {n : Nat} (self m₀ m₁ : FixedMatrix α n n) :
    ∃ m : FixedMatrix α n n, (self.Transpose m₀).bind (fun t => t.Transpose m₁) = some m ∧
      ∀ i < n, ∀ j < n, m.get i j = self.get i j := by
  obtain ⟨t, h₁, h₂⟩ := FixedMatrix.Transpose_square self m₀
  obtain ⟨m, e₁, e₂⟩ := FixedMatrix.Transpose_square t m₁
  refine ⟨m, by rw [h₁]; exact e₁, fun i hi j hj => ?_⟩
  rw [e₂ j hj i hi, h₂ i hi j hj]

/-- A loop with a step that fails in every state fails. -/
theorem foldlM_eq_none_of_mem {β γ : Type} (f : β → γ → Option β) {x : γ}
    (hx : ∀ b, f b x = none) : ∀ (l : List γ), x ∈ l → ∀ b, l.foldlM f b = none := by
  intro l
  induction l with
  | nil => intro h; simp at h
  | cons a l ih =>
    intro h b
    rw [List.foldlM_cons]
    rcases List.mem_cons.mp h with rfl | h'
    · rw [hx b]
      rfl
    · cases f b a with
      | none => rfl
      | some b' => exact ih h' b'

/-- On a matrix that is not square and has a row and a column, `Transpose`
fails a check of the accessor: with more columns than rows the write
`m(rows, 0)` fails `row < rows()`, with more rows than columns the write
`m(0, columns)` fails `column < columns()`. -/
theorem FixedMatrix.Transpose_not_square {rows columns : Nat}
    (self m₀ : FixedMatrix α rows columns) (hrows : 0 < rows) (hcolumns : 0 < columns)
    (hne : rows ≠ columns) : self.Transpose m₀ = none := by
  rcases Nat.lt_or_gt_of_ne hne with hlt | hgt
  · refine foldlM_eq_none_of_mem _ (fun m => ?_) _ (List.mem_range.mpr hrows) m₀
    refine foldlM_eq_none_of_mem _ (fun m => ?_) _ (List.mem_range.mpr hlt) m
    simp [FixedMatrix.get, FixedMatrix.set, hrows, hlt]
  · refine foldlM_eq_none_of_mem _ (fun m => ?_) _ (List.mem_range.mpr hgt) m₀
    refine foldlM_eq_none_of_mem _ (fun m => ?_) _ (List.mem_range.mpr hcolumns) m
    simp [FixedMatrix.get, FixedMatrix.set, hgt, hcolumns]

/-- C29: on a matrix of one row and two columns `Transpose` fails a
check of the accessor.  The reads `(*this)(0, 0)` and `(*this)(0, 1)` and the
write `m(0, 0)` pass, the write `m(1, 0)` fails the check `row < rows()`. -/
theorem FixedMatrix.Transpose_one_by_two (self m₀ : FixedMatrix α 1 2) :
    self.Transpose m₀ = none ∧
    self.get 0 0 = some (self.data_ 0) ∧
    self.get 0 1 = some (self.data_ 1) ∧
    (∀ value, (m₀.set 0 0 value).isSome = true) ∧
    (∀ (m : FixedMatrix α 1 2) (value : α), m.set 1 0 value = none) := by
  refine ⟨?_, ?_, ?_, ?_, ?_⟩
  · have h₁ : List.range 1 = [0] := by decide
    have h₂ : List.range 2 = [0, 1] := by decide
    simp [FixedMatrix.Transpose, FixedMatrix.get, FixedMatrix.set, h₁, h₂]
  · simp [FixedMatrix.get]
  · simp [FixedMatrix.get]
  · intro value
    simp [FixedMatrix.set]
  · intro m value
    simp [FixedMatrix.set]

end FixedMatrixTranspose

/-! ## Theorems: the decomposition `ᵗR D R` -/

section tRDRAlgebra

/-- The quadratic form of a weighted Gram matrix is a weighted sum of squares. -/
theorem sum_gram_weighted (s t : Finset Nat) (M : Nat → Nat → K) (d x : Nat → K) :
    ∑ i in s, ∑ c in s, x i * (∑ k in t, M k i * M k c * d k) * x c =
      ∑ k in t, (∑ i in s, M k i * x i) * (∑ c in s, M k c * x c) * d k := by
  have h₁ : ∀ k, (∑ i in s, M k i * x i) * (∑ c in s, M k c * x c) * d k =
      ∑ i in s, ∑ c in s, (M k i * x i) * (M k c * x c) * d k := by
    intro k
    rw [Finset.sum_mul_sum, Finset.sum_mul]
    apply Finset.sum_congr rfl
    intro i _
    rw [Finset.sum_mul]
  have h₂ : ∀ i c, x i * (∑ k in t, M k i * M k c * d k) * x c =
      ∑ k in t, (M k i * x i) * (M k c * x c) * d k := by
    intro i c
    rw [Finset.mul_sum, Finset.sum_mul]
    apply Finset.sum_congr rfl
    intro k _
    ring
  simp only [h₁, h₂]
  have h₃ : ∀ i, ∑ c in s, ∑ k in t, (M k i * x i) * (M k c * x c) * d k =
      ∑ k in t, ∑ c in s, (M k i * x i) * (M k c * x c) * d k := fun i => Finset.sum_comm
  simp only [h₃]
  exact Finset.sum_comm

end tRDRAlgebra

section tRDRPivot

variable {F : Type} [LinearOrderedField F] {n : Nat}

/-- The weighted product of two columns of an upper triangular matrix: the rows
below the diagonal entry of the first column do not contribute. -/
theorem FixedUpperTriangularMatrix.sum_entry_mul_entry_mul (R : FixedUpperTriangularMatrix F n)
    (d : Nat → F) {i c j : Nat} (hij : i < j) (hic : i ≤ c) :
    ∑ k in Finset.range j, R.entry k i * R.entry k c * d k =
      ∑ k in Finset.range (i + 1), R.get k i * R.get k c * d k := by
  rw [Finset.range_eq_Ico, ← Finset.sum_Ico_consecutive _ (Nat.zero_le (i + 1)) hij]
  have h₁ : ∑ k in Finset.Ico (i + 1) j, R.entry k i * R.entry k c * d k = 0 := by
    apply Finset.sum_eq_zero
    intro k hk
    have : ¬ k ≤ i := by
      have := (Finset.mem_Ico.mp hk).1
      omega
    simp [FixedUpperTriangularMatrix.entry, this]
  rw [h₁, add_zero]
  apply Finset.sum_congr rfl
  intro k hk
  have hki : k ≤ i := by
    have := (Finset.mem_Ico.mp hk).2
    omega
  have hkc : k ≤ c := by omega
  simp [FixedUpperTriangularMatrix.entry, hki, hkc]

/-- For an upper triangular matrix with a nonzero diagonal above the row `j`,
there is a vector with the coordinate 1 at `j` and 0 after `j` that the rows
above `j` annihilate. -/
theorem FixedUpperTriangularMatrix.exists_annihilated (R : FixedUpperTriangularMatrix F n)
    {j : Nat} (hj : j < n) (hdiag : ∀ c < j, R.get c c ≠ 0) :
    ∃ x : Nat → F, x j = 1 ∧ (∀ c, j < c → x c = 0) ∧
      ∀ k < j, ∑ c in Finset.range n, R.entry k c * x c = 0 := by
  have hy := BackSubstitution.loop_solves (⟨R.data_⟩ : FixedUpperTriangularMatrix F j)
    (⟨fun i => R.get i j⟩ : FixedVector F j) hdiag j (fun _ => 0) (le_refl j)
    (fun r h₁ h₂ => by omega)
  generalize BackSubstitution.loop (⟨R.data_⟩ : FixedUpperTriangularMatrix F j)
    (⟨fun i => R.get i j⟩ : FixedVector F j) j (fun _ => 0) = y at hy
  have hy' : ∀ r < j, ∑ c in Finset.Ico r j, R.get r c * y c = R.get r j := hy
  obtain ⟨x, hx⟩ :
      ∃ x : Nat → F, x = fun c => if c < j then -y c else if c = j then 1 else 0 :=
    ⟨_, rfl⟩
  have hxlt : ∀ c, c < j → x c = -y c := by
    intro c hc
    simp [hx, hc]
  have hxj : x j = 1 := by simp [hx]
  have hxgt : ∀ c, j < c → x c = 0 := by
    intro c hc
    have h₁ : ¬ c < j := by omega
    have h₂ : ¬ c = j := by omega
    simp [hx, h₁, h₂]
  refine ⟨x, hxj, hxgt, ?_⟩
  intro k hk
  rw [Finset.range_eq_Ico, ← Finset.sum_Ico_consecutive _ (Nat.zero_le (j + 1)) hj,
    ← Finset.range_eq_Ico, Finset.sum_range_succ]
  have h₁ : ∑ c in Finset.Ico (j + 1) n, R.entry k c * x c = 0 := by
    apply Finset.sum_eq_zero
    intro c hc
    rw [hxgt c (by have := (Finset.mem_Ico.mp hc).1; omega), mul_zero]
  have h₂ : ∑ c in Finset.range j, R.entry k c * x c =
      -∑ c in Finset.range j, R.entry k c * y c := by
    rw [← Finset.sum_neg_distrib]
    apply Finset.sum_congr rfl
    intro c hc
    rw [hxlt c (Finset.mem_range.mp hc)]
    ring
  have h₃ : ∑ c in Finset.range j, R.entry k c * y c = R.get k j := by
    rw [← hy' k hk]
    exact FixedUpperTriangularMatrix.sum_entry_upper
      (⟨R.data_⟩ : FixedUpperTriangularMatrix F j) y
      (le_of_lt hk)
  have h₄ : R.entry k j = R.get k j := by
    simp [FixedUpperTriangularMatrix.entry, le_of_lt hk]
  rw [h₁, h₂, h₃, h₄, hxj]
  ring

/-- The pivot `D[j]` of the row `j` of the decomposition of a positive definite
matrix is positive: it is the value of the quadratic form at a vector that the
rows above `j` of the factor annihilate. -/
theorem tRDRDecomposition.weighted_pivot_pos (A R : FixedUpperTriangularMatrix F n) (d : Nat → F)
    (hA : A.PositiveDefinite) {j : Nat} (hj : j < n)
    (hdiag : ∀ c < j, R.get c c ≠ 0)
    (hrows : ∀ i < j, ∀ c, i ≤ c → c ≤ j →
      ∑ k in Finset.range (i + 1), R.get k i * R.get k c * d k = A.get i c) :
    0 < A.get j j - ∑ k in Finset.range j, R.get k j * R.get k j * d k := by
  obtain ⟨x, hxj, hxgt, hrow⟩ := FixedUpperTriangularMatrix.exists_annihilated R hj hdiag
  have hgram : ∀ i c, i ≤ c → c ≤ j →
      A.get i c = ∑ k in Finset.range j, R.entry k i * R.entry k c * d k +
        (if i = j ∧ c = j then A.get j j - ∑ k in Finset.range j, R.get k j * R.get k j * d k
          else 0) := by
    intro i c hic hcj
    by_cases hi : i = j
    · subst hi
      have hc : c = i := by omega
      subst hc
      have : ∑ k in Finset.range c, R.entry k c * R.entry k c * d k =
          ∑ k in Finset.range c, R.get k c * R.get k c * d k := by
        apply Finset.sum_congr rfl
        intro k hk
        simp [FixedUpperTriangularMatrix.entry, le_of_lt (Finset.mem_range.mp hk)]
      simp only [and_self, if_true, this]
      ring
    · have hlt : i < j := by omega
      rw [FixedUpperTriangularMatrix.sum_entry_mul_entry_mul R d hlt hic,
        hrows i hlt c hic hcj]
      simp [hi]
  have hterm : ∀ i c, x i * A.symmetric_entry i c * x c =
      x i * (∑ k in Finset.range j, R.entry k i * R.entry k c * d k) * x c +
        x i * (if i = j ∧ c = j then
            A.get j j - ∑ k in Finset.range j, R.get k j * R.get k j * d k
          else 0) * x c := by
    intro i c
    by_cases hij : j < i
    · rw [hxgt i hij]
      ring
    by_cases hcj : j < c
    · rw [hxgt c hcj]
      ring
    rw [← add_mul, ← mul_add]
    congr 2
    by_cases hic : i ≤ c
    · simp only [FixedUpperTriangularMatrix.symmetric_entry, hic, if_true]
      exact hgram i c hic (by omega)
    · simp only [FixedUpperTriangularMatrix.symmetric_entry, hic, if_false]
      rw [hgram c i (by omega) (by omega)]
      congr 1
      · apply Finset.sum_congr rfl
        intro k _
        ring
      · simp only [and_comm]
  have hquad : ∑ i in Finset.range n, ∑ c in Finset.range n,
      x i * A.symmetric_entry i c * x c =
      A.get j j - ∑ k in Finset.range j, R.get k j * R.get k j * d k := by
    simp only [hterm, Finset.sum_add_distrib]
    rw [sum_gram_weighted]
    have h₁ : ∑ k in Finset.range j,
        (∑ i in Finset.range n, R.entry k i * x i) *
          (∑ c in Finset.range n, R.entry k c * x c) * d k = 0 := by
      apply Finset.sum_eq_zero
      intro k hk
      rw [hrow k (Finset.mem_range.mp hk), zero_mul, zero_mul]
    have h₂ : ∑ i in Finset.range n, ∑ c in Finset.range n,
        x i * (if i = j ∧ c = j then
            A.get j j - ∑ k in Finset.range j, R.get k j * R.get k j * d k
          else 0) * x c =
        A.get j j - ∑ k in Finset.range j, R.get k j * R.get k j * d k := by
      rw [Finset.sum_eq_single j]
      · rw [Finset.sum_eq_single j]
        · simp [hxj]
        · intro c _ hc
          simp [hc]
        · intro h
          exact absurd (Finset.mem_range.mpr hj) h
      · intro i _ hi
        apply Finset.sum_eq_zero
        intro c _
        simp [hi]
      · intro h
        exact absurd (Finset.mem_range.mpr hj) h
    rw [h₁, h₂, zero_add]
  rw [← hquad]
  exact hA x ⟨j, hj, by rw [hxj]; exact one_ne_zero⟩

end tRDRPivot

section tRDRLoops

variable {F : Type} [LinearOrderedField F] {n : Nat}

theorem FixedVector.get_set_eq {α : Type} (v : FixedVector α n) (i : Nat) (value : α) :
    (v.set i value).get i = value := by
  simp [FixedVector.get, FixedVector.set]

theorem FixedVector.get_set_ne {α : Type} (v : FixedVector α n) {i k : Nat} (value : α)
    (h : k ≠ i) : (v.set i value).get k = v.get k := by
  simp [FixedVector.get, FixedVector.set, Function.update_noteq h]

theorem tRDRDecomposition.off_diagonal_eq (A R : FixedUpperTriangularMatrix F n)
    (D : FixedVector F n) (i j : Nat) :
    (tRDRDecomposition.off_diagonal A D i R j).get i j =
      (A.get i j - ∑ k in Finset.range i, R.get k i * R.get k j * D.get k) / D.get i := by
  rw [tRDRDecomposition.off_diagonal, FixedUpperTriangularMatrix.get_set_same,
    foldl_add_range (fun k => R.get k i * R.get k j * D.get k)]

theorem tRDRDecomposition.off_diagonal_ne (A R : FixedUpperTriangularMatrix F n)
    (D : FixedVector F n) {i j i' c' : Nat} (hij : i ≤ j) (hi' : i' ≤ c')
    (hne : ¬ (c' = j ∧ i' = i)) :
    (tRDRDecomposition.off_diagonal A D i R j).get i' c' = R.get i' c' :=
  FixedUpperTriangularMatrix.get_set_of_ne R _ hij hi' hne

/-- The loop over the columns right of the diagonal of the row `i`: the other
rows are unchanged and the entries done have their value. -/
theorem tRDRDecomposition.inner_loop_spec (A R : FixedUpperTriangularMatrix F n)
    (D : FixedVector F n) (i : Nat) :
    ∀ m,
      (∀ i' c', i' ≤ c' → i' ≠ i →
        ((List.range' (i + 1) m).foldl (tRDRDecomposition.off_diagonal A D i) R).get i' c' =
          R.get i' c') ∧
      (∀ j, i < j → j < i + 1 + m →
        ((List.range' (i + 1) m).foldl (tRDRDecomposition.off_diagonal A D i) R).get i j =
          (A.get i j - ∑ k in Finset.range i, R.get k i * R.get k j * D.get k) / D.get i) := by
  intro m
  induction m with
  | zero =>
    exact ⟨fun _ _ _ _ => rfl, fun j h₁ h₂ => by omega⟩
  | succ m ih =>
    obtain ⟨ih₁, ih₂⟩ := ih
    rw [List.range'_1_concat, List.foldl_append]
    simp only [List.foldl_cons, List.foldl_nil]
    generalize (List.range' (i + 1) m).foldl (tRDRDecomposition.off_diagonal A D i) R = Rm
      at ih₁ ih₂
    refine ⟨?_, ?_⟩
    · intro i' c' hi' hne
      rw [tRDRDecomposition.off_diagonal_ne A Rm D (by omega) hi' (fun h => hne h.2)]
      exact ih₁ i' c' hi' hne
    · intro j hij hj
      by_cases hjm : j = i + 1 + m
      · subst hjm
        rw [tRDRDecomposition.off_diagonal_eq]
        congr 2
        apply Finset.sum_congr rfl
        intro k hk
        have hk' := Finset.mem_range.mp hk
        rw [ih₁ k i (by omega) (by omega), ih₁ k (i + 1 + m) (by omega) (by omega)]
      · rw [tRDRDecomposition.off_diagonal_ne A Rm D (by omega) (by omega)
          (fun h => hjm h.1)]
        exact ih₂ j hij (by omega)

/-- One row of the decomposition: if the rows before `i` are done, so are the
rows up to `i` after the row `i` is computed. -/
theorem tRDRDecomposition.row_spec (A R : FixedUpperTriangularMatrix F n) (D : FixedVector F n)
    (hA : A.PositiveDefinite) {i : Nat} (hi : i < n)
    (hdone : ∀ r < i, tRDRDecomposition.RowDone A R D r) :
    ∀ r < i + 1,
      tRDRDecomposition.RowDone A (tRDRDecomposition.row A (R, D) i).1
        (tRDRDecomposition.row A (R, D) i).2 r := by
  have hpos : 0 < A.get i i - ∑ k in Finset.range i, R.get k i * R.get k i * D.get k := by
    apply tRDRDecomposition.weighted_pivot_pos A R (fun k => D.get k) hA hi
    · intro c hc
      rw [(hdone c hc).2.1]
      exact one_ne_zero
    · intro r hr c hrc hci
      exact (hdone r hr).2.2 c hrc (by omega)
  simp only [tRDRDecomposition.row]
  rw [foldl_add_range (fun k => Pow2 (R.get k i) * D.get k)]
  simp only [Pow2]
  generalize hd : A.get i i - ∑ k in Finset.range i, R.get k i * R.get k i * D.get k = d
    at hpos
  obtain ⟨h₁, h₂⟩ := tRDRDecomposition.inner_loop_spec A R (D.set i d) i (n - (i + 1))
  generalize (List.range' (i + 1) (n - (i + 1))).foldl
    (tRDRDecomposition.off_diagonal A (D.set i d) i) R = R₁ at h₁ h₂
  have hD : ∀ k, k ≠ i → (D.set i d).get k = D.get k := fun k hk =>
    FixedVector.get_set_ne D d hk
  have hDi : (D.set i d).get i = d := FixedVector.get_set_eq D i d
  have hget : ∀ i' c', i' ≤ c' → ¬ (c' = i ∧ i' = i) →
      (R₁.set i i 1).get i' c' = R₁.get i' c' := fun i' c' hi' hne =>
    FixedUpperTriangularMatrix.get_set_of_ne R₁ _ (le_refl i) hi' hne
  have hrow : ∀ k c, k < i → k ≤ c → (R₁.set i i 1).get k c = R.get k c := by
    intro k c hk hkc
    rw [hget k c hkc (fun h => by omega), h₁ k c hkc (by omega)]
  have hsum : ∀ c, i ≤ c →
      ∑ k in Finset.range i,
        (R₁.set i i 1).get k i * (R₁.set i i 1).get k c * (D.set i d).get k =
      ∑ k in Finset.range i, R.get k i * R.get k c * D.get k := by
    intro c hc
    apply Finset.sum_congr rfl
    intro k hk
    have hk' := Finset.mem_range.mp hk
    rw [hrow k i hk' (by omega), hrow k c hk' (by omega), hD k (by omega)]
  intro r hr
  by_cases hri : r = i
  · subst hri
    refine ⟨by rw [hDi]; exact hpos, FixedUpperTriangularMatrix.get_set_same R₁ r r 1, ?_⟩
    intro j hrj hj
    rw [Finset.sum_range_succ, hsum j hrj, FixedUpperTriangularMatrix.get_set_same, hDi]
    by_cases hjr : j = r
    · subst hjr
      rw [FixedUpperTriangularMatrix.get_set_same, ← hd]
      ring
    · rw [hget r j hrj (fun h => hjr h.1), h₂ j (by omega) (by omega), hDi]
      have hd0 : d ≠ 0 := ne_of_gt hpos
      have hsum' : ∑ k in Finset.range r, R.get k r * R.get k j * (D.set r d).get k =
          ∑ k in Finset.range r, R.get k r * R.get k j * D.get k := by
        apply Finset.sum_congr rfl
        intro k hk
        have hk' := Finset.mem_range.mp hk
        rw [hD k (by omega)]
      rw [hsum']
      field_simp
  · have hlt : r < i := by omega
    obtain ⟨p₁, p₂, p₃⟩ := hdone r hlt
    refine ⟨by rw [hD r hri]; exact p₁, by rw [hrow r r hlt (le_refl r)]; exact p₂, ?_⟩
    intro j hrj hj
    rw [← p₃ j hrj hj]
    apply Finset.sum_congr rfl
    intro k hk
    have hk' := Finset.mem_range.mp hk
    rw [hrow k r (by omega) (by omega), hrow k j (by omega) (by omega), hD k (by omega)]

/-- The loop over the rows: after `m` rows, the rows before `m` are done. -/
theorem tRDRDecomposition.rows_done (A R₀ : FixedUpperTriangularMatrix F n)
    (D₀ : FixedVector F n) (hA : A.PositiveDefinite) :
    ∀ m, m ≤ n → ∀ r < m,
      tRDRDecomposition.RowDone A
        ((List.range m).foldl (tRDRDecomposition.row A) (R₀, D₀)).1
        ((List.range m).foldl (tRDRDecomposition.row A) (R₀, D₀)).2 r := by
  intro m
  induction m with
  | zero => intro _ r hr; omega
  | succ m ih =>
    intro hm
    rw [List.range_succ, List.foldl_append]
    simp only [List.foldl_cons, List.foldl_nil]
    exact tRDRDecomposition.row_spec A _ _ hA (by omega) (ih (by omega))

/-- C21: for a symmetric positive definite matrix `A` given by its upper
triangle, `ᵗRDRDecomposition(A)` returns an upper triangular `R` with unit
diagonal and a vector `D`, of positive entries, such that `ᵗR diag(D) R = A`:
for all `i, j < n`, `Σ_{k < n} R(k, i) D[k] R(k, j) = A(i, j)`. -/
theorem tRDRDecomposition_correct (A R₀ : FixedUpperTriangularMatrix F n)
    (D₀ : FixedVector F n) (hA : A.PositiveDefinite) :
    (∀ i j, j < i → (tRDRDecomposition A R₀ D₀).1.entry i j = 0) ∧
    (∀ i < n, (tRDRDecomposition A R₀ D₀).1.get i i = 1) ∧
    (∀ i < n, 0 < (tRDRDecomposition A R₀ D₀).2.get i) ∧
    ∀ i < n, ∀ j < n,
      ∑ k in Finset.range n,
        (tRDRDecomposition A R₀ D₀).1.entry k i * (tRDRDecomposition A R₀ D₀).2.get k *
          (tRDRDecomposition A R₀ D₀).1.entry k j =
        A.symmetric_entry i j := by
  have hdone := tRDRDecomposition.rows_done A R₀ D₀ hA n (le_refl n)
  change ∀ r < n, tRDRDecomposition.RowDone A (tRDRDecomposition A R₀ D₀).1
    (tRDRDecomposition A R₀ D₀).2 r at hdone
  generalize tRDRDecomposition A R₀ D₀ = result at hdone
  obtain ⟨R, D⟩ := result
  simp only at hdone ⊢
  refine ⟨?_, fun i hi => (hdone i hi).2.1, fun i hi => (hdone i hi).1, ?_⟩
  · intro i j hji
    have : ¬ i ≤ j := by omega
    simp [FixedUpperTriangularMatrix.entry, this]
  · intro i hi j hj
    have hcomm : ∀ a b, ∑ k in Finset.range n, R.entry k a * D.get k * R.entry k b =
        ∑ k in Finset.range n, R.entry k a * R.entry k b * D.get k := fun a b =>
      Finset.sum_congr rfl fun k _ => by ring
    have hswap : ∀ a b, ∑ k in Finset.range n, R.entry k a * D.get k * R.entry k b =
        ∑ k in Finset.range n, R.entry k b * R.entry k a * D.get k := fun a b =>
      Finset.sum_congr rfl fun k _ => by ring
    by_cases hij : i ≤ j
    · rw [hcomm, FixedUpperTriangularMatrix.sum_entry_mul_entry_mul R (fun k => D.get k) hi hij,
        (hdone i hi).2.2 j hij hj]
      simp [FixedUpperTriangularMatrix.symmetric_entry, hij]
    · have hji : j ≤ i := by omega
      rw [hswap, FixedUpperTriangularMatrix.sum_entry_mul_entry_mul R (fun k => D.get k) hj hji,
        (hdone j hj).2.2 i hji hi]
      simp [FixedUpperTriangularMatrix.symmetric_entry, hij]

end tRDRLoops

section tRDRUnique

variable {F : Type} [LinearOrderedField F] {n : Nat}

/-- The decomposition is unique: two pairs `(R, D)` whose rows are all done for
`A` have the same entries. -/
theorem tRDRDecomposition.unique_factors (A R R' : FixedUpperTriangularMatrix F n)
    (D D' : FixedVector F n)
    (h : ∀ r < n, tRDRDecomposition.RowDone A R D r)
    (h' : ∀ r < n, tRDRDecomposition.RowDone A R' D' r) :
    ∀ i, i < n → D.get i = D'.get i ∧ ∀ j, i ≤ j → j < n → R.get i j = R'.get i j := by
  intro i
  induction i using Nat.strong_induction_on with
  | _ i ih =>
    intro hi
    have hsum : ∀ j, i ≤ j → j < n →
        ∑ k in Finset.range i, R.get k i * R.get k j * D.get k =
          ∑ k in Finset.range i, R'.get k i * R'.get k j * D'.get k := by
      intro j hij hj
      apply Finset.sum_congr rfl
      intro k hk
      have hk' := Finset.mem_range.mp hk
      obtain ⟨e₁, e₂⟩ := ih k hk' (by omega)
      rw [e₁, e₂ i (by omega) hi, e₂ j (by omega) hj]
    obtain ⟨p, u, e⟩ := h i hi
    obtain ⟨p', u', e'⟩ := h' i hi
    have hD : D.get i = D'.get i := by
      have q := e i (le_refl i) hi
      have q' := e' i (le_refl i) hi
      rw [Finset.sum_range_succ, hsum i (le_refl i) hi, u] at q
      rw [Finset.sum_range_succ, u'] at q'
      linear_combination q - q'
    refine ⟨hD, ?_⟩
    intro j hij hj
    by_cases hji : j = i
    · subst hji
      rw [u, u']
    · have q := e j hij hj
      have q' := e' j hij hj
      rw [Finset.sum_range_succ, hsum j hij hj, u] at q
      rw [Finset.sum_range_succ, u', ← hD] at q'
      have hne : D.get i ≠ 0 := ne_of_gt p
      have hmul : R.get i j * D.get i = R'.get i j * D.get i := by
        linear_combination q - q'
      exact mul_right_cancel₀ hne hmul

end tRDRUnique

/-! ## The test `ᵗRDRDecomposition` of `matrix_computations_test.cpp` -/

/-- The entries of the matrix `r4_expected` of the test `ᵗRDRDecomposition`. -/
theorem MatrixComputationsTest.tRDRDecomposition.unit_r4_expected_get :
    (MatrixComputationsTest.tRDRDecomposition.r4_expected :
      FixedUpperTriangularMatrix ℝ 4).get 0 0 = 1 ∧
    (MatrixComputationsTest.tRDRDecomposition.r4_expected :
      FixedUpperTriangularMatrix ℝ 4).get 0 1 = 1 / 2 ∧
    (MatrixComputationsTest.tRDRDecomposition.r4_expected :
      FixedUpperTriangularMatrix ℝ 4).get 0 2 = 1 / 3 ∧
    (MatrixComputationsTest.tRDRDecomposition.r4_expected :
      FixedUpperTriangularMatrix ℝ 4).get 0 3 = 1 / 4 ∧
    (MatrixComputationsTest.tRDRDecomposition.r4_expected :
      FixedUpperTriangularMatrix ℝ 4).get 1 1 = 1 ∧
    (MatrixComputationsTest.tRDRDecomposition.r4_expected :
      FixedUpperTriangularMatrix ℝ 4).get 1 2 = 1 ∧
    (MatrixComputationsTest.tRDRDecomposition.r4_expected :
      FixedUpperTriangularMatrix ℝ 4).get 1 3 = 9 / 10 ∧
    (MatrixComputationsTest.tRDRDecomposition.r4_expected :
      FixedUpperTriangularMatrix ℝ 4).get 2 2 = 1 ∧
    (MatrixComputationsTest.tRDRDecomposition.r4_expected :
      FixedUpperTriangularMatrix ℝ 4).get 2 3 = 3 / 2 ∧
    (MatrixComputationsTest.tRDRDecomposition.r4_expected :
      FixedUpperTriangularMatrix ℝ 4).get 3 3 = 1 := by
  simp [MatrixComputationsTest.tRDRDecomposition.r4_expected,
    FixedUpperTriangularMatrix.ofData_get_rowOffset, rowOffset, arrayOfList]

/-- The entries of the vector `d4_expected` of the test `ᵗRDRDecomposition`. -/
theorem MatrixComputationsTest.tRDRDecomposition.d4_expected_get :
    (MatrixComputationsTest.tRDRDecomposition.d4_expected : FixedVector ℝ 4).get 0 = 1 ∧
    (MatrixComputationsTest.tRDRDecomposition.d4_expected : FixedVector ℝ 4).get 1 = 1 / 12 ∧
    (MatrixComputationsTest.tRDRDecomposition.d4_expected : FixedVector ℝ 4).get 2 = 1 / 180 ∧
    (MatrixComputationsTest.tRDRDecomposition.d4_expected : FixedVector ℝ 4).get 3 =
      1 / 2800 := by
  simp [MatrixComputationsTest.tRDRDecomposition.d4_expected, FixedVector.ofData,
    FixedVector.get, arrayOfList]

/-- The pair `(r4_expected, d4_expected)` is a decomposition of `hilbert4`. -/
theorem MatrixComputationsTest.tRDRDecomposition.expected_RowDone :
    ∀ r < 4, tRDRDecomposition.RowDone
      (MatrixComputationsTest.hilbert4 : FixedUpperTriangularMatrix ℝ 4)
      MatrixComputationsTest.tRDRDecomposition.r4_expected
      MatrixComputationsTest.tRDRDecomposition.d4_expected r := by
  obtain ⟨h00, h01, h02, h03, h11, h12, h13, h22, h23, h33⟩ :=
    MatrixComputationsTest.hilbert4_get
  obtain ⟨r00, r01, r02, r03, r11, r12, r13, r22, r23, r33⟩ :=
    MatrixComputationsTest.tRDRDecomposition.unit_r4_expected_get
  obtain ⟨d0, d1, d2, d3⟩ := MatrixComputationsTest.tRDRDecomposition.d4_expected_get
  intro r hr
  interval_cases r
  · refine ⟨by rw [d0]; norm_num, r00, ?_⟩
    intro j hj₁ hj₂
    interval_cases j <;>
      simp only [Finset.sum_range_succ, Finset.sum_range_zero, zero_add, r00, r01, r02, r03,
        d0, h00, h01, h02, h03] <;> norm_num
  · refine ⟨by rw [d1]; norm_num, r11, ?_⟩
    intro j hj₁ hj₂
    interval_cases j <;>
      simp only [Finset.sum_range_succ, Finset.sum_range_zero, zero_add, r01, r02, r03, r11,
        r12, r13, d0, d1, h11, h12, h13] <;> norm_num
  · refine ⟨by rw [d2]; norm_num, r22, ?_⟩
    intro j hj₁ hj₂
    interval_cases j <;>
      simp only [Finset.sum_range_succ, Finset.sum_range_zero, zero_add, r02, r03, r12, r13,
        r22, r23, d0, d1, d2, h22, h23] <;> norm_num
  · refine ⟨by rw [d3]; norm_num, r33, ?_⟩
    intro j hj₁ hj₂
    interval_cases j
    simp only [Finset.sum_range_succ, Finset.sum_range_zero, zero_add, r03, r13, r23, r33,
      d0, d1, d2, d3, h33]
    norm_num

/-- The test `ᵗRDRDecomposition` (matrix_computations_test.cpp, lines 52-70),
over the real numbers: the decomposition computed for `hilbert4` is
`(r4_expected, d4_expected)`. -/
theorem MatrixComputationsTest.tRDRDecomposition.r4_d4_actual
    (R₀ : FixedUpperTriangularMatrix ℝ 4) (D₀ : FixedVector ℝ 4) :
    ∀ i, i < 4 →
      (tRDRDecomposition MatrixComputationsTest.hilbert4 R₀ D₀).2.get i =
        (MatrixComputationsTest.tRDRDecomposition.d4_expected : FixedVector ℝ 4).get i ∧
      ∀ j, i ≤ j → j < 4 →
        (tRDRDecomposition MatrixComputationsTest.hilbert4 R₀ D₀).1.get i j =
          (MatrixComputationsTest.tRDRDecomposition.r4_expected :
            FixedUpperTriangularMatrix ℝ 4).get i j :=
  tRDRDecomposition.unique_factors MatrixComputationsTest.hilbert4 _ _ _ _
    (tRDRDecomposition.rows_done MatrixComputationsTest.hilbert4 R₀ D₀
      MatrixComputationsTest.hilbert4_PositiveDefinite 4 (le_refl 4))
    MatrixComputationsTest.tRDRDecomposition.expected_RowDone

/-- Witness for C21: the matrix `hilbert4` of the test, over the real numbers:
the decomposition has a unit diagonal and positive weights, its product is
`hilbert4`, and its entries are those of `d4_expected` and `r4_expected`. -/
theorem tRDRDecomposition_correct_witness :
    (MatrixComputationsTest.hilbert4 : FixedUpperTriangularMatrix ℝ 4).PositiveDefinite ∧
    ((∀ i < 4,
      (tRDRDecomposition MatrixComputationsTest.hilbert4 ⟨fun _ => 0⟩ ⟨fun _ => 0⟩).1.get i i =
        (1 : ℝ)) ∧
    ∀ i < 4, ∀ j < 4,
      ∑ k in Finset.range 4,
        (tRDRDecomposition MatrixComputationsTest.hilbert4 ⟨fun _ => 0⟩
            ⟨fun _ => 0⟩).1.entry k i *
          (tRDRDecomposition MatrixComputationsTest.hilbert4 ⟨fun _ => 0⟩
            ⟨fun _ => 0⟩).2.get k *
          (tRDRDecomposition MatrixComputationsTest.hilbert4 ⟨fun _ => 0⟩
            ⟨fun _ => 0⟩).1.entry k j =
        (MatrixComputationsTest.hilbert4 : FixedUpperTriangularMatrix ℝ 4).symmetric_entry
          i j) ∧
    (∀ i, i < 4 →
      (tRDRDecomposition MatrixComputationsTest.hilbert4 ⟨fun _ => 0⟩ ⟨fun _ => 0⟩).2.get i =
        (MatrixComputationsTest.tRDRDecomposition.d4_expected : FixedVector ℝ 4).get i ∧
      ∀ j, i ≤ j → j < 4 →
        (tRDRDecomposition MatrixComputationsTest.hilbert4 ⟨fun _ => 0⟩ ⟨fun _ => 0⟩).1.get
            i j =
          (MatrixComputationsTest.tRDRDecomposition.r4_expected :
            FixedUpperTriangularMatrix ℝ 4).get i j) :=
  ⟨MatrixComputationsTest.hilbert4_PositiveDefinite,
   ⟨(tRDRDecomposition_correct MatrixComputationsTest.hilbert4 ⟨fun _ => 0⟩ ⟨fun _ => 0⟩
      MatrixComputationsTest.hilbert4_PositiveDefinite).2.1,
    (tRDRDecomposition_correct MatrixComputationsTest.hilbert4 ⟨fun _ => 0⟩ ⟨fun _ => 0⟩
      MatrixComputationsTest.hilbert4_PositiveDefinite).2.2.2⟩,
   MatrixComputationsTest.tRDRDecomposition.r4_d4_actual ⟨fun _ => 0⟩ ⟨fun _ => 0⟩⟩

/-! ## Theorems: the dot product -/

/-- The rule of the loop invariant: if `P 0` holds of the initial state and every
iteration `i < n` succeeds from a state where `P i` holds and leads to a state
where `P (i + 1)` holds, the loop succeeds and `P n` holds of its final state. -/
theorem foldlM_range_invariant {β : Type} (f : β → Nat → Option β) (P : Nat → β → Prop) :
    ∀ (n : Nat) (b₀ : β), P 0 b₀ →
      (∀ i < n, ∀ b, P i b → ∃ b', f b i = some b' ∧ P (i + 1) b') →
      ∃ b, (List.range n).foldlM f b₀ = some b ∧ P n b := by
  intro n
  induction n with
  | zero => intro b₀ h₀ _; exact ⟨b₀, rfl, h₀⟩
  | succ n ih =>
    intro b₀ h₀ hstep
    obtain ⟨b, hb, hP⟩ := ih b₀ h₀ fun i hi => hstep i (by omega)
    obtain ⟨b', hb', hP'⟩ := hstep n (by omega) b hP
    refine ⟨b', ?_, hP'⟩
    rw [List.range_succ, List.foldlM_append, hb]
    simp [hb']

section DotProductSum

variable {S : Type} [Field S]

/-- The recursion of `DotProduct` from the index `k ≥ 0` down, with enough fuel
and every read inside its array, is the sum of the products up to `k`. -/
theorem DotProduct.Compute_eq_sum (left right : Int → Option S) (l r : Nat → S) :
    ∀ (k fuel : Nat), k < fuel → (∀ j ≤ k, left (j : Int) = some (l j)) →
      (∀ j ≤ k, right (j : Int) = some (r j)) →
      DotProduct.Compute left right fuel (k : Int) =
        some (∑ j in Finset.range (k + 1), l j * r j) := by
  intro k
  induction k with
  | zero =>
    intro fuel hfuel hl hr
    obtain ⟨fuel, rfl⟩ : ∃ f, fuel = f + 1 := ⟨fuel - 1, by omega⟩
    have hl₀ := hl 0 (le_refl 0)
    have hr₀ := hr 0 (le_refl 0)
    simp only [Nat.cast_zero] at hl₀ hr₀
    simp [DotProduct.Compute, hl₀, hr₀]
  | succ k ih =>
    intro fuel hfuel hl hr
    obtain ⟨fuel, rfl⟩ : ∃ f, fuel = f + 1 := ⟨fuel - 1, by omega⟩
    have hne : ((k + 1 : Nat) : Int) ≠ 0 := by omega
    have hpred : ((k + 1 : Nat) : Int) - 1 = (k : Int) := by omega
    rw [DotProduct.Compute, if_neg hne, hpred, hl (k + 1) (le_refl _), hr (k + 1) (le_refl _),
      ih fuel (by omega) (fun j hj => hl j (by omega)) (fun j hj => hr j (by omega)),
      Finset.sum_range_succ _ (k + 1)]
    simp only [Option.some_bind, Option.some.injEq]
    ring

/-- From a negative index the recursion of `DotProduct` never reaches the
specialization for the index 0: no amount of fuel gives a result. -/
theorem DotProduct.Compute_neg (left right : Int → Option S) :
    ∀ (fuel : Nat) (i : Int), i < 0 → DotProduct.Compute left right fuel i = none := by
  intro fuel
  induction fuel with
  | zero => intro i _; rfl
  | succ fuel ih =>
    intro i hi
    have hne : i ≠ 0 := by omega
    rw [DotProduct.Compute, if_neg hne, ih (i - 1) (by omega)]
    cases left i <;> cases right i <;> rfl

theorem arrayView_of_lt {α : Type} (size : Nat) (data : Nat → α) {j : Nat} (hj : j < size) :
    arrayView size data (j : Int) = some (data j) := by
  have h : (0 : Int) ≤ (j : Int) ∧ (j : Int) < (size : Int) := ⟨by omega, by omega⟩
  simp [arrayView, h]

/-- The dot product of two arrays of the same positive size. -/
theorem DotProduct_arrayView (size : Nat) (hsize : 0 < size) (left right : Nat → S) :
    DotProduct size (arrayView size left) (arrayView size right) =
      some (∑ k in Finset.range size, left k * right k) := by
  obtain ⟨k, rfl⟩ : ∃ k, size = k + 1 := ⟨size - 1, by omega⟩
  have hcast : (((k + 1 : Nat) : Int) - 1) = (k : Int) := by omega
  rw [DotProduct, hcast]
  exact DotProduct.Compute_eq_sum _ _ left right k (k + 1) (by omega)
    (fun j hj => arrayView_of_lt _ _ (by omega)) (fun j hj => arrayView_of_lt _ _ (by omega))

/-- For the size 0 the default index is `-1` and the dot product has no
result, whatever the fuel. -/
theorem DotProduct.Compute_size_zero (left right : Int → Option S) (fuel : Nat) :
    DotProduct.Compute left right fuel (((0 : Nat) : Int) - 1) = none :=
  DotProduct.Compute_neg left right fuel _ (by omega)

/-- More fuel than the size does not change the dot product. -/
theorem DotProduct.Compute_fuel (size : Nat) (hsize : 0 < size) (left right : Nat → S)
    (fuel : Nat) (hfuel : size ≤ fuel) :
    DotProduct.Compute (arrayView size left) (arrayView size right) fuel ((size : Int) - 1) =
      DotProduct size (arrayView size left) (arrayView size right) := by
  rw [DotProduct_arrayView size hsize]
  obtain ⟨k, rfl⟩ : ∃ k, size = k + 1 := ⟨size - 1, by omega⟩
  have hcast : (((k + 1 : Nat) : Int) - 1) = (k : Int) := by omega
  rw [hcast]
  exact DotProduct.Compute_eq_sum _ _ left right k fuel (by omega)
    (fun j hj => arrayView_of_lt _ _ (by omega)) (fun j hj => arrayView_of_lt _ _ (by omega))

end DotProductSum

section DotProductOrdered

variable {F : Type} [LinearOrderedField F]

/-- C34: for every size at least 1, `DotProduct<..., size>::Compute(left, right)`
returns the sum of `left[k] * right[k]` over `k < size`, with any fuel from
`size` on; hence `InnerProduct` is symmetric, and `Norm²` is `InnerProduct(v, v)`,
is nonnegative and is zero only for the zero vector. -/
theorem DotProduct_Compute_eq_sum_of_products (size : Nat) (hsize : 1 ≤ size)
    (left right : FixedVector F size) :
    DotProduct size (arrayView size left.data_) (arrayView size right.data_) =
      some (∑ k in Finset.range size, left.get k * right.get k) ∧
    (∀ fuel, size ≤ fuel →
      DotProduct.Compute (arrayView size left.data_) (arrayView size right.data_) fuel
          ((size : Int) - 1) =
        some (∑ k in Finset.range size, left.get k * right.get k)) ∧
    left.InnerProduct right = some (∑ k in Finset.range size, left.get k * right.get k) ∧
    left.InnerProduct right = right.InnerProduct left ∧
    left.Norm2 = left.InnerProduct left ∧
    ∃ norm2, left.Norm2 = some norm2 ∧ 0 ≤ norm2 ∧
      (norm2 = 0 ↔ ∀ k < size, left.get k = 0) := by
  have h := DotProduct_arrayView size hsize left.data_ right.data_
  refine ⟨h, ?_, h, ?_, rfl, ⟨_, DotProduct_arrayView size hsize left.data_ left.data_, ?_, ?_⟩⟩
  · intro fuel hfuel
    rw [DotProduct.Compute_fuel size hsize _ _ fuel hfuel]
    exact h
  · rw [FixedVector.InnerProduct, FixedVector.InnerProduct, h,
      DotProduct_arrayView size hsize right.data_ left.data_]
    congr 1
    exact Finset.sum_congr rfl fun k _ => mul_comm _ _
  · exact Finset.sum_nonneg fun k _ => mul_self_nonneg _
  · rw [Finset.sum_eq_zero_iff_of_nonneg fun k _ => mul_self_nonneg _]
    constructor
    · intro h₀ k hk
      exact mul_self_eq_zero.mp (h₀ k (Finset.mem_range.mpr hk))
    · intro h₀ k hk
      have := h₀ k (Finset.mem_range.mp hk)
      simp only [FixedVector.get] at this
      rw [this, mul_zero]

end DotProductOrdered

/-- Witness for C34: the dot product of `(1, 2, 3)` and `(4, 5, 6)`, over the
rationals, is 32. -/
theorem DotProduct_Compute_eq_sum_of_products_witness :
    1 ≤ 3 ∧
    DotProduct 3 (arrayView 3 (sampleLeft : FixedVector ℚ 3).data_)
      (arrayView 3 (sampleRight : FixedVector ℚ 3).data_) = some 32 :=
  ⟨by decide,
    (DotProduct_Compute_eq_sum_of_products 3 (by decide) (sampleLeft : FixedVector ℚ 3)
      sampleRight).1.trans (by
        simp only [Finset.sum_range_succ, Finset.sum_range_zero, zero_add, sampleLeft,
          sampleRight, FixedVector.ofData, FixedVector.get, arrayOfList]
        norm_num)⟩

/-! ## Theorems: the product of a matrix and a vector -/

section MatrixVector

variable {S : Type} [Field S] {rows columns : Nat}

/-- The index of an entry in the flat storage is inside the storage. -/
theorem FixedMatrix.flat_index_lt {i j : Nat} (hi : i < rows) (hj : j < columns) :
    i * columns + j < rows * columns := by
  have h : (i + 1) * columns ≤ rows * columns := Nat.mul_le_mul_right columns hi
  rw [Nat.add_mul, Nat.one_mul] at h
  omega

theorem FixedMatrix.get_eq_some {α : Type} (m : FixedMatrix α rows columns) {i j : Nat}
    (hi : i < rows) (hj : j < columns) : m.get i j = some (m.entry i j) := by
  simp [FixedMatrix.get, FixedMatrix.entry, hi, hj]

/-- The pointer to the row `i` reads the entries of the row `i`. -/
theorem pointerView_row {α : Type} (M : FixedMatrix α rows columns) {i j : Nat} (hi : i < rows)
    (hj : j < columns) :
    pointerView (rows * columns) M.data_ (i * columns) (j : Int) = some (M.entry i j) := by
  have hlt := FixedMatrix.flat_index_lt hi hj
  have h : (0 : Int) ≤ ((i * columns : Nat) : Int) + (j : Int) ∧
      ((i * columns : Nat) : Int) + (j : Int) < ((rows * columns : Nat) : Int) :=
    ⟨by omega, by omega⟩
  have e : (((i * columns : Nat) : Int) + (j : Int)).toNat = i * columns + j := by omega
  simp only [pointerView, h, and_self, if_true, e, FixedMatrix.entry]

/-- The dot product of the row `i` of a matrix, read through the pointer to the
row, and of a vector. -/
theorem DotProduct_pointerView (M : FixedMatrix S rows columns) (v : FixedVector S columns)
    (hcolumns : 0 < columns) {i : Nat} (hi : i < rows) :
    DotProduct columns (pointerView (rows * columns) M.data_ (i * columns))
        (arrayView columns v.data_) =
      some (∑ j in Finset.range columns, M.entry i j * v.get j) := by
  obtain ⟨k, rfl⟩ : ∃ k, columns = k + 1 := ⟨columns - 1, by omega⟩
  have hcast : (((k + 1 : Nat) : Int) - 1) = (k : Int) := by omega
  rw [DotProduct, hcast]
  exact DotProduct.Compute_eq_sum _ _ (fun j => M.entry i j) v.data_ k (k + 1) (by omega)
    (fun j hj => pointerView_row M hi (by omega)) (fun j hj => arrayView_of_lt _ _ (by omega))

/-- The loop of `operator*(FixedMatrix, FixedVector)`: after `m` rows the pointer
is at the row `m` and the entries of the result before `m` are the dot
products. -/
theorem FixedMatrix.mulVec_loop (M : FixedMatrix S rows columns) (v : FixedVector S columns)
    (result₀ : Nat → S) (hcolumns : 0 < columns) :
    ∃ state : (Nat → S) × Nat,
      (List.range rows).foldlM
        (fun (state : (Nat → S) × Nat) i =>
          (DotProduct columns (pointerView (rows * columns) M.data_ state.2)
            (arrayView columns v.data_)).bind fun value =>
              some (Function.update state.1 i value, state.2 + columns))
        (result₀, 0) = some state ∧
      (state.2 = rows * columns ∧
        ∀ i < rows, state.1 i = ∑ j in Finset.range columns, M.entry i j * v.get j) := by
  have h := foldlM_range_invariant
    (fun (state : (Nat → S) × Nat) i =>
      (DotProduct columns (pointerView (rows * columns) M.data_ state.2)
        (arrayView columns v.data_)).bind fun value =>
          some (Function.update state.1 i value, state.2 + columns))
    (fun m state => m ≤ rows → (state.2 = m * columns ∧
      ∀ i < m, state.1 i = ∑ j in Finset.range columns, M.entry i j * v.get j))
    rows (result₀, 0) (fun _ => ⟨by simp, fun i hi => by omega⟩) ?_
  · obtain ⟨state, h₁, h₂⟩ := h
    exact ⟨state, h₁, h₂ (le_refl rows)⟩
  · intro i hi state hP
    obtain ⟨hoff, hres⟩ := hP (by omega)
    refine ⟨(Function.update state.1 i (∑ j in Finset.range columns, M.entry i j * v.get j),
      state.2 + columns), ?_, fun _ => ⟨?_, ?_⟩⟩
    · beta_reduce
      rw [hoff, DotProduct_pointerView M v hcolumns hi]
      rfl
    · simp only [hoff]
      ring
    · intro k hk
      by_cases hki : k = i
      · subst hki
        simp
      · simp only [Function.update_noteq hki]
        exact hres k (by omega)

/-- The product of a matrix with at least one column and a vector has a result,
whose entries are the dot products of the rows and the vector. -/
theorem FixedMatrix.mulVec_spec (M : FixedMatrix S rows columns) (v : FixedVector S columns)
    (result₀ : Nat → S) (hcolumns : 0 < columns) :
    ∃ product : FixedVector S rows, M.mulVec v result₀ = some product ∧
      ∀ i < rows, product.get i = ∑ j in Finset.range columns, M.entry i j * v.get j := by
  obtain ⟨state, h₁, -, h₂⟩ := FixedMatrix.mulVec_loop M v result₀ hcolumns
  refine ⟨FixedVector.ofData rows state.1, ?_, h₂⟩
  rw [FixedMatrix.mulVec, h₁]
  rfl

/-- C31: for a matrix with at least one column, `M * v`, computed by walking the
pointer `row` through the flat storage of `M`, has a result, that is every read
is inside the storage, and its entry `i` is the sum of `M(i, j) * v[j]` over
`j < columns`, for every `i < rows`. -/
theorem FixedMatrix.mulVec_eq_sum (M : FixedMatrix S rows columns) (v : FixedVector S columns)
    (result₀ : Nat → S) (hcolumns : 0 < columns) :
    ∃ product : FixedVector S rows, M.mulVec v result₀ = some product ∧
      (∀ i < rows, product.get i = ∑ j in Finset.range columns, M.entry i j * v.get j) ∧
      (∀ i < rows, ∀ j < columns,
        M.get i j = some (M.entry i j) ∧
        pointerView (rows * columns) M.data_ (i * columns) (j : Int) = some (M.entry i j) ∧
        i * columns + j < rows * columns) := by
  obtain ⟨product, h₁, h₂⟩ := FixedMatrix.mulVec_spec M v result₀ hcolumns
  exact ⟨product, h₁, h₂, fun i hi j hj =>
    ⟨FixedMatrix.get_eq_some M hi hj, pointerView_row M hi hj, FixedMatrix.flat_index_lt hi hj⟩⟩

end MatrixVector

/-- Witness for C31: over the rationals, the matrix of the rows `(1, 2, 3)` and
`(4, 5, 6)` times the vector `(4, 5, 6)` is `(32, 77)`. -/
theorem FixedMatrix.mulVec_eq_sum_witness :
    0 < 3 ∧
    ∃ product : FixedVector ℚ 2,
      (sampleMatrix : FixedMatrix ℚ 2 3).mulVec sampleRight (fun _ => 0) = some product ∧
      product.get 0 = 32 ∧ product.get 1 = 77 := by
  refine ⟨by decide, ?_⟩
  obtain ⟨product, h₁, h₂, -⟩ :=
    FixedMatrix.mulVec_eq_sum (sampleMatrix : FixedMatrix ℚ 2 3) sampleRight (fun _ => 0)
      (by decide)
  refine ⟨product, h₁, (h₂ 0 (by decide)).trans ?_, (h₂ 1 (by decide)).trans ?_⟩ <;>
    simp only [Finset.sum_range_succ, Finset.sum_range_zero, zero_add, sampleMatrix,
      sampleRight, FixedVector.ofData, FixedVector.get, FixedMatrix.entry, arrayOfList] <;>
    norm_num

/-! ## Theorems: the product of matrices -/

section MatrixEntries

variable {α : Type} {rows columns : Nat}

theorem FixedMatrix.set_eq_some (m : FixedMatrix α rows columns) {i j : Nat} (hi : i < rows)
    (hj : j < columns) (value : α) :
    m.set i j value = some ⟨Function.update m.data_ (i * columns + j) value⟩ := by
  simp [FixedMatrix.set, hi, hj]

/-- Two matrices with the same entries and the same value outside the storage
are equal. -/
theorem FixedMatrix.eq_of_entries (X Y : FixedMatrix α rows columns) (z : α)
    (h : ∀ a < rows, ∀ b < columns, X.entry a b = Y.entry a b)
    (hX : ∀ index, (∀ a < rows, ∀ b < columns, index ≠ a * columns + b) → X.data_ index = z)
    (hY : ∀ index, (∀ a < rows, ∀ b < columns, index ≠ a * columns + b) → Y.data_ index = z) :
    X = Y := by
  obtain ⟨x⟩ := X
  obtain ⟨y⟩ := Y
  congr 1
  funext index
  by_cases hin : ∃ a < rows, ∃ b < columns, index = a * columns + b
  · obtain ⟨a, ha, b, hb, rfl⟩ := hin
    exact h a ha b hb
  · have hout : ∀ a < rows, ∀ b < columns, index ≠ a * columns + b :=
      fun a ha b hb e => hin ⟨a, ha, b, hb, e⟩
    exact (hX index hout).trans (hY index hout).symm

end MatrixEntries

section MatrixProduct

variable {S : Type} [Field S] {r d c e : Nat}

/-- The innermost loop of the product, for the entry `(i, j)`: only the element
of the entry is written, and it receives the sum of the products. -/
theorem FixedMatrix.mul_inner (A : FixedMatrix S r d) (B : FixedMatrix S d c) {i j : Nat}
    (hi : i < r) (hj : j < c) (m : FixedMatrix S r c) :
    ∃ m' : FixedMatrix S r c,
      (List.range d).foldlM (fun result k =>
        (A.get i k).bind fun l => (B.get k j).bind fun r =>
          (result.get i j).bind fun sum => result.set i j (sum + l * r)) m = some m' ∧
      (m'.data_ (i * c + j) =
          m.data_ (i * c + j) + ∑ k in Finset.range d, A.entry i k * B.entry k j ∧
        ∀ index, index ≠ i * c + j → m'.data_ index = m.data_ index) := by
  refine foldlM_range_invariant _
    (fun n (m' : FixedMatrix S r c) => n ≤ d →
      (m'.data_ (i * c + j) =
          m.data_ (i * c + j) + ∑ k in Finset.range n, A.entry i k * B.entry k j ∧
        ∀ index, index ≠ i * c + j → m'.data_ index = m.data_ index))
    d m (fun _ => ⟨by simp, fun _ _ => rfl⟩) ?_ |>.imp fun m' h => ⟨h.1, h.2 (le_refl d)⟩
  intro k hk m' hP
  obtain ⟨h₁, h₂⟩ := hP (by omega)
  refine ⟨⟨Function.update m'.data_ (i * c + j)
    (m'.entry i j + A.entry i k * B.entry k j)⟩, ?_, fun _ => ⟨?_, ?_⟩⟩
  · simp only [FixedMatrix.get_eq_some A hi hk, FixedMatrix.get_eq_some B hk hj,
      FixedMatrix.get_eq_some m' hi hj, Option.some_bind, FixedMatrix.set_eq_some m' hi hj]
  · simp only [Function.update_same, FixedMatrix.entry, h₁, Finset.sum_range_succ]
    ring
  · intro index hne
    simp only [Function.update_noteq hne]
    exact h₂ index hne

/-- The loop over the columns of the product, for the row `i`. -/
theorem FixedMatrix.mul_middle (A : FixedMatrix S r d) (B : FixedMatrix S d c) {i : Nat}
    (hi : i < r) (m : FixedMatrix S r c) :
    ∃ m' : FixedMatrix S r c,
      (List.range c).foldlM (fun result j =>
        (List.range d).foldlM (fun result k =>
          (A.get i k).bind fun l => (B.get k j).bind fun r =>
            (result.get i j).bind fun sum => result.set i j (sum + l * r)) result) m =
        some m' ∧
      ((∀ b < c, m'.data_ (i * c + b) =
          m.data_ (i * c + b) + ∑ k in Finset.range d, A.entry i k * B.entry k b) ∧
        ∀ index, (∀ b < c, index ≠ i * c + b) → m'.data_ index = m.data_ index) := by
  refine foldlM_range_invariant _
    (fun n (m' : FixedMatrix S r c) => n ≤ c →
      ((∀ b < n, m'.data_ (i * c + b) =
          m.data_ (i * c + b) + ∑ k in Finset.range d, A.entry i k * B.entry k b) ∧
        ∀ index, (∀ b < n, index ≠ i * c + b) → m'.data_ index = m.data_ index))
    c m (fun _ => ⟨fun b hb => by omega, fun _ _ => rfl⟩) ?_ |>.imp
      fun m' h => ⟨h.1, h.2 (le_refl c)⟩
  intro j hj m' hP
  obtain ⟨h₁, h₂⟩ := hP (by omega)
  obtain ⟨m'', e₀, e₁, e₂⟩ := FixedMatrix.mul_inner A B hi hj m'
  refine ⟨m'', e₀, fun _ => ⟨?_, ?_⟩⟩
  · intro b hb
    by_cases hbj : b = j
    · subst hbj
      rw [e₁, h₂ (i * c + b) fun b' hb' => by omega]
    · rw [e₂ (i * c + b) (by omega)]
      exact h₁ b (by omega)
  · intro index hne
    rw [e₂ index (hne j (by omega))]
    exact h₂ index fun b hb => hne b (by omega)

/-- The product of two matrices: it has a result, whose entries are the sums of
the products and whose elements outside the storage are zero. -/
theorem FixedMatrix.mul_spec (A : FixedMatrix S r d) (B : FixedMatrix S d c) :
    ∃ P : FixedMatrix S r c, A.mul B = some P ∧
      ((∀ a < r, ∀ b < c, P.entry a b = ∑ k in Finset.range d, A.entry a k * B.entry k b) ∧
        ∀ index, (∀ a < r, ∀ b < c, index ≠ a * c + b) → P.data_ index = 0) := by
  refine foldlM_range_invariant _
    (fun n (m : FixedMatrix S r c) => n ≤ r →
      ((∀ a < n, ∀ b < c, m.entry a b = ∑ k in Finset.range d, A.entry a k * B.entry k b) ∧
        ∀ index, (∀ a < n, ∀ b < c, index ≠ a * c + b) → m.data_ index = 0))
    r ⟨fun _ => 0⟩ (fun _ => ⟨fun a ha => by omega, fun _ _ => rfl⟩) ?_ |>.imp
      fun P h => ⟨h.1, h.2 (le_refl r)⟩
  intro i hi m hP
  obtain ⟨h₁, h₂⟩ := hP (by omega)
  obtain ⟨m', e₀, e₁, e₂⟩ := FixedMatrix.mul_middle A B hi m
  refine ⟨m', e₀, fun _ => ⟨?_, ?_⟩⟩
  · intro a ha b hb
    by_cases hai : a = i
    · subst hai
      rw [FixedMatrix.entry, e₁ b hb, h₂ (a * c + b) fun a' ha' b' hb' e =>
        absurd (FixedMatrix.flat_index_injective hb hb' e).1 (by omega), zero_add]
    · rw [FixedMatrix.entry, e₂ (a * c + b) fun b' hb' e =>
        hai (FixedMatrix.flat_index_injective hb hb' e).1]
      exact h₁ a (by omega) b hb
  · intro index hne
    rw [e₂ index fun b hb => hne i (by omega) b hb]
    exact h₂ index fun a ha b hb => hne a (by omega) b hb

/-- C32: the product `A * B` has the entries `Σ_k A(i, k) B(k, j)`; the product
is associative, `(A * B) * C = A * (B * C)`; and it is compatible with the
product by a vector, `(A * B) * v = A * (B * v)`, the dimensions that a dot
product runs over being positive. -/
theorem FixedMatrix.mul_eq_sum_and_assoc (A : FixedMatrix S r d) (B : FixedMatrix S d c)
    (C : FixedMatrix S c e) (v : FixedVector S c) (x₀ y₀ z₀ : Nat → S) :
    (∃ P : FixedMatrix S r c, A.mul B = some P ∧
      ∀ i < r, ∀ j < c,
        P.get i j = some (∑ k in Finset.range d, A.entry i k * B.entry k j)) ∧
    (∃ X : FixedMatrix S r e,
      (A.mul B).bind (fun P => P.mul C) = some X ∧
      (B.mul C).bind (fun Q => A.mul Q) = some X) ∧
    (0 < d → 0 < c →
      ∃ x y : FixedVector S r,
        (A.mul B).bind (fun P => P.mulVec v x₀) = some x ∧
        (B.mulVec v y₀).bind (fun w => A.mulVec w z₀) = some y ∧
        ∀ i < r, x.get i = y.get i) := by
  obtain ⟨P, hP, hP₁, hP₂⟩ := FixedMatrix.mul_spec A B
  obtain ⟨Q, hQ, hQ₁, hQ₂⟩ := FixedMatrix.mul_spec B C
  obtain ⟨X, hX, hX₁, hX₂⟩ := FixedMatrix.mul_spec P C
  obtain ⟨Y, hY, hY₁, hY₂⟩ := FixedMatrix.mul_spec A Q
  refine ⟨⟨P, hP, fun i hi j hj => ?_⟩, ⟨X, ?_, ?_⟩, ?_⟩
  · rw [FixedMatrix.get_eq_some P hi hj, hP₁ i hi j hj]
  · rw [hP]
    exact hX
  · have hXY : X = Y := by
      refine FixedMatrix.eq_of_entries X Y 0 (fun a ha b hb => ?_) hX₂ hY₂
      rw [hX₁ a ha b hb, hY₁ a ha b hb]
      have h₁ : ∀ l ∈ Finset.range c, P.entry a l * C.entry l b =
          ∑ k in Finset.range d, A.entry a k * B.entry k l * C.entry l b := by
        intro l hl
        rw [hP₁ a ha l (Finset.mem_range.mp hl), Finset.sum_mul]
      have h₂ : ∀ k ∈ Finset.range d, A.entry a k * Q.entry k b =
          ∑ l in Finset.range c, A.entry a k * B.entry k l * C.entry l b := by
        intro k hk
        rw [hQ₁ k (Finset.mem_range.mp hk) b hb, Finset.mul_sum]
        exact Finset.sum_congr rfl fun l _ => by ring
      rw [Finset.sum_congr rfl h₁, Finset.sum_congr rfl h₂]
      exact Finset.sum_comm
    rw [hQ, hXY]
    exact hY
  · intro hd hc
    obtain ⟨x, hx, hx₁⟩ := FixedMatrix.mulVec_spec P v x₀ hc
    obtain ⟨w, hw, hw₁⟩ := FixedMatrix.mulVec_spec B v y₀ hc
    obtain ⟨y, hy, hy₁⟩ := FixedMatrix.mulVec_spec A w z₀ hd
    refine ⟨x, y, by rw [hP]; exact hx, by rw [hw]; exact hy, fun i hi => ?_⟩
    rw [hx₁ i hi, hy₁ i hi]
    have h₁ : ∀ l ∈ Finset.range c, P.entry i l * v.get l =
        ∑ k in Finset.range d, A.entry i k * B.entry k l * v.get l := by
      intro l hl
      rw [hP₁ i hi l (Finset.mem_range.mp hl), Finset.sum_mul]
    have h₂ : ∀ k ∈ Finset.range d, A.entry i k * w.get k =
        ∑ l in Finset.range c, A.entry i k * B.entry k l * v.get l := by
      intro k hk
      rw [hw₁ k (Finset.mem_range.mp hk), Finset.mul_sum]
      exact Finset.sum_congr rfl fun l _ => by ring
    rw [Finset.sum_congr rfl h₁, Finset.sum_congr rfl h₂]
    exact Finset.sum_comm

end MatrixProduct

/-- Witness for C32: over the rationals, with `A` of the rows `(1, 2, 3)`,
`(4, 5, 6)`, `B` of the rows `(1, 0)`, `(0, 1)`, `(1, 1)` and `v = (1, 2)`, the
dimensions 3 and 2 are positive, and `(A * B) * v` and `A * (B * v)` both have
a result, with the same entries. -/
theorem FixedMatrix.mul_eq_sum_and_assoc_witness :
    0 < 3 ∧ 0 < 2 ∧
    ∃ x y : FixedVector ℚ 2,
      ((sampleMatrix : FixedMatrix ℚ 2 3).mul (sampleColumns : FixedMatrix ℚ 3 2)).bind
        (fun P => P.mulVec samplePair (fun _ => 0)) = some x ∧
      ((sampleColumns : FixedMatrix ℚ 3 2).mulVec samplePair (fun _ => 0)).bind
        (fun w => (sampleMatrix : FixedMatrix ℚ 2 3).mulVec w (fun _ => 0)) = some y ∧
      ∀ i < 2, x.get i = y.get i :=
  ⟨by decide, by decide,
    (FixedMatrix.mul_eq_sum_and_assoc (sampleMatrix : FixedMatrix ℚ 2 3)
      (sampleColumns : FixedMatrix ℚ 3 2) (⟨fun _ => 0⟩ : FixedMatrix ℚ 2 1) samplePair
      (fun _ => 0) (fun _ => 0) (fun _ => 0)).2.2 (by decide) (by decide)⟩

/-! ## Theorems: the identity matrix -/

section IdentityMatrix

variable {S : Type} [Field S] {n : Nat}

theorem FixedMatrix.entry_update {α : Type} {rows columns : Nat}
    (m : FixedMatrix α rows columns) {i j a b : Nat} (hj : j < columns) (hb : b < columns)
    (value : α) :
    (⟨Function.update m.data_ (i * columns + j) value⟩ : FixedMatrix α rows columns).entry a b =
      if a = i ∧ b = j then value else m.entry a b := by
  by_cases h : a = i ∧ b = j
  · obtain ⟨rfl, rfl⟩ := h
    simp [FixedMatrix.entry]
  · have hne : a * columns + b ≠ i * columns + j := fun e =>
      h (FixedMatrix.flat_index_injective hb hj e)
    simp only [FixedMatrix.entry, Function.update_noteq hne, h, if_false]

/-- The loop of `Identity` on a square matrix: it has a result, with the entry 1
on the diagonal and 0 elsewhere, and zero outside the storage. -/
theorem FixedMatrix.Identity_spec (n : Nat) :
    ∃ I : FixedMatrix S n n, FixedMatrix.Identity n n = some I ∧
      ((∀ a < n, ∀ b < n, I.entry a b = if a = b then 1 else 0) ∧
        ∀ index, (∀ a < n, ∀ b < n, index ≠ a * n + b) → I.data_ index = 0) := by
  refine foldlM_range_invariant _
    (fun k (m : FixedMatrix S n n) => k ≤ n →
      ((∀ a < n, ∀ b < n, m.entry a b = if a = b ∧ a < k then 1 else 0) ∧
        ∀ index, (∀ a < n, ∀ b < n, index ≠ a * n + b) → m.data_ index = 0))
    n ⟨fun _ => 0⟩ (fun _ => ⟨fun a _ b _ => by simp [FixedMatrix.entry], fun _ _ => rfl⟩)
    ?_ |>.imp fun I h => ⟨h.1, fun a ha b hb => ?_, (h.2 (le_refl n)).2⟩
  · intro i hi m hP
    obtain ⟨h₁, h₂⟩ := hP (by omega)
    refine ⟨_, FixedMatrix.set_eq_some m hi hi 1, fun _ => ⟨?_, ?_⟩⟩
    · intro a ha b hb
      rw [FixedMatrix.entry_update m hi hb, h₁ a ha b hb]
      by_cases hai : a = i
      · by_cases hbi : b = i
        · simp [hai, hbi]
        · have : ¬ i = b := fun e => hbi e.symm
          simp [hai, hbi, this]
      · have h₃ : ¬ (a = i ∧ b = i) := fun e => hai e.1
        have h₄ : a < i + 1 ↔ a < i := by omega
        simp only [h₃, if_false, h₄]
    · intro index hne
      simp only [Function.update_noteq (hne i hi i hi)]
      exact h₂ index hne
  · rw [(h.2 (le_refl n)).1 a ha b hb]
    by_cases hab : a = b
    · simp [hab, hb]
    · simp [hab]

/-- C33: on a square size `n`, `Identity()` has the entry 1 at `(i, i)` and 0 at
`(i, j)`, `i ≠ j`; `Identity() * v = v` for a vector of positive size, and
`Identity() * M = M = M * Identity()` for every `n×n` matrix `M`. -/
theorem FixedMatrix.Identity_neutral (M : FixedMatrix S n n) (v : FixedVector S n)
    (x₀ : Nat → S) :
    ∃ I : FixedMatrix S n n, FixedMatrix.Identity n n = some I ∧
      (∀ i < n, I.get i i = some 1) ∧
      (∀ i < n, ∀ j < n, i ≠ j → I.get i j = some 0) ∧
      (0 < n → ∃ x : FixedVector S n, I.mulVec v x₀ = some x ∧ ∀ i < n, x.get i = v.get i) ∧
      (∃ P : FixedMatrix S n n, I.mul M = some P ∧ ∀ i < n, ∀ j < n, P.get i j = M.get i j) ∧
      (∃ P : FixedMatrix S n n, M.mul I = some P ∧ ∀ i < n, ∀ j < n, P.get i j = M.get i j) := by
  obtain ⟨I, hI, hI₁, -⟩ := @FixedMatrix.Identity_spec S _ n
  refine ⟨I, hI, fun i hi => ?_, fun i hi j hj hij => ?_, fun hn => ?_, ?_, ?_⟩
  · rw [FixedMatrix.get_eq_some I hi hi, hI₁ i hi i hi, if_pos rfl]
  · rw [FixedMatrix.get_eq_some I hi hj, hI₁ i hi j hj, if_neg hij]
  · obtain ⟨x, hx, hx₁⟩ := FixedMatrix.mulVec_spec I v x₀ hn
    refine ⟨x, hx, fun i hi => ?_⟩
    rw [hx₁ i hi, Finset.sum_eq_single i]
    · rw [hI₁ i hi i hi, if_pos rfl, one_mul]
    · intro j hj hji
      rw [hI₁ i hi j (Finset.mem_range.mp hj), if_neg fun e => hji e.symm, zero_mul]
    · intro h
      exact absurd (Finset.mem_range.mpr hi) h
  · obtain ⟨P, hP, hP₁, -⟩ := FixedMatrix.mul_spec I M
    refine ⟨P, hP, fun i hi j hj => ?_⟩
    rw [FixedMatrix.get_eq_some P hi hj, FixedMatrix.get_eq_some M hi hj, hP₁ i hi j hj,
      Finset.sum_eq_single i]
    · rw [hI₁ i hi i hi, if_pos rfl, one_mul]
    · intro k hk hki
      rw [hI₁ i hi k (Finset.mem_range.mp hk), if_neg fun e => hki e.symm, zero_mul]
    · intro h
      exact absurd (Finset.mem_range.mpr hi) h
  · obtain ⟨P, hP, hP₁, -⟩ := FixedMatrix.mul_spec M I
    refine ⟨P, hP, fun i hi j hj => ?_⟩
    rw [FixedMatrix.get_eq_some P hi hj, FixedMatrix.get_eq_some M hi hj, hP₁ i hi j hj,
      Finset.sum_eq_single j]
    · rw [hI₁ j hj j hj, if_pos rfl, mul_one]
    · intro k hk hkj
      rw [hI₁ k (Finset.mem_range.mp hk) j hj, if_neg hkj, mul_zero]
    · intro h
      exact absurd (Finset.mem_range.mpr hj) h

end IdentityMatrix

/-- Witness for C33: over the rationals, at the size 3, `Identity() * v` has a
result, with the entries of `v = (1, 2, 3)`. -/
theorem FixedMatrix.Identity_neutral_witness :
    0 < 3 ∧
    ∃ I : FixedMatrix ℚ 3 3, FixedMatrix.Identity 3 3 = some I ∧
      ∃ x : FixedVector ℚ 3, I.mulVec sampleLeft (fun _ => 0) = some x ∧
        ∀ i < 3, x.get i = (sampleLeft : FixedVector ℚ 3).get i := by
  obtain ⟨I, h₁, -, -, h₂, -⟩ :=
    FixedMatrix.Identity_neutral (⟨fun _ => 0⟩ : FixedMatrix ℚ 3 3) sampleLeft (fun _ => 0)
  exact ⟨by decide, I, h₁, h₂ (by decide)⟩

/-! ## Theorems: the symmetric product -/

section Symmetric

variable {S : Type} [Field S] {n : Nat}

/-- The loops of `SymmetricProduct` on two vectors of the same size: every check
passes and the entries are `left[a] * right[a]` on the diagonal and
`½ (left[a] * right[b] + left[b] * right[a])` off the diagonal. -/
theorem SymmetricProduct_spec (left right : FixedVector S n) (result₀ : FixedMatrix S n n) :
    ∃ P : FixedMatrix S n n, SymmetricProduct left right result₀ = some P ∧
      ∀ a < n, ∀ b < n, P.entry a b =
        if a = b then left.get a * right.get a
        else 1 / 2 * (left.get a * right.get b + left.get b * right.get a) := by
  refine foldlM_range_invariant _
    (fun k (m : FixedMatrix S n n) => k ≤ n →
      ∀ a < k, ∀ b < k, m.entry a b =
        if a = b then left.get a * right.get a
        else 1 / 2 * (left.get a * right.get b + left.get b * right.get a))
    n result₀ (fun _ a ha => by omega) ?_ |>.imp fun P h => ⟨h.1, h.2 (le_refl n)⟩
  intro i hi m hP
  have hm := hP (by omega)
  -- the loop over the columns before the diagonal
  obtain ⟨m₁, e₀, e₁⟩ := foldlM_range_invariant
    (fun (result : FixedMatrix S n n) (j : Nat) =>
      (arrayView n left.data_ i).bind fun left_i =>
      (arrayView n right.data_ j).bind fun right_j =>
      (arrayView n left.data_ j).bind fun left_j =>
      (arrayView n right.data_ i).bind fun right_i =>
        let r := 1 / 2 * (left_i * right_j + left_j * right_i)
        (result.set i j r).bind fun result => result.set j i r)
    (fun c (m' : FixedMatrix S n n) => c ≤ i →
      (∀ a < i, ∀ b < i, m'.entry a b = m.entry a b) ∧
      ∀ b < c,
        m'.entry i b = 1 / 2 * (left.get i * right.get b + left.get b * right.get i) ∧
        m'.entry b i = 1 / 2 * (left.get i * right.get b + left.get b * right.get i))
    i m (fun _ => ⟨fun _ _ _ _ => rfl, fun b hb => by omega⟩) (by
      intro j hj m' hQ
      obtain ⟨q₁, q₂⟩ := hQ (by omega)
      have hjn : j < n := by omega
      refine ⟨_, by
        simp only [arrayView_of_lt n _ hi, arrayView_of_lt n _ hjn, Option.some_bind,
          FixedMatrix.set_eq_some m' hi hjn, FixedMatrix.set_eq_some _ hjn hi]
        rfl, fun _ => ⟨?_, ?_⟩⟩
      · intro a ha b hb
        rw [FixedMatrix.entry_update _ hi (by omega), FixedMatrix.entry_update _ hjn (by omega),
          if_neg (fun e => by omega), if_neg (fun e => by omega)]
        exact q₁ a ha b hb
      · intro b hb
        by_cases hbj : b = j
        · subst hbj
          refine ⟨?_, ?_⟩
          · rw [FixedMatrix.entry_update _ hi (by omega),
              FixedMatrix.entry_update _ hjn (by omega), if_neg (fun e => by omega),
              if_pos ⟨rfl, rfl⟩]
            rfl
          · rw [FixedMatrix.entry_update _ hi hi, if_pos ⟨rfl, rfl⟩]
            rfl
        · obtain ⟨p₁, p₂⟩ := q₂ b (by omega)
          refine ⟨?_, ?_⟩
          · rw [FixedMatrix.entry_update _ hi (by omega),
              FixedMatrix.entry_update _ hjn (by omega), if_neg (fun e => by omega),
              if_neg (fun e => hbj e.2)]
            exact p₁
          · rw [FixedMatrix.entry_update _ hi hi, FixedMatrix.entry_update _ hjn hi,
              if_neg (fun e => hbj e.1), if_neg (fun e => by omega)]
            exact p₂)
  obtain ⟨f₁, f₂⟩ := e₁ (le_refl i)
  refine ⟨_, by
    rw [e₀]
    simp only [Option.some_bind, arrayView_of_lt n _ hi, FixedMatrix.set_eq_some m₁ hi hi]
    rfl, fun _ a ha b hb => ?_⟩
  rw [FixedMatrix.entry_update m₁ hi (by omega)]
  by_cases hai : a = i
  · by_cases hbi : b = i
    · subst hai
      subst hbi
      simp [FixedVector.get]
    · have hne : ¬ a = b := fun e => hbi (e ▸ hai)
      subst hai
      rw [if_neg (fun e => hbi e.2), if_neg hne]
      exact (f₂ b (by omega)).1
  · by_cases hbi : b = i
    · subst hbi
      have hne : ¬ a = b := hai
      rw [if_neg (fun e => hai e.1), if_neg hne, (f₂ a (by omega)).2]
      ring
    · rw [if_neg (fun e => hai e.1), f₁ a (by omega) b (by omega)]
      exact hm a (by omega) b (by omega)

/-- The loops of `SymmetricSquare`: every check passes and the entries are
`vector[a] * vector[b]`. -/
theorem SymmetricSquare_spec (vector : FixedVector S n) (result₀ : FixedMatrix S n n) :
    ∃ Q : FixedMatrix S n n, SymmetricSquare vector result₀ = some Q ∧
      ∀ a < n, ∀ b < n, Q.entry a b = vector.get a * vector.get b := by
  refine foldlM_range_invariant _
    (fun k (m : FixedMatrix S n n) => k ≤ n →
      ∀ a < k, ∀ b < k, m.entry a b = vector.get a * vector.get b)
    n result₀ (fun _ a ha => by omega) ?_ |>.imp fun Q h => ⟨h.1, h.2 (le_refl n)⟩
  intro i hi m hP
  have hm := hP (by omega)
  obtain ⟨m₁, e₀, e₁⟩ := foldlM_range_invariant
    (fun (result : FixedMatrix S n n) (j : Nat) =>
      (arrayView n vector.data_ i).bind fun vector_i =>
      (arrayView n vector.data_ j).bind fun vector_j =>
        let r := vector_i * vector_j
        (result.set i j r).bind fun result => result.set j i r)
    (fun c (m' : FixedMatrix S n n) => c ≤ i →
      (∀ a < i, ∀ b < i, m'.entry a b = m.entry a b) ∧
      ∀ b < c,
        m'.entry i b = vector.get i * vector.get b ∧
        m'.entry b i = vector.get i * vector.get b)
    i m (fun _ => ⟨fun _ _ _ _ => rfl, fun b hb => by omega⟩) (by
      intro j hj m' hQ
      obtain ⟨q₁, q₂⟩ := hQ (by omega)
      have hjn : j < n := by omega
      refine ⟨_, by
        simp only [arrayView_of_lt n _ hi, arrayView_of_lt n _ hjn, Option.some_bind,
          FixedMatrix.set_eq_some m' hi hjn, FixedMatrix.set_eq_some _ hjn hi]
        rfl, fun _ => ⟨?_, ?_⟩⟩
      · intro a ha b hb
        rw [FixedMatrix.entry_update _ hi (by omega), FixedMatrix.entry_update _ hjn (by omega),
          if_neg (fun e => by omega), if_neg (fun e => by omega)]
        exact q₁ a ha b hb
      · intro b hb
        by_cases hbj : b = j
        · subst hbj
          refine ⟨?_, ?_⟩
          · rw [FixedMatrix.entry_update _ hi (by omega),
              FixedMatrix.entry_update _ hjn (by omega), if_neg (fun e => by omega),
              if_pos ⟨rfl, rfl⟩]
            rfl
          · rw [FixedMatrix.entry_update _ hi hi, if_pos ⟨rfl, rfl⟩]
            rfl
        · obtain ⟨p₁, p₂⟩ := q₂ b (by omega)
          refine ⟨?_, ?_⟩
          · rw [FixedMatrix.entry_update _ hi (by omega),
              FixedMatrix.entry_update _ hjn (by omega), if_neg (fun e => by omega),
              if_neg (fun e => hbj e.2)]
            exact p₁
          · rw [FixedMatrix.entry_update _ hi hi, FixedMatrix.entry_update _ hjn hi,
              if_neg (fun e => hbj e.1), if_neg (fun e => by omega)]
            exact p₂)
  obtain ⟨f₁, f₂⟩ := e₁ (le_refl i)
  refine ⟨_, by
    rw [e₀]
    simp only [Option.some_bind, arrayView_of_lt n _ hi, FixedMatrix.set_eq_some m₁ hi hi]
    rfl, fun _ a ha b hb => ?_⟩
  rw [FixedMatrix.entry_update m₁ hi (by omega)]
  by_cases hai : a = i
  · by_cases hbi : b = i
    · subst hai
      subst hbi
      simp [FixedVector.get, Pow2]
    · subst hai
      rw [if_neg (fun e => hbi e.2)]
      exact (f₂ b (by omega)).1
  · by_cases hbi : b = i
    · subst hbi
      rw [if_neg (fun e => hai e.1), (f₂ a (by omega)).2]
      ring
    · rw [if_neg (fun e => hai e.1), f₁ a (by omega) b (by omega)]
      exact hm a (by omega) b (by omega)

/-- C35: for vectors of the same size `n`, over scalars where 2 is not zero,
`SymmetricProduct(left, right)(i, j) = ½ (left[i] right[j] + left[j] right[i])`
for all `i, j < n`, the diagonal included; the result is symmetric; and
`SymmetricSquare(v)` has the entries of `SymmetricProduct(v, v)`. -/
theorem SymmetricProduct_entries (left right vector : FixedVector S n)
    (result₀ square₀ product₀ : FixedMatrix S n n) (htwo : (2 : S) ≠ 0) :
    (∃ P : FixedMatrix S n n, SymmetricProduct left right result₀ = some P ∧
      (∀ i < n, ∀ j < n, P.get i j =
        some (1 / 2 * (left.get i * right.get j + left.get j * right.get i))) ∧
      ∀ i < n, ∀ j < n, P.get i j = P.get j i) ∧
    ∃ Q P' : FixedMatrix S n n, SymmetricSquare vector square₀ = some Q ∧
      SymmetricProduct vector vector product₀ = some P' ∧
      ∀ i < n, ∀ j < n, Q.get i j = P'.get i j := by
  have key : ∀ (l r : FixedVector S n) (P : FixedMatrix S n n),
      (∀ a < n, ∀ b < n, P.entry a b =
        if a = b then l.get a * r.get a
        else 1 / 2 * (l.get a * r.get b + l.get b * r.get a)) →
      ∀ i < n, ∀ j < n, P.entry i j = 1 / 2 * (l.get i * r.get j + l.get j * r.get i) := by
    intro l r P h i hi j hj
    rw [h i hi j hj]
    by_cases hij : i = j
    · subst hij
      rw [if_pos rfl]
      field_simp
      ring
    · rw [if_neg hij]
  obtain ⟨P, hP, hP₁⟩ := SymmetricProduct_spec left right result₀
  obtain ⟨Q, hQ, hQ₁⟩ := SymmetricSquare_spec vector square₀
  obtain ⟨P', hP', hP₁'⟩ := SymmetricProduct_spec vector vector product₀
  refine ⟨⟨P, hP, fun i hi j hj => ?_, fun i hi j hj => ?_⟩, Q, P', hQ, hP', fun i hi j hj => ?_⟩
  · rw [FixedMatrix.get_eq_some P hi hj, key left right P hP₁ i hi j hj]
  · rw [FixedMatrix.get_eq_some P hi hj, FixedMatrix.get_eq_some P hj hi,
      key left right P hP₁ i hi j hj, key left right P hP₁ j hj i hi]
    congr 1
    ring
  · rw [FixedMatrix.get_eq_some Q hi hj, FixedMatrix.get_eq_some P' hi hj, hQ₁ i hi j hj,
      key vector vector P' hP₁' i hi j hj]
    congr 1
    field_simp
    ring

end Symmetric

/-- Witness for C35: over the rationals, where 2 is not zero, for the vectors
`(1, 2, 3)` and `(4, 5, 6)`: the entry `(0, 1)` of the symmetric product is
`½ (1·5 + 2·4) = 13/2`. -/
theorem SymmetricProduct_entries_witness :
    (2 : ℚ) ≠ 0 ∧
    ∃ P : FixedMatrix ℚ 3 3,
      SymmetricProduct (sampleLeft : FixedVector ℚ 3) sampleRight ⟨fun _ => 0⟩ = some P ∧
      P.get 0 1 = some (13 / 2) := by
  obtain ⟨⟨P, h₁, h₂, -⟩, -⟩ :=
    SymmetricProduct_entries (sampleLeft : FixedVector ℚ 3) sampleRight sampleLeft
      ⟨fun _ => 0⟩ ⟨fun _ => 0⟩ ⟨fun _ => 0⟩ (by norm_num)
  refine ⟨by norm_num, P, h₁, (h₂ 0 (by decide) 1 (by decide)).trans ?_⟩
  simp only [sampleLeft, sampleRight, FixedVector.ofData, FixedVector.get, arrayOfList]
  norm_num

/-! ## Theorems: the comparator of the samples of a trajectory -/

section PrecedesOrder

variable {F : Type} [LinearOrderedField F]

theorem Precedes.value_value_iff (left right : value_type F) :
    Precedes.value_value left right = true ↔ left.time < right.time := by
  simp [Precedes.value_value]

theorem Precedes.value_value_eq_false_iff (left right : value_type F) :
    Precedes.value_value left right = false ↔ right.time ≤ left.time := by
  simp [Precedes.value_value]

/-- In a sorted timeline two samples at the same time are the same sample. -/
theorem Timeline.Sorted.eq_of_time_eq :
    ∀ (timeline : Timeline F), Timeline.Sorted timeline →
      ∀ a ∈ timeline, ∀ b ∈ timeline, a.time = b.time → a = b := by
  intro timeline
  induction timeline with
  | nil => intro _ a ha; simp at ha
  | cons head tail ih =>
    intro hsorted a ha b hb hab
    obtain ⟨h₁, h₂⟩ := List.pairwise_cons.mp hsorted
    rcases List.mem_cons.mp ha with rfl | ha'
    · rcases List.mem_cons.mp hb with rfl | hb'
      · rfl
      · have := (Precedes.value_value_iff _ _).mp (h₁ b hb')
        rw [hab] at this
        exact absurd this (lt_irrefl _)
    · rcases List.mem_cons.mp hb with rfl | hb'
      · have := (Precedes.value_value_iff _ _).mp (h₁ a ha')
        rw [hab] at this
        exact absurd this (lt_irrefl _)
      · exact ih h₂ a ha' b hb' hab

theorem Timeline.mem_insert (sample : value_type F) :
    ∀ (timeline : Timeline F), ∀ x ∈ Timeline.insert sample timeline,
      x = sample ∨ x ∈ timeline := by
  intro timeline
  induction timeline with
  | nil =>
    intro x hx
    simp only [Timeline.insert, List.mem_singleton] at hx
    exact Or.inl hx
  | cons head tail ih =>
    intro x hx
    simp only [Timeline.insert] at hx
    split_ifs at hx with h₁ h₂
    · rcases List.mem_cons.mp hx with rfl | hx'
      · exact Or.inl rfl
      · exact Or.inr hx'
    · rcases List.mem_cons.mp hx with rfl | hx'
      · exact Or.inr (List.mem_cons_self _ _)
      · rcases ih x hx' with rfl | hx''
        · exact Or.inl rfl
        · exact Or.inr (List.mem_cons_of_mem _ hx'')
    · exact Or.inr hx

/-- Insertion keeps a timeline sorted. -/
theorem Timeline.insert_Sorted (sample : value_type F) :
    ∀ (timeline : Timeline F), Timeline.Sorted timeline →
      Timeline.Sorted (Timeline.insert sample timeline) := by
  intro timeline
  induction timeline with
  | nil =>
    intro _
    simp [Timeline.insert, Timeline.Sorted]
  | cons head tail ih =>
    intro hsorted
    obtain ⟨h₁, h₂⟩ := List.pairwise_cons.mp hsorted
    simp only [Timeline.insert]
    split_ifs with c₁ c₂
    · refine List.pairwise_cons.mpr ⟨?_, hsorted⟩
      intro x hx
      rcases List.mem_cons.mp hx with rfl | hx'
      · exact c₁
      · exact (Precedes.value_value_iff _ _).mpr
          (lt_trans ((Precedes.value_value_iff _ _).mp c₁)
            ((Precedes.value_value_iff _ _).mp (h₁ x hx')))
    · refine List.pairwise_cons.mpr ⟨?_, ih h₂⟩
      intro x hx
      rcases Timeline.mem_insert sample tail x hx with rfl | hx'
      · exact c₂
      · exact h₁ x hx'
    · exact hsorted

/-- Inserting a sample at an instant that the timeline holds changes nothing. -/
theorem Timeline.insert_of_time_mem (sample : value_type F) :
    ∀ (timeline : Timeline F), Timeline.Sorted timeline →
      (∃ a ∈ timeline, a.time = sample.time) → Timeline.insert sample timeline = timeline := by
  intro timeline
  induction timeline with
  | nil =>
    rintro _ ⟨a, ha, _⟩
    simp at ha
  | cons head tail ih =>
    rintro hsorted ⟨a, ha, hat⟩
    obtain ⟨h₁, h₂⟩ := List.pairwise_cons.mp hsorted
    simp only [Timeline.insert]
    split_ifs with c₁ c₂
    · exfalso
      have hlt := (Precedes.value_value_iff _ _).mp c₁
      rcases List.mem_cons.mp ha with rfl | ha'
      · rw [hat] at hlt
        exact lt_irrefl _ hlt
      · have := (Precedes.value_value_iff _ _).mp (h₁ a ha')
        rw [hat] at this
        exact lt_irrefl _ (lt_trans hlt this)
    · have hlt := (Precedes.value_value_iff _ _).mp c₂
      rcases List.mem_cons.mp ha with rfl | ha'
      · rw [hat] at hlt
        exact absurd hlt (lt_irrefl _)
      · rw [ih h₂ ⟨a, ha', hat⟩]
    · rfl

/-- C36: `Precedes` is a strict weak ordering determined by the time alone: it
is irreflexive and transitive, two samples are equivalent exactly when they
have the same time, whatever their degrees of freedom, so that a sorted
timeline holds at most one sample per instant, and the overloads with an
instant agree with the one on two samples. -/
theorem Precedes_strict_weak_ordering :
    (∀ a : value_type F, Precedes.value_value a a = false) ∧
    (∀ a b c : value_type F, Precedes.value_value a b = true →
      Precedes.value_value b c = true → Precedes.value_value a c = true) ∧
    (∀ a b : value_type F,
      (Precedes.value_value a b = false ∧ Precedes.value_value b a = false) ↔
        a.time = b.time) ∧
    (∀ a b c : value_type F,
      (Precedes.value_value a b = false ∧ Precedes.value_value b a = false) →
      (Precedes.value_value b c = false ∧ Precedes.value_value c b = false) →
      (Precedes.value_value a c = false ∧ Precedes.value_value c a = false)) ∧
    (∀ a a' b b' : value_type F, a.time = a'.time → b.time = b'.time →
      Precedes.value_value a b = Precedes.value_value a' b') ∧
    (∀ a b : value_type F,
      Precedes.instant_value a.time b = Precedes.value_value a b ∧
      Precedes.value_value a b = Precedes.value_instant a b.time) ∧
    (∀ timeline : Timeline F, Timeline.Sorted timeline →
      ∀ a ∈ timeline, ∀ b ∈ timeline, a.time = b.time → a = b) ∧
    (∀ (timeline : Timeline F) (sample : value_type F), Timeline.Sorted timeline →
      Timeline.Sorted (Timeline.insert sample timeline) ∧
      ((∃ a ∈ timeline, a.time = sample.time) →
        Timeline.insert sample timeline = timeline)) := by
  have hequiv : ∀ a b : value_type F,
      (Precedes.value_value a b = false ∧ Precedes.value_value b a = false) ↔
        a.time = b.time := by
    intro a b
    rw [Precedes.value_value_eq_false_iff, Precedes.value_value_eq_false_iff]
    exact ⟨fun h => le_antisymm h.2 h.1, fun h => ⟨le_of_eq h.symm, le_of_eq h⟩⟩
  refine ⟨?_, ?_, hequiv, ?_, ?_, fun a b => ⟨rfl, rfl⟩, Timeline.Sorted.eq_of_time_eq,
    fun timeline sample hsorted =>
      ⟨Timeline.insert_Sorted sample timeline hsorted,
       Timeline.insert_of_time_mem sample timeline hsorted⟩⟩
  · intro a
    simp [Precedes.value_value]
  · intro a b c hab hbc
    exact (Precedes.value_value_iff _ _).mpr
      (lt_trans ((Precedes.value_value_iff _ _).mp hab) ((Precedes.value_value_iff _ _).mp hbc))
  · intro a b c hab hbc
    exact (hequiv a c).mpr (((hequiv a b).mp hab).trans ((hequiv b c).mp hbc))
  · intro a a' b b' ha hb
    simp only [Precedes.value_value, ha, hb]

end PrecedesOrder

/-- Witness for C36: over the rationals, two samples at the instant 1 with
different degrees of freedom are equivalent, and inserting the second in the
timeline that holds the first leaves the timeline unchanged. -/
theorem Precedes_strict_weak_ordering_witness :
    ((⟨1, sampleDegreesOfFreedom⟩ : value_type ℚ) ≠ ⟨1, ⟨Position.origin, unmoving⟩⟩) ∧
    (Precedes.value_value (⟨1, sampleDegreesOfFreedom⟩ : value_type ℚ)
        ⟨1, ⟨Position.origin, unmoving⟩⟩ = false ∧
      Precedes.value_value (⟨1, ⟨Position.origin, unmoving⟩⟩ : value_type ℚ)
        ⟨1, sampleDegreesOfFreedom⟩ = false) ∧
    Timeline.insert (⟨1, ⟨Position.origin, unmoving⟩⟩ : value_type ℚ)
        [⟨1, sampleDegreesOfFreedom⟩] = [⟨1, sampleDegreesOfFreedom⟩] :=
  ⟨by decide,
   ((@Precedes_strict_weak_ordering ℚ _).2.2.1 _ _).mpr rfl,
   ((@Precedes_strict_weak_ordering ℚ _).2.2.2.2.2.2.2 [⟨1, sampleDegreesOfFreedom⟩]
      ⟨1, ⟨Position.origin, unmoving⟩⟩ (List.pairwise_singleton _ _)).2
      ⟨_, List.mem_singleton_self _, rfl⟩⟩

/-! ## Theorems: the check of the Coriolis term on `double` values -/

namespace Binary64

theorem zero_eq_finite : (0 : Binary64) = finite 0 := rfl

theorem one_eq_finite : (1 : Binary64) = finite 1 := rfl

theorem mul_eq (a b : Binary64) : a * b = mul a b := rfl

theorem add_eq (a b : Binary64) : a + b = add a b := rfl

theorem sub_eq (a b : Binary64) : a - b = add a (neg b) := rfl

theorem div_eq (a b : Binary64) : a / b = div a b := rfl

theorem R3Element.triple_zero : (0 : R3Element Binary64) = ⟨finite 0, finite 0, finite 0⟩ := rfl

theorem R3Element.triple_smul (l : Binary64) (r : R3Element Binary64) :
    l * r = ⟨mul l r.x, mul l r.y, mul l r.z⟩ := rfl

theorem R3Element.triple_div (l : R3Element Binary64) (r : Binary64) :
    l / r = ⟨div l.x r, div l.y r, div l.z r⟩ := rfl

theorem round_of_lt {q : ℚ} (h : |q| < 2 ^ 1024) : round q = finite q := by
  simp [round, not_le.mpr h]

theorem round_zero : round 0 = finite 0 :=
  round_of_lt (by norm_num)

theorem finite_mul_zero (a : ℚ) : (finite a : Binary64) * 0 = 0 := by
  show mul (finite a) (finite 0) = finite 0
  simp [mul, round_zero]

theorem infinity_mul_zero (s : Bool) : (infinity s : Binary64) * 0 = nan := by
  show mul (infinity s) (finite 0) = nan
  simp [mul]

theorem nan_mul (x : Binary64) : (nan : Binary64) * x = nan := by
  show mul nan x = nan
  cases x <;> rfl

theorem zero_sub_zero : (0 : Binary64) - 0 = 0 := by
  show add (finite 0) (neg (finite 0)) = finite 0
  simp [add, neg, round_zero]

theorem nan_sub (x : Binary64) : (nan : Binary64) - x = nan := by
  show add nan (neg x) = nan
  cases x <;> rfl

theorem sub_nan (x : Binary64) : x - (nan : Binary64) = nan := by
  show add x (neg nan) = nan
  cases x <;> rfl

theorem zero_div_Radian : (0 : Binary64) / Radian = 0 := by
  show div (finite 0) (finite 1) = finite 0
  simp [div, round_zero]

theorem nan_div (x : Binary64) : (nan : Binary64) / x = nan := by
  show div nan x = nan
  cases x <;> rfl

theorem eq_zero_zero : eq (0 : Binary64) 0 = true := by
  show eq (finite 0) (finite 0) = true
  simp [eq]

theorem eq_nan (x : Binary64) : eq nan x = false := by
  cases x <;> rfl

/-- The Coriolis term at rest, from the coordinates of `-2 Ω`: each coordinate of
`-2 Ω` is multiplied by zero in two coordinates of the cross product. -/
theorem coriolis_at_rest (l : R3Element Binary64) :
    (R3Element.eq (Bivector.mulVector l unmoving / Radian) 0 = true ↔
      (l.x.isFinite = true ∧ l.y.isFinite = true ∧ l.z.isFinite = true)) ∧
    ((l.x.isFinite = true ∧ l.y.isFinite = true ∧ l.z.isFinite = true) →
      Bivector.mulVector l unmoving / Radian = 0) := by
  obtain ⟨x, y, z⟩ := l
  have hdiv : ∀ v : R3Element Binary64, v / Radian = ⟨v.x / Radian, v.y / Radian, v.z / Radian⟩ :=
    fun _ => rfl
  have hzero : (0 : R3Element Binary64) = ⟨0, 0, 0⟩ := rfl
  cases x <;> cases y <;> cases z <;>
    simp [Bivector.mulVector, R3Element.Cross, R3Element.eq, unmoving, hdiv, hzero, isFinite,
      finite_mul_zero, infinity_mul_zero, nan_mul, zero_sub_zero, nan_sub, sub_nan,
      zero_div_Radian, nan_div, eq_zero_zero, eq_nan]

end Binary64

/-- The double of a finite value of magnitude below `2^1023` is finite. -/
theorem Binary64.isFinite_doubled {a : ℚ} (h : |a| < 2 ^ 1023) :
    (Binary64.finite (-2) * Binary64.finite a).isFinite = true := by
  have h' : |(-2) * a| < 2 ^ 1024 := by
    rw [abs_mul, abs_neg, abs_two]
    linarith
  show (Binary64.round ((-2) * a)).isFinite = true
  rw [Binary64.round_of_lt h']
  rfl

end Principia
